import Mathlib

/-! Position based fluids: host side of the simulation (`main.cpp`).

A shallow embedding of the simulation set-up and update path of `main.cpp`:
the boot-time configuration, the mutable tuning parameters and `updateParams`,
the buffers built by `setupParticleData`, and the host part of `fluidUpdate`
(time stamp, Clear, uniform upload).  Floating point values are embedded as
exact rationals; unsigned 32-bit indices as natural numbers.

The vertex shader `shaders/fluidUpdate.glsl`, which performs the Hash and
FindNeighbors passes on the GPU, is not part of the sources; it is modelled
from the specification in the second half of the definitions.
-/

namespace PBF

/-! ## Configuration (main.cpp, 81-116) -/

/-- The sentinel `0xffffffff` that marks an empty bucket head or the end of a chain. -/
def NONE : Nat := 0xffffffff

def WORK_GROUP_SIZE : Nat := 1536
def NUM_PARTICLES : Nat := WORK_GROUP_SIZE * 10
def HASH_MAP_SIZE : Nat := NUM_PARTICLES
def MAX_NEIGHBORS : Nat := 500
def SUBSTEPS : Nat := 2
def SOLVER_ITERS : Nat := 4

/-- Modelled from the spec: the constant π of the closed forms.  The source takes it
from the `M_PI` macro of the C math header, which is not part of the sources; the
value is the decimal that header gives. -/
def M_PI : ℚ := 3.14159265358979323846

def REST_DENSITY : ℚ := 600.0
def SUPPORT_RADIUS : ℚ := 0.5
def EPSILON : ℚ := 6000.0
def MAX_DELTA_T : ℚ := 0.0083
def COLLISION_EPSILON : ℚ := 0.0001
def KPOLY : ℚ := 315.0 / (64.0 * M_PI * SUPPORT_RADIUS ^ 9)
def KSPIKY : ℚ := -45.0 / (M_PI * SUPPORT_RADIUS ^ 6)
def SCORR : ℚ := 0.01
def PRESSURE_RADIUS : ℚ := 0.1 * SUPPORT_RADIUS
def DCORR : ℚ := KPOLY * (SUPPORT_RADIUS ^ 2 - PRESSURE_RADIUS ^ 2) ^ 3
def PCORR : Int := 4
def KXSPH : ℚ := 0.003
def VORT_EPSILON : ℚ := 0.0013

/-- The mutable tuning globals `restDensity … kXsph` (main.cpp, 106-115). -/
structure Params where
  restDensity : ℚ
  epsilon : ℚ
  supportRad : ℚ
  kPoly : ℚ
  kSpiky : ℚ
  pressureRad : ℚ
  dCorr : ℚ
  vEps : ℚ
  sCorr : ℚ
  kXsph : ℚ
  deriving DecidableEq, Repr

/-- The initial values of the tuning globals.  The source initialises `kSpiky` from
itself (`float kSpiky = kSpiky;`), so the global keeps the zero it has as an object of
static storage; every other global is initialised from its upper-case constant. -/
def bootParams : Params where
  restDensity := REST_DENSITY
  epsilon := EPSILON
  supportRad := SUPPORT_RADIUS
  kPoly := KPOLY
  kSpiky := 0
  pressureRad := PRESSURE_RADIUS
  dCorr := DCORR
  vEps := VORT_EPSILON
  sCorr := SCORR
  kXsph := KXSPH

/-! ## Buffers (main.cpp, 252-277) -/

structure NodeType where
  nextNodeIndex : Nat
  particleIndex : Nat
  deriving DecidableEq, Repr

structure HashType where
  headNodeIndex : Nat
  deriving DecidableEq, Repr

structure NeighborType where
  count : Nat
  neighboring : List Nat
  deriving DecidableEq, Repr

/-- The GPU buffers of `NeighborSSBOS`: bucket heads, node pool, the two read-only
"clear" images, the neighbour lists and the atomic counter. -/
structure Buffers where
  hashMap : List HashType
  hashClear : List HashType
  linkedList : List NodeType
  listClear : List NodeType
  neighborData : List NeighborType
  counter : Nat
  deriving DecidableEq, Repr

/-- The `FluidDynamics` uniform block, in the order of `fluidNames` (main.cpp, 548-553). -/
structure FluidUniforms where
  maxParticles : Nat
  mapSize : Nat
  supportRadius : ℚ
  dt : ℚ
  maxNeighbors : Nat
  solverIters : Nat
  restDensity : ℚ
  epsilon : ℚ
  collisionEpsilon : ℚ
  kpoly : ℚ
  kspiky : ℚ
  scorr : ℚ
  dcorr : ℚ
  pcorr : Int
  kxsph : ℚ
  vortEpsilon : ℚ
  time : ℚ
  deriving DecidableEq, Repr

/-- The part of the process state the simulation path reads and writes. -/
structure World where
  params : Params
  simTime : ℚ
  lastTime : ℚ
  ubo : FluidUniforms
  bufs : Buffers
  deriving DecidableEq, Repr

/-! ## setupParticleData and setupSSBOs (main.cpp, 509-531 and 717-755) -/

/-- The four host arrays and the neighbour data as `setupParticleData` leaves them
(main.cpp, 509-531), for a pool of `n` particles and `h` buckets. -/
def setupParticleDataWith (n h : Nat) : Buffers where
  hashMap := List.replicate h ⟨0xffffffff⟩
  hashClear := List.replicate h ⟨0xffffffff⟩
  linkedList := List.replicate n ⟨0xffffffff, 0xffffffff⟩
  listClear := List.replicate n ⟨0xffffffff, 0xffffffff⟩
  neighborData := List.replicate n ⟨0, List.replicate MAX_NEIGHBORS 0xffffffff⟩
  counter := 0

def setupParticleData : Buffers :=
  setupParticleDataWith NUM_PARTICLES HASH_MAP_SIZE

/-- The GPU buffers as `setupSSBOs` creates them (main.cpp, 717-755).  The bucket-head
buffer and the counter are allocated without data, so their first contents are whatever
the driver leaves there (`fresh`, `freshCounter`); the node pool is uploaded from
`listClear`. -/
def setupSSBOs (host : Buffers) (fresh : List HashType) (freshCounter : Nat) : Buffers where
  hashMap := fresh
  hashClear := host.hashClear
  linkedList := host.listClear
  listClear := host.listClear
  neighborData := host.neighborData
  counter := freshCounter

/-- The `FluidDynamics` block as `setupUBOs` fills it (main.cpp, 613-629). -/
def setupUBOs (p : Params) (simTime : ℚ) : FluidUniforms where
  maxParticles := NUM_PARTICLES
  mapSize := HASH_MAP_SIZE
  supportRadius := p.supportRad
  dt := MAX_DELTA_T
  maxNeighbors := MAX_NEIGHBORS
  solverIters := SOLVER_ITERS
  restDensity := p.restDensity
  epsilon := p.epsilon
  collisionEpsilon := COLLISION_EPSILON
  kpoly := KPOLY
  kspiky := KSPIKY
  scorr := SCORR
  dcorr := DCORR
  pcorr := PCORR
  kxsph := KXSPH
  vortEpsilon := VORT_EPSILON
  time := simTime

/-- The state `main` enters its loop with (main.cpp, 1421-1431): `startTime` is the clock
reading stored in `lastTime`. -/
def bootWorld (startTime : ℚ) (fresh : List HashType) (freshCounter : Nat) : World where
  params := bootParams
  simTime := 0.0
  lastTime := startTime
  ubo := setupUBOs bootParams 0.0
  bufs := setupSSBOs setupParticleData fresh freshCounter

/-- A boot state: the clock starts at 0 and the unwritten bucket-head buffer holds zeros. -/
def sampleBootWorld : World :=
  bootWorld 0 (List.replicate HASH_MAP_SIZE ⟨0⟩) 0

/-! ## fluidUpdate (main.cpp, 1184-1252) -/

/-- The block "TIME AND TIMESTAMP" (main.cpp, 1186-1193) for a clock reading `time`:
returns the timestep `dt` and the new `(lastTime, simTime)`.  The maximum is a
parameter; `fluidUpdate` passes `MAX_DELTA_T`.  The arithmetic is exact;
`timeAndTimestampFloat` is the block with the rounding of its `float` variables. -/
def timeAndTimestamp (maxDeltaT time lastTime simTime : ℚ) : ℚ × ℚ × ℚ :=
  let dt := time - lastTime
  let lastTime := time
  if dt > maxDeltaT then
    let dt := maxDeltaT
    (dt, lastTime, simTime + dt)
  else
    (dt, lastTime, simTime)

/-- The call `glCopyBufferSubData(read, write, 0, 0, n elements)`: the first `n` elements
of `write` are replaced by those of `read`; a range that leaves either buffer is an
error and copies nothing. -/
def copyBufferSubData {α : Type} (read write : List α) (n : Nat) : List α :=
  if n ≤ read.length ∧ n ≤ write.length then read.take n ++ write.drop n else write

/-- The block "Clear buffer data" (main.cpp, 1215-1222): the bucket heads are copied
from `hashClear` and the atomic counter is set to zero.  Nothing else is written. -/
def clearBufferData (b : Buffers) : Buffers :=
  { b with
    hashMap := copyBufferSubData b.hashClear b.hashMap HASH_MAP_SIZE
    counter := 0 }

/-- The host part of `fluidUpdate` up to the draw call: time stamp, Clear, upload of
`dt` into the uniform block (main.cpp, 1186-1226). -/
def fluidUpdateHost (time : ℚ) (w : World) : World :=
  let r := timeAndTimestamp MAX_DELTA_T time w.lastTime w.simTime
  { w with
    lastTime := r.2.1
    simTime := r.2.2
    bufs := clearBufferData w.bufs
    ubo := { w.ubo with dt := r.1 } }

/-- One substep: the host part followed by the GPU pass `draw` issued by
`glDrawArrays` (main.cpp, 1236-1242), which reads the uniforms and rewrites the buffers. -/
def fluidUpdate (draw : FluidUniforms → Buffers → Buffers) (time : ℚ) (w : World) : World :=
  let w1 := fluidUpdateHost time w
  { w1 with bufs := draw w1.ubo w1.bufs }

/-! ## updateParams (main.cpp, 1330-1417) -/

/-- The keys `updateParams` polls. -/
structure Keys where
  keyR : Bool
  keyE : Bool
  keyF : Bool
  keyD : Bool
  keyY : Bool
  keyT : Bool
  keyV : Bool
  keyC : Bool
  key8 : Bool
  key7 : Bool
  key5 : Bool
  key4 : Bool
  deriving DecidableEq, Repr

/-- The tuning globals together with the uniform block `updateParams` pushes them to. -/
structure ParamState where
  params : Params
  ubo : FluidUniforms
  deriving DecidableEq, Repr

/-- The step `ceil(100 * dt)` of the rest density and epsilon keys. -/
def coarseStep (dt : ℚ) : ℚ := ((⌈100 * dt⌉ : ℤ) : ℚ)

/-- The step `dt / 100.0` of the other keys. -/
def fineStep (dt : ℚ) : ℚ := dt / 100.0

/-- The four assignments that follow a change of `supportRad` (main.cpp, 1362-1365 and
1374-1377), with the four uploads (1366-1369 and 1378-1381).  The arithmetic is exact and
unbounded; `recomputeDerivedFloat` is the same block with the range of `float`. -/
def recomputeDerived (s : ParamState) : ParamState :=
  let supportRad := s.params.supportRad
  let kPoly := 315.0 / (64.0 * M_PI * supportRad ^ 9)
  let kSpiky := -45.0 / (M_PI * supportRad ^ 6)
  let pressureRad := 0.1 * supportRad
  let dCorr := kPoly * (supportRad ^ 2 - pressureRad ^ 2) ^ 3
  { params := { s.params with kPoly := kPoly, kSpiky := kSpiky,
                              pressureRad := pressureRad, dCorr := dCorr }
    ubo := { s.ubo with supportRadius := supportRad, kpoly := kPoly,
                        kspiky := kSpiky, dcorr := dCorr } }

def onKeyR (dt : ℚ) (s : ParamState) : ParamState :=
  let restDensity := s.params.restDensity + coarseStep dt
  { params := { s.params with restDensity := restDensity }
    ubo := { s.ubo with restDensity := restDensity } }

def onKeyE (dt : ℚ) (s : ParamState) : ParamState :=
  if s.params.restDensity > coarseStep dt then
    let restDensity := s.params.restDensity - coarseStep dt
    { params := { s.params with restDensity := restDensity }
      ubo := { s.ubo with restDensity := restDensity } }
  else s

def onKeyF (dt : ℚ) (s : ParamState) : ParamState :=
  let epsilon := s.params.epsilon + coarseStep dt
  { params := { s.params with epsilon := epsilon }
    ubo := { s.ubo with epsilon := epsilon } }

def onKeyD (dt : ℚ) (s : ParamState) : ParamState :=
  if s.params.epsilon > coarseStep dt then
    let epsilon := s.params.epsilon - coarseStep dt
    { params := { s.params with epsilon := epsilon }
      ubo := { s.ubo with epsilon := epsilon } }
  else s

def onKeyY (dt : ℚ) (s : ParamState) : ParamState :=
  recomputeDerived { s with params := { s.params with supportRad := s.params.supportRad + fineStep dt } }

def onKeyT (dt : ℚ) (s : ParamState) : ParamState :=
  if s.params.supportRad > fineStep dt then
    recomputeDerived { s with params := { s.params with supportRad := s.params.supportRad - fineStep dt } }
  else s

def onKeyV (dt : ℚ) (s : ParamState) : ParamState :=
  let vEps := s.params.vEps + fineStep dt
  { params := { s.params with vEps := vEps }
    ubo := { s.ubo with vortEpsilon := vEps } }

def onKeyC (dt : ℚ) (s : ParamState) : ParamState :=
  if s.params.vEps > fineStep dt then
    let vEps := s.params.vEps - fineStep dt
    { params := { s.params with vEps := vEps }
      ubo := { s.ubo with vortEpsilon := vEps } }
  else s

def onKey8 (dt : ℚ) (s : ParamState) : ParamState :=
  let sCorr := s.params.sCorr + fineStep dt
  { params := { s.params with sCorr := sCorr }
    ubo := { s.ubo with scorr := sCorr } }

def onKey7 (dt : ℚ) (s : ParamState) : ParamState :=
  if s.params.sCorr > fineStep dt then
    let sCorr := s.params.sCorr - fineStep dt
    { params := { s.params with sCorr := sCorr }
      ubo := { s.ubo with scorr := sCorr } }
  else s

def onKey5 (dt : ℚ) (s : ParamState) : ParamState :=
  let kXsph := s.params.kXsph + fineStep dt
  { params := { s.params with kXsph := kXsph }
    ubo := { s.ubo with kxsph := kXsph } }

def onKey4 (dt : ℚ) (s : ParamState) : ParamState :=
  if s.params.kXsph > fineStep dt then
    let kXsph := s.params.kXsph - fineStep dt
    { params := { s.params with kXsph := kXsph }
      ubo := { s.ubo with kxsph := kXsph } }
  else s

/-- Runs a key handler when its key is down. -/
def whenKey (down : Bool) (f : ParamState → ParamState) (s : ParamState) : ParamState :=
  if down then f s else s

/-- The function `updateParams` (main.cpp, 1330-1417); `dt` is the time since the previous
call and `simTime` the accumulator it uploads first.  The keys are polled in the order
R, E, F, D, Y, T, V, C, 8, 7, 5, 4. -/
def updateParams (keys : Keys) (dt simTime : ℚ) (s : ParamState) : ParamState :=
  let s := { s with ubo := { s.ubo with time := simTime } }
  let s := whenKey keys.keyR (onKeyR dt) s
  let s := whenKey keys.keyE (onKeyE dt) s
  let s := whenKey keys.keyF (onKeyF dt) s
  let s := whenKey keys.keyD (onKeyD dt) s
  let s := whenKey keys.keyY (onKeyY dt) s
  let s := whenKey keys.keyT (onKeyT dt) s
  let s := whenKey keys.keyV (onKeyV dt) s
  let s := whenKey keys.keyC (onKeyC dt) s
  let s := whenKey keys.key8 (onKey8 dt) s
  let s := whenKey keys.key7 (onKey7 dt) s
  let s := whenKey keys.key5 (onKey5 dt) s
  whenKey keys.key4 (onKey4 dt) s

/-- The state of the radius keys just before key T is polled: the part of `updateParams`
up to and including key Y. -/
def beforeKeyT (keys : Keys) (dt simTime : ℚ) (s : ParamState) : ParamState :=
  let s := { s with ubo := { s.ubo with time := simTime } }
  let s := whenKey keys.keyR (onKeyR dt) s
  let s := whenKey keys.keyE (onKeyE dt) s
  let s := whenKey keys.keyF (onKeyF dt) s
  let s := whenKey keys.keyD (onKeyD dt) s
  whenKey keys.keyY (onKeyY dt) s

/-- The closed forms of the derived group at radius `r`, as the source writes them. -/
def poly6At (r : ℚ) : ℚ := 315.0 / (64.0 * M_PI * r ^ 9)
def spikyAt (r : ℚ) : ℚ := -45.0 / (M_PI * r ^ 6)
def pressureRadiusAt (r : ℚ) : ℚ := 0.1 * r
def tensileCorrAt (r : ℚ) : ℚ := poly6At r * (r ^ 2 - pressureRadiusAt r ^ 2) ^ 3

/-- The radius-derived globals agree with the closed forms at the current radius. -/
def DerivedConsistent (p : Params) : Prop :=
  p.kPoly = poly6At p.supportRad ∧ p.kSpiky = spikyAt p.supportRad ∧
  p.pressureRad = pressureRadiusAt p.supportRad ∧ p.dCorr = tensileCorrAt p.supportRad

instance (p : Params) : Decidable (DerivedConsistent p) := by
  unfold DerivedConsistent; infer_instance

/-- The support radius and the four globals derived from it. -/
def radiusGroup (p : Params) : ℚ × ℚ × ℚ × ℚ × ℚ :=
  (p.supportRad, p.kPoly, p.kSpiky, p.pressureRad, p.dCorr)

/-! ## The GPU pass of `shaders/fluidUpdate.glsl`, modelled from the specification

The shader is not among the sources.  The definitions below follow sections 4.1 and 4.2
of the specification; the workers are run one after another, in an order that is a
parameter (section 9: the atomic exchange becomes a plain sequential scan). -/

structure Vec3 where
  x : ℚ
  y : ℚ
  z : ℚ
  deriving DecidableEq, Repr

/-- Modelled from the spec: the integer cell coordinate `floor(position / supportRadius)`
of the missing shader's `insert` (section 4.1). -/
def cellOf (supportRadius : ℚ) (p : Vec3) : ℤ × ℤ × ℤ :=
  (⌊p.x / supportRadius⌋, ⌊p.y / supportRadius⌋, ⌊p.z / supportRadius⌋)

/-- Modelled from the spec: the bucket of a cell, "a deterministic hash of that coordinate
into [0,H)" (section 4.1).  The shader's hash function is missing; it is the parameter
`hash`, reduced modulo the table size. -/
def bucketOf (hash : ℤ × ℤ × ℤ → Nat) (mapSize : Nat) (c : ℤ × ℤ × ℤ) : Nat :=
  hash c % mapSize

/-- The head index stored in bucket `k` of the table (`NONE` outside the table). -/
def headAt (b : Buffers) (k : Nat) : Nat :=
  (b.hashMap.getD k ⟨NONE⟩).headNodeIndex

/-- The next index stored in node `i` (`NONE` outside the pool). -/
def nextAt (b : Buffers) (i : Nat) : Nat :=
  (b.linkedList.getD i ⟨NONE, NONE⟩).nextNodeIndex

/-- Modelled from the spec: the push of `insert(particleIndex)` of the missing shader
(section 4.1) onto bucket `k`: the bucket head is exchanged with `particleIndex` and
that particle's node-next is set to the previous head. -/
def hashInsert (k particleIndex : Nat) (b : Buffers) : Buffers :=
  let previousHead := headAt b k
  { b with
    hashMap := b.hashMap.set k ⟨particleIndex⟩
    linkedList := b.linkedList.set particleIndex
      { b.linkedList.getD particleIndex ⟨NONE, NONE⟩ with nextNodeIndex := previousHead } }

/-- Modelled from the spec: the bucket the missing shader's `insert` pushes particle `i`
onto, the hash of the cell of its position (section 4.1). -/
def bucketOfParticle (hash : ℤ × ℤ × ℤ → Nat) (u : FluidUniforms) (position : Nat → Vec3)
    (i : Nat) : Nat :=
  bucketOf hash u.mapSize (cellOf u.supportRadius (position i))

/-- Modelled from the spec: the Hash stage of the missing shader (section 4.4), every
particle of `order` inserted in turn. -/
def hashPass (hash : ℤ × ℤ × ℤ → Nat) (u : FluidUniforms) (position : Nat → Vec3)
    (order : List Nat) (b : Buffers) : Buffers :=
  order.foldl (fun acc i => hashInsert (bucketOfParticle hash u position i) i acc) b

/-- Modelled from the spec: "walking its bucket chain" in the missing shader
(section 4.2), from `node` until `NONE`; `fuel` bounds the number of nodes visited. -/
def walkChain (b : Buffers) : Nat → Nat → List Nat
  | 0, _ => []
  | fuel + 1, node =>
    if node = NONE then [] else node :: walkChain b fuel (nextAt b node)

/-- Modelled from the spec: the offsets of the 3×3×3 neighbourhood the missing shader's
NeighborFinder visits, the own cell and the 26 adjacent cells (section 4.2). -/
def offsets27 : List (ℤ × ℤ × ℤ) :=
  [-1, 0, 1].flatMap fun dx => [-1, 0, 1].flatMap fun dy => [-1, 0, 1].map fun dz => (dx, dy, dz)

/-- Modelled from the spec: the candidates the missing shader's NeighborFinder reaches
for particle `i` before distance filtering (section 4.2): the bucket chains of its own
cell and of the 26 adjacent cells, in visiting order. -/
def candidates (hash : ℤ × ℤ × ℤ → Nat) (u : FluidUniforms) (position : Nat → Vec3)
    (b : Buffers) (i : Nat) : List Nat :=
  offsets27.flatMap fun d =>
    walkChain b b.linkedList.length
      (headAt b (bucketOf hash u.mapSize (cellOf u.supportRadius (position i) + d)))

/-- Modelled from the spec: the square of the "true Euclidean distance" of the missing
shader's distance filter (section 4.2). -/
def distSq (p q : Vec3) : ℚ :=
  (p.x - q.x) ^ 2 + (p.y - q.y) ^ 2 + (p.z - q.z) ^ 2

/-- Modelled from the spec: the filter `distance ≤ supportRadius` of the missing shader
(section 4.2), written without the square root: `√d ≤ r` exactly when `0 ≤ r` and `d ≤ r²`. -/
def withinRadius (r : ℚ) (p q : Vec3) : Prop :=
  0 ≤ r ∧ distSq p q ≤ r ^ 2

instance (r : ℚ) (p q : Vec3) : Decidable (withinRadius r p q) := by
  unfold withinRadius; infer_instance

/-- Modelled from the spec: the append of the missing shader's NeighborFinder
(section 4.2): `j` is stored unless the list is already at capacity `m`, in which case
it is dropped. -/
def appendNeighbor (m j : Nat) (nl : NeighborType) : NeighborType :=
  if nl.count < m then
    { count := nl.count + 1, neighboring := nl.neighboring.set nl.count j }
  else nl

/-- Modelled from the spec: the missing shader's NeighborFinder for particle `i`
(section 4.2): every candidate reached is distance-filtered and appended to `nl`. -/
def findNeighbors (hash : ℤ × ℤ × ℤ → Nat) (u : FluidUniforms) (position : Nat → Vec3)
    (b : Buffers) (i : Nat) (nl : NeighborType) : NeighborType :=
  (candidates hash u position b i).foldl
    (fun acc j =>
      if withinRadius u.supportRadius (position i) (position j) then
        appendNeighbor u.maxNeighbors j acc
      else acc)
    nl

/-- Modelled from the spec: the FindNeighbors stage of the missing shader
(section 4.4), one worker per neighbour list, each writing its own list only. -/
def findNeighborsPass (hash : ℤ × ℤ × ℤ → Nat) (u : FluidUniforms) (position : Nat → Vec3)
    (b : Buffers) : Buffers :=
  { b with
    neighborData := b.neighborData.enum.map fun e => findNeighbors hash u position b e.1 e.2 }

/-- Modelled from the spec: the stages Hash and FindNeighbors of the missing shader,
as the draw call of `fluidUpdate` runs them after the host's Clear. -/
def gpuPass (hash : ℤ × ℤ × ℤ → Nat) (position : Nat → Vec3) (order : List Nat)
    (u : FluidUniforms) (b : Buffers) : Buffers :=
  findNeighborsPass hash u position (hashPass hash u position order b)

/-- The chain that starts at index `h` visits exactly the nodes `l`, in this order, and
then ends with `NONE`. -/
def ChainIs (b : Buffers) : List Nat → Nat → Prop
  | [], h => h = NONE
  | x :: xs, h => h = x ∧ x ≠ NONE ∧ ChainIs b xs (nextAt b x)

/-- The particles of `inserted` that fall into bucket `k`, latest insertion first. -/
def bucketMembers (bucket : Nat → Nat) (k : Nat) (inserted : List Nat) : List Nat :=
  (inserted.filter fun i => bucket i = k).reverse

/-- Every bucket chain holds the inserted particles of its bucket. -/
def GridInv (bucket : Nat → Nat) (inserted : List Nat) (b : Buffers) : Prop :=
  ∀ k, k < b.hashMap.length → ChainIs b (bucketMembers bucket k inserted) (headAt b k)

/-- One substep as the loop sees it: the particle positions at hash time (the output of
the solver, which is not modelled), the order in which the workers insert, and the clock
reading. -/
structure Substep where
  position : Nat → Vec3
  order : List Nat
  time : ℚ

/-- A run of substeps, each a `fluidUpdate` whose draw call is the modelled GPU pass. -/
def runSubsteps (hash : ℤ × ℤ × ℤ → Nat) (steps : List Substep) (w : World) : World :=
  steps.foldl (fun acc s => fluidUpdate (gpuPass hash s.position s.order) s.time acc) w

/-- A small configuration for three particles and four buckets, at the boot radius. -/
def demoUniforms : FluidUniforms :=
  { setupUBOs bootParams 0 with maxParticles := 3, mapSize := 4 }

def demoPositions (i : Nat) : Vec3 :=
  if i = 0 then ⟨0, 0, 0⟩ else if i = 1 then ⟨0.4, -0.1, 0⟩ else ⟨3, 3, 3⟩

def demoHash (c : ℤ × ℤ × ℤ) : Nat :=
  (c.1 * 73856093 + c.2.1 * 19349663 + c.2.2 * 83492791).natAbs

/-- Buffers as a substep leaves them when particles 0 and 1 fall into the same bucket
(bucket 0) and particle 1 is inserted last: the head of bucket 0 is 1 and node 1 points
to node 0. -/
def sharedBucketBuffers : Buffers :=
  { setupSSBOs setupParticleData (List.replicate HASH_MAP_SIZE ⟨0⟩) 0 with
    hashMap := ⟨1⟩ :: List.replicate (HASH_MAP_SIZE - 1) ⟨NONE⟩
    linkedList := ⟨NONE, NONE⟩ :: ⟨0, NONE⟩ :: List.replicate (NUM_PARTICLES - 2) ⟨NONE, NONE⟩
    counter := 2 }

/-- The number of buckets whose head is not `NONE`. -/
def nonEmptyBuckets (b : Buffers) : Nat :=
  (b.hashMap.filter fun h => h.headNodeIndex ≠ NONE).length

/-- The six guarded parameters are above their floor. -/
def AllPositive (p : Params) : Prop :=
  0 < p.restDensity ∧ 0 < p.epsilon ∧ 0 < p.supportRad ∧ 0 < p.vEps ∧ 0 < p.sCorr ∧
  0 < p.kXsph

instance (p : Params) : Decidable (AllPositive p) := by
  unfold AllPositive; infer_instance

/-- Every key up. -/
def noKeys : Keys :=
  ⟨false, false, false, false, false, false, false, false, false, false, false, false⟩

/-- Every key down. -/
def allKeys : Keys :=
  ⟨true, true, true, true, true, true, true, true, true, true, true, true⟩

/-- The globals and the uniform block as the loop first sees them. -/
def bootParamState : ParamState :=
  ⟨bootParams, setupUBOs bootParams 0⟩

/-- Only key T (decrease the support radius) down. -/
def onlyKeyT : Keys :=
  { noKeys with keyT := true }

/-! ## renderScene (main.cpp, 1255-1328) -/

/-- The GL calls of `fluidUpdate` and `renderScene` that read or write the simulation
buffers or draw: the copy of `hashClear` (main.cpp, 1218), the reset of the counter (1222),
the upload of `dt` (1226), the draw of the particle points that runs the fluid pass (1240),
the instanced draw of the spheres (1298) and the draw of the ground (1327). -/
inductive GLCall where
  | copyHashClear
  | resetCounter
  | uploadDt
  | drawFluidPass
  | drawSpheres
  | drawGround
  deriving DecidableEq, Repr

/-- The function `fluidUpdate` statement by statement, with the GL calls it issues
appended to a log. -/
def fluidUpdateLogged (draw : FluidUniforms → Buffers → Buffers) (time : ℚ)
    (s : World × List GLCall) : World × List GLCall :=
  let w := s.1
  let r := timeAndTimestamp MAX_DELTA_T time w.lastTime w.simTime
  let w := { w with lastTime := r.2.1, simTime := r.2.2 }
  let w := { w with bufs := { w.bufs with
    hashMap := copyBufferSubData w.bufs.hashClear w.bufs.hashMap HASH_MAP_SIZE } }
  let log := s.2 ++ [GLCall.copyHashClear]
  let w := { w with bufs := { w.bufs with counter := 0 } }
  let log := log ++ [GLCall.resetCounter]
  let w := { w with ubo := { w.ubo with dt := r.1 } }
  let log := log ++ [GLCall.uploadDt]
  let w := { w with bufs := draw w.ubo w.bufs }
  let log := log ++ [GLCall.drawFluidPass]
  (w, log)

/-- The function `renderScene`: the loop `for (i = 0; i < SUBSTEPS; i++) fluidUpdate()`
(main.cpp, 1257-1259), then the draws of the spheres and of the ground.  The clock reading
of substep `i` of the frame is `clock i`. -/
def renderScene (draw : FluidUniforms → Buffers → Buffers) (clock : Nat → ℚ)
    (s : World × List GLCall) : World × List GLCall :=
  let s := (List.range SUBSTEPS).foldl (fun acc i => fluidUpdateLogged draw (clock i) acc) s
  (s.1, s.2 ++ [GLCall.drawSpheres, GLCall.drawGround])

/-! ## setupParticleData, the particle pool (main.cpp, 494-507) -/

structure Vec4 where
  x : ℚ
  y : ℚ
  z : ℚ
  w : ℚ
  deriving DecidableEq, Repr

/-- The global `particleData` (main.cpp, 266-271). -/
structure ParticleData where
  idx : List Nat
  position : List Vec4
  velocity : List Vec4
  color : List Vec4
  deriving DecidableEq, Repr

/-- The global `particleData` before `setupParticleData` runs: an object of static
storage, all zero, for a pool of `n` particles. -/
def zeroParticleData (n : Nat) : ParticleData where
  idx := List.replicate n 0
  position := List.replicate n ⟨0, 0, 0, 0⟩
  velocity := List.replicate n ⟨0, 0, 0, 0⟩
  color := List.replicate n ⟨0, 0, 0, 0⟩

/-- The value `((rand() % 1000) / 100.0) - 5` for the output `r` of `rand()`. -/
def randomCoordinate (r : Nat) : ℚ :=
  ((r % 1000 : Nat) : ℚ) / 100.0 - 5

/-- The body of the first loop of `setupParticleData` for particle `i` (main.cpp, 497-506).
The state pairs the arrays with the number of calls of `rand()` made so far; `rand k` is
the output of call `k`. -/
def setupParticleStep (rand : Nat → Nat) (s : ParticleData × Nat) (i : Nat) :
    ParticleData × Nat :=
  let d := s.1
  let calls := s.2
  let x := randomCoordinate (rand calls)
  let y := randomCoordinate (rand (calls + 1))
  let z := randomCoordinate (rand (calls + 2))
  ({ idx := d.idx.set i i
     position := d.position.set i { d.position.getD i ⟨0, 0, 0, 0⟩ with x := x, y := y, z := z }
     velocity := d.velocity.set i
       { d.velocity.getD i ⟨0, 0, 0, 0⟩ with x := 0.0, y := 0.0, z := 0.0 }
     color := d.color.set i { d.color.getD i ⟨0, 0, 0, 0⟩ with x := 0.0, y := 0.0, z := 1.0 } },
   calls + 3)

/-- The first loop of `setupParticleData` (main.cpp, 496-507) over a pool of `n` particles. -/
def setupParticlePoolWith (n : Nat) (rand : Nat → Nat) : ParticleData × Nat :=
  (List.range n).foldl (setupParticleStep rand) (zeroParticleData n, 0)

/-- The particle pool `setupParticleData` leaves in the global `particleData`. -/
def setupParticlePool (rand : Nat → Nat) : ParticleData :=
  (setupParticlePoolWith NUM_PARTICLES rand).1

/-- The first `k` particles are as the loop writes them, the others are still zero, and
`3 * k` calls of `rand()` have been made. -/
def PoolFilled (rand : Nat → Nat) (n k : Nat) (s : ParticleData × Nat) : Prop :=
  s.2 = 3 * k ∧ s.1.idx.length = n ∧ s.1.position.length = n ∧ s.1.velocity.length = n ∧
  s.1.color.length = n ∧
  (∀ i, i < k →
    s.1.idx[i]? = some i ∧
    s.1.position[i]? = some ⟨randomCoordinate (rand (3 * i)), randomCoordinate (rand (3 * i + 1)),
      randomCoordinate (rand (3 * i + 2)), 0⟩ ∧
    s.1.velocity[i]? = some ⟨0, 0, 0, 0⟩ ∧
    s.1.color[i]? = some ⟨0, 0, 1, 0⟩) ∧
  ∀ i, k ≤ i → i < n →
    s.1.position[i]? = some ⟨0, 0, 0, 0⟩ ∧ s.1.velocity[i]? = some ⟨0, 0, 0, 0⟩ ∧
    s.1.color[i]? = some ⟨0, 0, 0, 0⟩

/-- A linear congruential stand-in for the outputs of `rand()`. -/
def sampleRand (k : Nat) : Nat :=
  (1103515245 * k + 12345) % 2147483648

/-- One Clear+Hash build: the host's Clear block followed by the modelled Hash stage. -/
def clearAndHash (hash : ℤ × ℤ × ℤ → Nat) (u : FluidUniforms) (position : Nat → Vec3)
    (order : List Nat) (b : Buffers) : Buffers :=
  hashPass hash u position order (clearBufferData b)

/-- The particles found by walking the chain of bucket `k`. -/
def bucketContents (b : Buffers) (k : Nat) : List Nat :=
  walkChain b b.linkedList.length (headAt b k)

/-! ## Racing insert workers, modelled from the specification

Each worker of the Hash stage performs two memory operations: the indivisible exchange of
the bucket head, then the store of the value it read into its own node.  A schedule
interleaves the operations of all workers. -/

/-- Modelled from the spec: the two memory operations of the missing shader's
`insert(particleIndex)` (section 4.1): the atomic exchange of the bucket head, and the
store of the previous head into the particle's node-next. -/
inductive InsertOp where
  | exchange (particleIndex : Nat)
  | link (particleIndex : Nat)
  deriving DecidableEq, Repr

/-- Modelled from the spec: the state of the missing shader's Hash stage while its workers
run (section 4.1): the buffers together with the private state of the workers, the
previous head each worker read in its exchange, and whether it has stored it yet. -/
structure RaceState where
  bufs : Buffers
  held : Nat → Option Nat
  linked : Nat → Bool

/-- Modelled from the spec: one memory operation of a worker of the missing shader's
`insert` (section 4.1).  The exchange reads the head of the bucket and writes the
particle index in one step; the link stores the head that was read into the particle's
node-next, and is possible only after the worker's exchange. -/
def raceStep (bucket : Nat → Nat) (s : RaceState) : InsertOp → RaceState
  | InsertOp.exchange i =>
    { bufs := { s.bufs with hashMap := s.bufs.hashMap.set (bucket i) ⟨i⟩ }
      held := Function.update s.held i (some (headAt s.bufs (bucket i)))
      linked := Function.update s.linked i false }
  | InsertOp.link i =>
    match s.held i with
    | some previousHead =>
      { s with
        bufs := { s.bufs with
          linkedList := s.bufs.linkedList.set i
            { s.bufs.linkedList.getD i ⟨NONE, NONE⟩ with nextNodeIndex := previousHead } }
        linked := Function.update s.linked i true }
    | none => s

/-- The state before any worker has started. -/
def raceStart (b : Buffers) : RaceState :=
  ⟨b, fun _ => none, fun _ => false⟩

/-- Modelled from the spec: the Hash stage of the missing shader as its workers race
(sections 4.1 and 5): the memory operations of all workers, run in the order of a schedule. -/
def raceRun (bucket : Nat → Nat) (schedule : List InsertOp) (s : RaceState) : RaceState :=
  schedule.foldl (raceStep bucket) s

/-- The particles of a schedule in the order of their exchanges. -/
def exchangesOf : List InsertOp → List Nat
  | [] => []
  | InsertOp.exchange i :: rest => i :: exchangesOf rest
  | InsertOp.link _ :: rest => exchangesOf rest

/-- All `n` workers have retired: each has done its exchange and stored its link. -/
def AllRetired (n : Nat) (s : RaceState) : Prop :=
  ∀ i, i < n → s.held i ≠ none ∧ s.linked i = true

instance (n : Nat) (s : RaceState) : Decidable (AllRetired n s) := by
  unfold AllRetired; infer_instance

/-- The node-next of `i` once its worker has retired: the value the worker holds if it has
not stored it yet, the stored value otherwise. -/
def nextView (s : RaceState) (i : Nat) : Nat :=
  match s.held i with
  | some previousHead => if s.linked i = true then nextAt s.bufs i else previousHead
  | none => nextAt s.bufs i

/-- The chain that starts at `h` and follows `next` visits exactly the nodes `l`. -/
def ChainVia (next : Nat → Nat) : List Nat → Nat → Prop
  | [], h => h = NONE
  | x :: xs, h => h = x ∧ x ≠ NONE ∧ ChainVia next xs (next x)

/-- The invariant of a race in which the particles `inserted` have done their exchange, in
this order: every bucket chain, read through `nextView`, holds the inserted particles of
its bucket, and every worker holds the node-next its particle will have. -/
def RaceInv (bucket : Nat → Nat) (inserted : List Nat) (s : RaceState) : Prop :=
  (∀ k, k < s.bufs.hashMap.length →
    ChainVia (nextView s) (bucketMembers bucket k inserted) (headAt s.bufs k)) ∧
  (∀ i, i ∈ inserted → s.held i = some (nextView s i)) ∧
  (∀ i, s.held i ≠ none → i ∈ inserted)

/-- A schedule for the three particles of the small configuration, with the exchanges of
particles 0 and 1 both done before either link. -/
def demoSchedule : List InsertOp :=
  [InsertOp.exchange 1, InsertOp.exchange 0, InsertOp.link 0, InsertOp.exchange 2,
    InsertOp.link 1, InsertOp.link 2]

/-- Positions with particles 0 and 1 in the same cell. -/
def crowdedPositions (i : Nat) : Vec3 :=
  if i = 0 then ⟨0.1, 0.1, 0.1⟩ else if i = 1 then ⟨0.3, 0.2, 0.4⟩ else ⟨3, 3, 3⟩

/-- Every key down except the two radius keys Y and T. -/
def nonRadiusKeys : Keys :=
  { allKeys with keyY := false, keyT := false }

/-! ## calculateSignedDistanceField (ModelLoaderSDF.hpp, 473-736) -/

/-- The work of the two signed-distance-field functions after their checks, stage by
stage: the bounding box and grid dimensions (ModelLoaderSDF.hpp, 491-511 and 643-663), the
world-space triangles (514-539, 666-691), the distance grid computed on the CPU (541-587),
the upload of the field (595-611), and for the GPU path the upload of the triangles
(699-712), the upload of the field header (714-728) and the compute dispatch (730-733). -/
inductive SDFStage where
  | boundingBox
  | worldTriangles
  | cpuGrid
  | uploadField
  | uploadTriangles
  | uploadHeader
  | dispatchCompute
  deriving DecidableEq, Repr

/-- The function `calculateSignedDistanceFieldCPU`: its three checks
(ModelLoaderSDF.hpp, 476-489), then the stages it runs; the result is the returned flag
and the stages that ran. -/
def calculateSignedDistanceFieldCPU (sdfLoc : ℤ) (resolution offset : ℚ) :
    Bool × List SDFStage :=
  if sdfLoc = -1 then (false, [])
  else if resolution ≤ 0.0 then (false, [])
  else if offset < 0.0 then (false, [])
  else (true, [SDFStage.boundingBox, SDFStage.worldTriangles, SDFStage.cpuGrid,
    SDFStage.uploadField])

/-- The function `calculateSignedDistanceField`: its five checks
(ModelLoaderSDF.hpp, 619-641), then the stages it runs. -/
def calculateSignedDistanceField (computeShaderIsNull : Bool) (sdfLoc triangleLoc : ℤ)
    (resolution offset : ℚ) : Bool × List SDFStage :=
  if computeShaderIsNull = true then (false, [])
  else if sdfLoc = -1 then (false, [])
  else if triangleLoc = -1 then (false, [])
  else if resolution ≤ 0.0 then (false, [])
  else if offset < 0.0 then (false, [])
  else (true, [SDFStage.boundingBox, SDFStage.worldTriangles, SDFStage.uploadTriangles,
    SDFStage.uploadHeader, SDFStage.dispatchCompute])

/-- The index `xIndex + dimY * (yIndex + dimZ * zIndex)` at which
`calculateSignedDistanceFieldCPU` stores a cell (ModelLoaderSDF.hpp, 580-584). -/
def sdfSlot (dimY dimZ xIndex yIndex zIndex : Nat) : Nat :=
  xIndex + dimY * (yIndex + dimZ * zIndex)

/-- The number of cells of the array `grid` (ModelLoaderSDF.hpp, 542). -/
def sdfGridSize (dimX dimY dimZ : Nat) : Nat :=
  dimX * dimY * dimZ

/-- The slots written by the three nested loops of `calculateSignedDistanceFieldCPU`
(ModelLoaderSDF.hpp, 552-587), in the order they are written. -/
def sdfSlotsWritten (dimX dimY dimZ : Nat) : List Nat :=
  (List.range dimZ).flatMap fun zIndex =>
    (List.range dimY).flatMap fun yIndex =>
      (List.range dimX).map fun xIndex => sdfSlot dimY dimZ xIndex yIndex zIndex

/-! ## _distTriangle (ModelLoaderSDF.hpp, 336-471) -/

/-- The struct `Triangle` (ModelLoaderSDF.hpp, 66-69). -/
structure Triangle where
  v1 : Vec4
  v2 : Vec4
  v3 : Vec4
  normal : Vec4
  deriving DecidableEq, Repr

/-- The conversion `glm::vec3(v)` of a `vec4`. -/
def Vec4.xyz (v : Vec4) : Vec3 := ⟨v.x, v.y, v.z⟩

/-- The product `glm::dot` of two `vec3`. -/
def dot3 (u v : Vec3) : ℚ := u.x * v.x + u.y * v.y + u.z * v.z

def Vec3.sub (u v : Vec3) : Vec3 := ⟨u.x - v.x, u.y - v.y, u.z - v.z⟩

def Vec3.add (u v : Vec3) : Vec3 := ⟨u.x + v.x, u.y + v.y, u.z + v.z⟩

def Vec3.scale (k : ℚ) (v : Vec3) : Vec3 := ⟨k * v.x, k * v.y, k * v.z⟩

/-- The seven regions of `_distTriangle` (ModelLoaderSDF.hpp, 348-460): from the
coefficients `a … e` to the parameters `(s, t)` of the point it measures to.  The
arithmetic is that of any ordered field. -/
def closestParams {K : Type} [LinearOrderedField K] (a b c d e : K) : K × K :=
  let s := b * e - c * d
  let t := b * d - a * e
  let det := a * c - b * b
  if s + t ≤ det then
    if s < 0 then
      if t < 0 then
        -- Region 4
        if d < 0 then
          if -d ≥ a then (1, 0) else (-d / a, 0)
        else
          if e ≥ 0 then (0, 0) else if -e ≥ c then (0, 1) else (0, -e / c)
      else
        -- Region 3
        if e ≥ 0 then (0, 0) else if -e ≥ c then (0, 1) else (0, -e / c)
    else if t < 0 then
      -- Region 5
      if d ≥ 0 then (0, 0) else if -d ≥ a then (1, 0) else (-d / a, 0)
    else
      -- Region 0
      (s / det, t / det)
  else
    if s < 0 then
      -- Region 2
      let tmp0 := b + d
      let tmp1 := c + e
      if tmp1 > tmp0 then
        let numer := tmp1 - tmp0
        let denom := a - 2 * b + c
        let s := if numer ≥ denom then 1 else numer / denom
        (s, 1 - s)
      else
        if tmp1 ≤ 0 then (0, 1) else if e ≥ 0 then (0, 0) else (0, -e / c)
    else if t < 0 then
      -- Region 6
      let tmp0 := b + e
      let tmp1 := a + d
      if tmp1 > tmp0 then
        let numer := tmp1 - tmp0
        let denom := a - 2 * b + c
        let t := if numer ≥ denom then 1 else numer / denom
        (1 - t, t)
      else
        if tmp1 ≤ 0 then (1, 0) else if e ≥ 0 then (0, 0) else (-d / a, 0)
    else
      -- Region 1
      let numer := (c + e) - (b + d)
      let s := if numer ≤ 0 then 0
        else
          let denom := a - 2 * b + c
          if numer ≥ denom then 1 else numer / denom
      (s, 1 - s)

/-- The parameters `(s, t)` that `_distTriangle` ends with for a triangle and a point
(ModelLoaderSDF.hpp, 340-460). -/
def triangleParams (triangle : Triangle) (point : Vec3) : ℚ × ℚ :=
  let B := triangle.v1.xyz
  let E0 := triangle.v2.xyz.sub B
  let E1 := triangle.v3.xyz.sub B
  let a := dot3 E0 E0
  let b := dot3 E0 E1
  let c := dot3 E1 E1
  let d := dot3 E0 (B.sub point)
  let e := dot3 E1 (B.sub point)
  closestParams a b c d e

/-- The point `B + s * E0 + t * E1` of a triangle. -/
def trianglePoint (triangle : Triangle) (s t : ℚ) : Vec3 :=
  let B := triangle.v1.xyz
  let E0 := triangle.v2.xyz.sub B
  let E1 := triangle.v3.xyz.sub B
  (B.add (Vec3.scale s E0)).add (Vec3.scale t E1)

/-- The function `glm::sign`. -/
def signum (x : ℚ) : ℚ := if 0 < x then 1 else if x < 0 then -1 else 0

/-- The function `_distTriangle` (ModelLoaderSDF.hpp, 336-471): the squared distance from
`point` to the point of the triangle it picks, with the sign of the side of the normal. -/
def distTriangle (triangle : Triangle) (point : Vec3) : ℚ :=
  let st := triangleParams triangle point
  let closestPoint := trianglePoint triangle st.1 st.2
  let pt := point.sub closestPoint
  let dist := dot3 pt pt
  let sign := signum (dot3 triangle.normal.xyz pt)
  let sign := if -0.1 ≤ sign ∧ sign ≤ 0.1 then 1.0 else sign
  sign * dist

/-- The triangle (0,0,0), (1,0,0), (2,1,0), with normal (0,0,1). -/
def obtuseTriangle : Triangle :=
  ⟨⟨0, 0, 0, 1⟩, ⟨1, 0, 0, 1⟩, ⟨2, 1, 0, 1⟩, ⟨0, 0, 1, 0⟩⟩

/-- The point (0.5, -1, 0), below the first edge of `obtuseTriangle`. -/
def belowEdge : Vec3 := ⟨0.5, -1, 0⟩

/-! ## setupVAOs, the sphere mesh (main.cpp, 841-902) -/

def SPHERE_RADIUS : ℚ := 0.05
def SPHERE_SECTORS : Nat := 24
def SPHERE_STACKS : Nat := 10

/-- The body of the inner vertex loop (main.cpp, 860-877): the three coordinates of the
vertex of sector `j` are pushed onto `vertices`.  The functions `cosf` and `sinf` of the C
math library are parameters. -/
def sphereVertexInner (cosf sinf : ℚ → ℚ) (xy z : ℚ) (vertices : List ℚ) (j : Nat) : List ℚ :=
  let sectorStep := 2 * M_PI / SPHERE_SECTORS
  let sectorAngle := (j : ℚ) * sectorStep
  let x := xy * cosf sectorAngle
  let y := xy * sinf sectorAngle
  vertices ++ [x] ++ [y] ++ [z]

/-- The vertex loops of the sphere (main.cpp, 853-878), `i` from 0 to `SPHERE_STACKS` and `j`
from 0 to `SPHERE_SECTORS`, both included: the vector `vertices`, three floats a vertex. -/
def sphereVertices (cosf sinf : ℚ → ℚ) : List ℚ :=
  (List.range (SPHERE_STACKS + 1)).foldl
    (fun (vertices : List ℚ) (i : Nat) =>
      let stackStep := M_PI / SPHERE_STACKS
      let stackAngle := M_PI / 2 - (i : ℚ) * stackStep
      let xy := SPHERE_RADIUS * cosf stackAngle
      let z := SPHERE_RADIUS * sinf stackAngle
      (List.range (SPHERE_SECTORS + 1)).foldl (sphereVertexInner cosf sinf xy z) vertices)
    []

/-- The body of the inner index loop (main.cpp, 886-901) for stack `i`; the state is the
vector `indices` with the counters `k1` and `k2`, which the loop header increments. -/
def sphereIndexInner (i : Nat) (s : List Nat × Nat × Nat) (_j : Nat) : List Nat × Nat × Nat :=
  let indices := s.1
  let k1 := s.2.1
  let k2 := s.2.2
  let indices := if i ≠ 0 then indices ++ [k1] ++ [k2] ++ [k1 + 1] else indices
  let indices :=
    if i ≠ SPHERE_STACKS - 1 then indices ++ [k1 + 1] ++ [k2] ++ [k2 + 1] else indices
  (indices, k1 + 1, k2 + 1)

/-- The index loops of the sphere (main.cpp, 881-902): the vector `indices`. -/
def sphereIndices : List Nat :=
  (List.range SPHERE_STACKS).foldl
    (fun indices i =>
      let k1 := i * (SPHERE_SECTORS + 1)
      let k2 := k1 + SPHERE_SECTORS + 1
      ((List.range SPHERE_SECTORS).foldl (sphereIndexInner i) (indices, k1, k2)).1)
    []

/-- The number of indices one sector of stack `i` adds. -/
def sphereIndexCount (i : Nat) : Nat :=
  (if i ≠ 0 then 3 else 0) + (if i ≠ SPHERE_STACKS - 1 then 3 else 0)

/-! ## MaterialSettings::loadMaterials (MaterialReader.h, 16-88) -/

/-- The struct `Material` (MaterialReader.h, 16-21); each colour is its four components. -/
structure Material where
  diffuse : ℚ × ℚ × ℚ × ℚ
  specular : ℚ × ℚ × ℚ × ℚ
  ambient : ℚ × ℚ × ℚ × ℚ
  shininess : ℚ
  deriving DecidableEq, Repr

/-- The private members of `MaterialSettings` (MaterialReader.h, 25-26); the map is a
list of bindings, the latest first. -/
structure MaterialSettings where
  allMats : List Material
  materials : List (String × Material)
  deriving DecidableEq, Repr

/-- The conversions of `fscanf` that `loadMaterials` uses, on a stream `σ`: `"%d"`, `"%s"`
and one `"%f"`.  Each returns the converted value, or nothing when the conversion fails,
and the stream after it.  The C library is not part of the sources. -/
structure Scanner (σ : Type) where
  scanInt : σ → Option ℤ × σ
  scanWord : σ → Option String × σ
  scanFloat : σ → Option ℚ × σ

/-- The call `fscanf(fp, "%f %f … %f", …)` with ten conversions (MaterialReader.h, 63-66):
the conversions are done in order and stored one by one, ambient, diffuse, specular and
shininess; the call stops at the first conversion that fails. -/
def scanMaterialFloats {σ : Type} (sc : Scanner σ) (s : σ) (m : Material) : Material × σ :=
  match sc.scanFloat s with
  | (none, s) => (m, s)
  | (some a0, s) =>
  let m := { m with ambient := (a0, m.ambient.2) }
  match sc.scanFloat s with
  | (none, s) => (m, s)
  | (some a1, s) =>
  let m := { m with ambient := (m.ambient.1, a1, m.ambient.2.2) }
  match sc.scanFloat s with
  | (none, s) => (m, s)
  | (some a2, s) =>
  let m := { m with ambient := (m.ambient.1, m.ambient.2.1, a2, m.ambient.2.2.2) }
  match sc.scanFloat s with
  | (none, s) => (m, s)
  | (some d0, s) =>
  let m := { m with diffuse := (d0, m.diffuse.2) }
  match sc.scanFloat s with
  | (none, s) => (m, s)
  | (some d1, s) =>
  let m := { m with diffuse := (m.diffuse.1, d1, m.diffuse.2.2) }
  match sc.scanFloat s with
  | (none, s) => (m, s)
  | (some d2, s) =>
  let m := { m with diffuse := (m.diffuse.1, m.diffuse.2.1, d2, m.diffuse.2.2.2) }
  match sc.scanFloat s with
  | (none, s) => (m, s)
  | (some s0, s) =>
  let m := { m with specular := (s0, m.specular.2) }
  match sc.scanFloat s with
  | (none, s) => (m, s)
  | (some s1, s) =>
  let m := { m with specular := (m.specular.1, s1, m.specular.2.2) }
  match sc.scanFloat s with
  | (none, s) => (m, s)
  | (some s2, s) =>
  let m := { m with specular := (m.specular.1, m.specular.2.1, s2, m.specular.2.2.2) }
  match sc.scanFloat s with
  | (none, s) => (m, s)
  | (some sh, s) => ({ m with shininess := sh }, s)

/-- The assignment `materials[matName] = tempMat` of the map. -/
def bindMaterial (name : String) (m : Material) (materials : List (String × Material)) :
    List (String × Material) :=
  (name, m) :: materials.filter fun p => p.1 ≠ name

/-- The content of `buffer` after `fscanf(fp, "%s", buffer)` (MaterialReader.h, 52-54):
the word read, or what the uninitialised array held when nothing is converted. -/
def bufferAfterScan (word : Option String) (stale : String) : String :=
  match word with
  | some w => w
  | none => stale

/-- The material one iteration reads (MaterialReader.h, 59-67): `tempMat{}` with the three
alpha components set to 1, the ten floats scanned into it, and the shininess times 128. -/
def readMaterial {σ : Type} (sc : Scanner σ) (s : σ) : Material × σ :=
  let tempMat : Material :=
    { diffuse := (0, 0, 0, 1.0), specular := (0, 0, 0, 1.0), ambient := (0, 0, 0, 1.0),
      shininess := 0 }
  let r := scanMaterialFloats sc s tempMat
  ({ r.1 with shininess := r.1.shininess * 128 }, r.2)

/-- The loop of `loadMaterials` (MaterialReader.h, 51-70) from iteration `i`, with
`remaining` iterations to go.  `stale k` is what the uninitialised `buffer` of iteration `k`
holds when `"%s"` converts nothing.  The result is `false` when the loop returned -1. -/
def loadMaterialsLoop {σ : Type} (sc : Scanner σ) (stale : Nat → String) :
    Nat → Nat → σ → MaterialSettings → Bool × MaterialSettings
  | 0, _, _, ms => (true, ms)
  | remaining + 1, i, s, ms =>
    let r := sc.scanWord s
    let matName := bufferAfterScan r.1 (stale i)
    if matName = "" then (false, ms)
    else
      let m := readMaterial sc r.2
      loadMaterialsLoop sc stale remaining (i + 1) m.2
        { allMats := ms.allMats ++ [m.1]
          materials := bindMaterial matName m.1 ms.materials }

/-- The function `loadMaterials` (MaterialReader.h, 38-74): `fp` is the result of `fopen`,
nothing when the file cannot be opened.  Returns the returned `int` and the members after
the call. -/
def loadMaterials {σ : Type} (sc : Scanner σ) (stale : Nat → String) (fp : Option σ)
    (ms : MaterialSettings) : ℤ × MaterialSettings :=
  match fp with
  | none => (-1, ms)
  | some s =>
    let r := sc.scanInt s
    let numMaterials : ℤ := match r.1 with
      | some n => n
      | none => -1
    if numMaterials = -1 then (-1, ms)
    else
      let out := loadMaterialsLoop sc stale numMaterials.toNat 0 r.2 ms
      if out.1 = true then (numMaterials, out.2) else (-1, out.2)

/-- The function `getMaterials` (MaterialReader.h, 85-87). -/
def getMaterials (ms : MaterialSettings) : List Material :=
  ms.allMats

/-- A file as its whitespace-separated tokens: the text of each token and what `"%d"`
and `"%f"` convert it to. -/
structure FileToken where
  text : String
  asInt : Option ℤ
  asFloat : Option ℚ
  deriving DecidableEq, Repr

/-- The conversions of `fscanf` on a list of tokens: a conversion that fails consumes
nothing. -/
def tokenScanner : Scanner (List FileToken) where
  scanInt := fun s =>
    match s with
    | [] => (none, [])
    | t :: rest => match t.asInt with
      | some n => (some n, rest)
      | none => (none, t :: rest)
  scanWord := fun s =>
    match s with
    | [] => (none, [])
    | t :: rest => (some t.text, rest)
  scanFloat := fun s =>
    match s with
    | [] => (none, [])
    | t :: rest => match t.asFloat with
      | some q => (some q, rest)
      | none => (none, t :: rest)

/-- The token of a decimal integer. -/
def intToken (text : String) (n : ℤ) : FileToken :=
  ⟨text, some n, some n⟩

/-- The token of a name. -/
def nameToken (text : String) : FileToken :=
  ⟨text, none, none⟩

/-- No materials loaded yet. -/
def noMaterials : MaterialSettings :=
  ⟨[], []⟩

/-- A material file with one material. -/
def oneMaterialFile : List FileToken :=
  [intToken "1" 1, nameToken "obsidian", intToken "0" 0, intToken "0" 0, intToken "0" 0,
    intToken "1" 1, intToken "1" 1, intToken "1" 1, intToken "1" 1, intToken "1" 1,
    intToken "1" 1, intToken "1" 1]

/-! ## flipImageY (ModelLoaderSDF.hpp, 1535-1549) -/

/-- The three statements that exchange `textureData[top]` and `textureData[bot]`
(ModelLoaderSDF.hpp, 1542-1544); the memory behind the pointer is a function of the
index. -/
def flipSwap {α : Type} (textureData : Nat → α) (top bot : Nat) : Nat → α :=
  let t := textureData top
  let textureData := Function.update textureData top (textureData bot)
  Function.update textureData bot t

/-- The function `flipImageY` (ModelLoaderSDF.hpp, 1535-1549): the three nested loops over
the rows `j < texHeight / 2`, the columns `i` and the channels `k`. -/
def flipImageY {α : Type} (texWidth texHeight textureChannels : Nat) (textureData : Nat → α) :
    Nat → α :=
  (List.range (texHeight / 2)).foldl
    (fun textureData j =>
      (List.range texWidth).foldl
        (fun textureData i =>
          (List.range textureChannels).foldl
            (fun textureData k =>
              let top := (j * texWidth + i) * textureChannels + k
              let bot := ((texHeight - j - 1) * texWidth + i) * textureChannels + k
              flipSwap textureData top bot)
            textureData)
        textureData)
    textureData

/-- The index of channel `k` of the pixel at column `i` of row `j`. -/
def pixelIndex (texWidth textureChannels j i k : Nat) : Nat :=
  (j * texWidth + i) * textureChannels + k

/-- The exchange of two blocks of `n` cells that start at `a` and `b`, cell by cell. -/
def rowSwap {α : Type} (d : Nat → α) (a b n : Nat) : Nat → α :=
  (List.range n).foldl (fun d r => flipSwap d (a + r) (b + r)) d

/-- The exchange of the first `m` rows of `n` cells with the last `m` rows of an image of
`h` rows. -/
def rowsFlip {α : Type} (n h m : Nat) (d : Nat → α) : Nat → α :=
  (List.range m).foldl (fun d j => rowSwap d (j * n) ((h - j - 1) * n) n) d

/-- A 2×3 image of one channel: cell `p` holds `p`. -/
def sampleImage : Nat → Nat := fun p => p

/-! ### Tokenising a line (`ModelLoaderSDF::_tokenizeString`) -/

/-- The constant `std::string::npos`, the largest value of `size_t`. -/
def npos : Nat := 2 ^ 64 - 1

/-- Subtraction of two `size_t` values. -/
def sizeSub (a b : Nat) : Nat := (a + 2 ^ 64 - b) % 2 ^ 64

/-- The call `s.find_first_of(c, pos)` for a single character: the first index at or after
`pos` that holds `c`, or `npos`. -/
def find_first_of_char (s : List Char) (c : Char) (pos : Nat) : Nat :=
  if pos + (s.drop pos).findIdx (fun x => x == c) < s.length then
    pos + (s.drop pos).findIdx (fun x => x == c)
  else npos

/-- The call `s.find_first_of(chars, pos)`: the first index at or after `pos` whose character
occurs in `chars`, or `npos`. -/
def find_first_of (s chars : List Char) (pos : Nat) : Nat :=
  if pos + (s.drop pos).findIdx (fun x => chars.contains x) < s.length then
    pos + (s.drop pos).findIdx (fun x => chars.contains x)
  else npos

/-- The call `s.substr(pos, n)`: at most `n` characters from `pos` on; `none` stands for the
`std::out_of_range` it throws when `pos` is beyond the end. -/
def substr (s : List Char) (pos n : Nat) : Option (List Char) :=
  if pos > s.length then none else some ((s.drop pos).take n)

/-- The call `s.at(pos)` with an `int` argument: `none` stands for the `std::out_of_range`
thrown for an index outside the string. -/
def charAt (s : List Char) (pos : Int) : Option Char :=
  if pos < 0 then none else s[pos.toNat]?

/-- The first loop of `_tokenizeString`: `lowerValidIndex` moves forward past delimiters. -/
def lowerScan (input delimiters : List Char) (lowerValidIndex : Nat) : Option Nat :=
  if lowerValidIndex < input.length then
    match charAt input lowerValidIndex with
    | none => none
    | some c =>
      if find_first_of_char delimiters c 0 ≠ npos then
        lowerScan input delimiters (lowerValidIndex + 1)
      else some lowerValidIndex
  else some lowerValidIndex
termination_by input.length - lowerValidIndex

/-- The second loop of `_tokenizeString`: `upperValidIndex` moves backward past delimiters. -/
def upperScan (input delimiters : List Char) (upperValidIndex : Int) : Option Int :=
  if 0 ≤ upperValidIndex then
    match charAt input upperValidIndex with
    | none => none
    | some c =>
      if find_first_of_char delimiters c 0 ≠ npos then
        upperScan input delimiters (upperValidIndex - 1)
      else some upperValidIndex
  else some upperValidIndex
termination_by (upperValidIndex + 1).toNat

/-- The token loop of `_tokenizeString`; it ends with `r = npos` and gives back `r`, `oldR`
and the tokens pushed so far. -/
def tokenLoop (strippedInput delimiters : List Char) (oldR : Nat) (retVec : List (List Char)) :
    Option (Nat × Nat × List (List Char)) :=
  if h : find_first_of strippedInput delimiters oldR ≠ npos then
    if oldR ≠ find_first_of strippedInput delimiters oldR then
      match substr strippedInput oldR (sizeSub (find_first_of strippedInput delimiters oldR) oldR) with
      | none => none
      | some token =>
        tokenLoop strippedInput delimiters (find_first_of strippedInput delimiters oldR + 1)
          (retVec ++ [token])
    else
      tokenLoop strippedInput delimiters (find_first_of strippedInput delimiters oldR + 1) retVec
  else some (find_first_of strippedInput delimiters oldR, oldR, retVec)
termination_by strippedInput.length - oldR
decreasing_by
  all_goals
    simp_wf
    unfold find_first_of at h ⊢
    split_ifs at h ⊢ <;> omega

/-- The function `ModelLoaderSDF::_tokenizeString` on strings shorter than `2 ^ 31` characters,
so that the `int` indices hold their values; `none` stands for an exception leaving the
function. -/
def tokenizeString (input delimiters : List Char) : Option (List (List Char)) :=
  if input.length = 0 then some []
  else
    (lowerScan input delimiters 0).bind fun lowerValidIndex =>
    (upperScan input delimiters ((input.length : Int) - 1)).bind fun upperValidIndex =>
    if lowerValidIndex ≥ input.length ∨ upperValidIndex < 0
        ∨ (lowerValidIndex : Int) > upperValidIndex then some []
    else
      (substr input lowerValidIndex (upperValidIndex - lowerValidIndex + 1).toNat).bind
        fun strippedInput =>
      (tokenLoop strippedInput delimiters 0 []).bind fun (r, oldR, retVec) =>
      if r ≠ 0 then
        (substr strippedInput oldR (sizeSub r oldR)).bind fun token => some (retVec ++ [token])
      else some retVec

/-- Stated from the specification: whether a run of non-delimiter characters starts at index
`i`, that is, the character there is no delimiter and the one before it, if any, is one
(`atStart` says whether index 0 counts as preceded by a delimiter). -/
def runStartsAt (atStart : Bool) (input delimiters : List Char) (i : Nat) : Bool :=
  (match input[i]? with
    | some c => !delimiters.contains c
    | none => false) &&
  (if i = 0 then atStart
    else match input[i - 1]? with
      | some c => delimiters.contains c
      | none => false)

/-- Stated from the specification: the runs of non-delimiter characters that start inside
`input`, each taken as far as it goes, in order of their start. -/
def runsFrom (atStart : Bool) (input delimiters : List Char) : List (List Char) :=
  (List.range input.length).filterMap fun i =>
    if runStartsAt atStart input delimiters i then
      some ((input.drop i).takeWhile fun c => !delimiters.contains c)
    else none

/-- Stated from the specification: the maximal runs of non-delimiter characters of `input`,
in order. -/
def maximalRuns (input delimiters : List Char) : List (List Char) :=
  runsFrom true input delimiters

/-- A line of a model file with repeated and trailing delimiters. -/
def sampleLine : List Char := [' ', 'v', ' ', ' ', '1', '.', '5', '\t', '2', ' ']

/-! ## Floating-point rounding

The values of `float` and `double` variables are rationals.  Where a property turns on the
rounding itself, the conversion to a floating-point type is `roundBinary`: round to nearest,
ties to even, with the exponent unbounded (the normal range of the type). -/

/-- Rounding of a rational to the nearest integer, a tie going to the even neighbour. -/
def roundHalfEven (x : ℚ) : ℤ :=
  if x - ⌊x⌋ < 1 / 2 then ⌊x⌋
  else if 1 / 2 < x - ⌊x⌋ then ⌊x⌋ + 1
  else if ⌊x⌋ % 2 = 0 then ⌊x⌋
  else ⌊x⌋ + 1

/-- The binary floating-point number with `p` significant bits nearest to `q` (ties to
even): `q` is rounded to a multiple of the unit in the last place of its binade. -/
def roundBinary (p : ℕ) (q : ℚ) : ℚ :=
  if q = 0 then 0
  else
    (roundHalfEven (q / 2 ^ (Int.log 2 |q| - ((p : ℤ) - 1))) : ℚ)
      * 2 ^ (Int.log 2 |q| - ((p : ℤ) - 1))

/-- Conversion to `float` (24 significant bits). -/
def toFloat (q : ℚ) : ℚ := roundBinary 24 q

/-- Conversion to `double` (53 significant bits). -/
def toDouble (q : ℚ) : ℚ := roundBinary 53 q

/-- The block "TIME AND TIMESTAMP" (main.cpp, 1186-1193) with the arithmetic of its types:
`time` and `lastTime` are `double`, their difference is narrowed to the `float dt`, the test
`dt > MAX_DELTA_T` compares floats and `simTime += dt` is a float addition.  `maxDeltaT` is
the float constant; `timeAndTimestamp` is the same block in exact arithmetic. -/
def timeAndTimestampFloat (maxDeltaT time lastTime simTime : ℚ) : ℚ × ℚ × ℚ :=
  let dt := toFloat (toDouble (time - lastTime))
  let lastTime := time
  if dt > maxDeltaT then
    let dt := maxDeltaT
    (dt, lastTime, toFloat (simTime + dt))
  else
    (dt, lastTime, simTime)

/-- The constant `MAX_DELTA_T` as the `float` it is stored as: the `double` literal `0.0083`
narrowed to `float`. -/
def maxDeltaTFloat : ℚ := toFloat (toDouble MAX_DELTA_T)

/-- The value of a `float` or `double` expression: finite, an infinity, or a NaN.  Zero is
unsigned. -/
inductive FloatVal where
  | fin (q : ℚ)
  | posInf
  | negInf
  | nan
  deriving DecidableEq, Repr

/-- The largest finite `float`, `(2 - 2 ^ (-23)) * 2 ^ 127`. -/
def FLT_MAX : ℚ := (2 ^ 24 - 1) * 2 ^ 104

/-- The smallest positive `float`, the subnormal `2 ^ (-149)`. -/
def FLT_TRUE_MIN : ℚ := 1 / 2 ^ 149

/-- The least magnitude that rounds to an infinite `float`: half a unit in the last place
above `FLT_MAX`, which is `2 ^ 128 - 2 ^ 103`. -/
def floatOverflow : ℚ := FLT_MAX + 2 ^ 103

namespace FloatVal

/-- The conversion of a `double` to `float`, as to the range of `float`. -/
def narrow : FloatVal → FloatVal
  | fin q =>
    if floatOverflow ≤ q then posInf
    else if q ≤ -floatOverflow then negInf
    else if |q| ≤ FLT_TRUE_MIN / 2 then fin 0
    else fin q
  | posInf => posInf
  | negInf => negInf
  | nan => nan

def neg : FloatVal → FloatVal
  | fin q => fin (-q)
  | posInf => negInf
  | negInf => posInf
  | nan => nan

def add : FloatVal → FloatVal → FloatVal
  | fin a, fin b => fin (a + b)
  | nan, _ => nan
  | _, nan => nan
  | posInf, negInf => nan
  | negInf, posInf => nan
  | posInf, _ => posInf
  | _, posInf => posInf
  | negInf, _ => negInf
  | _, negInf => negInf

def sub (x y : FloatVal) : FloatVal := add x (neg y)

/-- The product of an infinity of sign `positive` with a finite factor. -/
def infTimes (positive : Bool) (q : ℚ) : FloatVal :=
  if q = 0 then nan
  else if (0 < q) = positive then posInf
  else negInf

def mul : FloatVal → FloatVal → FloatVal
  | fin a, fin b => fin (a * b)
  | nan, _ => nan
  | _, nan => nan
  | posInf, fin b => infTimes true b
  | negInf, fin b => infTimes false b
  | fin a, posInf => infTimes true a
  | fin a, negInf => infTimes false a
  | posInf, posInf => posInf
  | negInf, negInf => posInf
  | posInf, negInf => negInf
  | negInf, posInf => negInf

/-- Division; a zero divisor counts as positive zero. -/
def div : FloatVal → FloatVal → FloatVal
  | fin a, fin b =>
    if b = 0 then (if 0 < a then posInf else if a < 0 then negInf else nan)
    else fin (a / b)
  | nan, _ => nan
  | _, nan => nan
  | fin _, posInf => fin 0
  | fin _, negInf => fin 0
  | posInf, fin b => if 0 ≤ b then posInf else negInf
  | negInf, fin b => if 0 ≤ b then negInf else posInf
  | posInf, posInf => nan
  | posInf, negInf => nan
  | negInf, posInf => nan
  | negInf, negInf => nan

/-- The call `pow(x, n)` for a natural exponent `n`. -/
def pow (x : FloatVal) (n : ℕ) : FloatVal :=
  if n = 0 then fin 1
  else match x with
    | fin q => fin (q ^ n)
    | posInf => posInf
    | negInf => if n % 2 = 1 then negInf else posInf
    | nan => nan

/-- The comparison `x > y`; it is false when an operand is a NaN. -/
def gt : FloatVal → FloatVal → Bool
  | fin a, fin b => decide (a > b)
  | nan, _ => false
  | _, nan => false
  | posInf, posInf => false
  | posInf, _ => true
  | _, posInf => false
  | negInf, _ => false
  | fin _, negInf => true

end FloatVal

/-- The mutable tuning globals (main.cpp, 106-115) as stored floats. -/
structure FloatParams where
  restDensity : FloatVal
  epsilon : FloatVal
  supportRad : FloatVal
  kPoly : FloatVal
  kSpiky : FloatVal
  pressureRad : FloatVal
  dCorr : FloatVal
  vEps : FloatVal
  sCorr : FloatVal
  kXsph : FloatVal
  deriving DecidableEq, Repr

/-- The members of the uniform block that `updateParams` writes. -/
structure FloatUniforms where
  supportRadius : FloatVal
  restDensity : FloatVal
  epsilon : FloatVal
  kpoly : FloatVal
  kspiky : FloatVal
  scorr : FloatVal
  dcorr : FloatVal
  kxsph : FloatVal
  vortEpsilon : FloatVal
  time : FloatVal
  deriving DecidableEq, Repr

/-- The tuning globals and the uniform block, as stored floats. -/
structure FloatParamState where
  params : FloatParams
  ubo : FloatUniforms
  deriving DecidableEq, Repr

/-- The four assignments that follow a change of `supportRad` (main.cpp, 1362-1365 and
1374-1377), each a `double` expression narrowed to the `float` global, with the four
uploads (1366-1369 and 1378-1381). -/
def recomputeDerivedFloat (s : FloatParamState) : FloatParamState :=
  let supportRad := s.params.supportRad
  let kPoly := FloatVal.narrow
    ((FloatVal.fin 315.0).div (((FloatVal.fin 64.0).mul (.fin M_PI)).mul (supportRad.pow 9)))
  let kSpiky := FloatVal.narrow
    ((FloatVal.fin (-45.0)).div ((FloatVal.fin M_PI).mul (supportRad.pow 6)))
  let pressureRad := FloatVal.narrow ((FloatVal.fin 0.1).mul supportRad)
  let dCorr := FloatVal.narrow
    (kPoly.mul (((supportRad.pow 2).sub (pressureRad.pow 2)).pow 3))
  { params := { s.params with kPoly := kPoly, kSpiky := kSpiky,
                              pressureRad := pressureRad, dCorr := dCorr }
    ubo := { s.ubo with supportRadius := supportRad, kpoly := kPoly,
                        kspiky := kSpiky, dcorr := dCorr } }

def onKeyRFloat (dt : ℚ) (s : FloatParamState) : FloatParamState :=
  let restDensity := (s.params.restDensity.add (.fin (coarseStep dt))).narrow
  { params := { s.params with restDensity := restDensity }
    ubo := { s.ubo with restDensity := restDensity } }

def onKeyEFloat (dt : ℚ) (s : FloatParamState) : FloatParamState :=
  if s.params.restDensity.gt (.fin (coarseStep dt)) then
    let restDensity := (s.params.restDensity.sub (.fin (coarseStep dt))).narrow
    { params := { s.params with restDensity := restDensity }
      ubo := { s.ubo with restDensity := restDensity } }
  else s

def onKeyFFloat (dt : ℚ) (s : FloatParamState) : FloatParamState :=
  let epsilon := (s.params.epsilon.add (.fin (coarseStep dt))).narrow
  { params := { s.params with epsilon := epsilon }
    ubo := { s.ubo with epsilon := epsilon } }

def onKeyDFloat (dt : ℚ) (s : FloatParamState) : FloatParamState :=
  if s.params.epsilon.gt (.fin (coarseStep dt)) then
    let epsilon := (s.params.epsilon.sub (.fin (coarseStep dt))).narrow
    { params := { s.params with epsilon := epsilon }
      ubo := { s.ubo with epsilon := epsilon } }
  else s

def onKeyYFloat (dt : ℚ) (s : FloatParamState) : FloatParamState :=
  recomputeDerivedFloat { s with params := { s.params with
    supportRad := (s.params.supportRad.add (.fin (fineStep dt))).narrow } }

def onKeyTFloat (dt : ℚ) (s : FloatParamState) : FloatParamState :=
  if s.params.supportRad.gt (.fin (fineStep dt)) then
    recomputeDerivedFloat { s with params := { s.params with
      supportRad := (s.params.supportRad.sub (.fin (fineStep dt))).narrow } }
  else s

def onKeyVFloat (dt : ℚ) (s : FloatParamState) : FloatParamState :=
  let vEps := (s.params.vEps.add (.fin (fineStep dt))).narrow
  { params := { s.params with vEps := vEps }
    ubo := { s.ubo with vortEpsilon := vEps } }

def onKeyCFloat (dt : ℚ) (s : FloatParamState) : FloatParamState :=
  if s.params.vEps.gt (.fin (fineStep dt)) then
    let vEps := (s.params.vEps.sub (.fin (fineStep dt))).narrow
    { params := { s.params with vEps := vEps }
      ubo := { s.ubo with vortEpsilon := vEps } }
  else s

def onKey8Float (dt : ℚ) (s : FloatParamState) : FloatParamState :=
  let sCorr := (s.params.sCorr.add (.fin (fineStep dt))).narrow
  { params := { s.params with sCorr := sCorr }
    ubo := { s.ubo with scorr := sCorr } }

def onKey7Float (dt : ℚ) (s : FloatParamState) : FloatParamState :=
  if s.params.sCorr.gt (.fin (fineStep dt)) then
    let sCorr := (s.params.sCorr.sub (.fin (fineStep dt))).narrow
    { params := { s.params with sCorr := sCorr }
      ubo := { s.ubo with scorr := sCorr } }
  else s

def onKey5Float (dt : ℚ) (s : FloatParamState) : FloatParamState :=
  let kXsph := (s.params.kXsph.add (.fin (fineStep dt))).narrow
  { params := { s.params with kXsph := kXsph }
    ubo := { s.ubo with kxsph := kXsph } }

def onKey4Float (dt : ℚ) (s : FloatParamState) : FloatParamState :=
  if s.params.kXsph.gt (.fin (fineStep dt)) then
    let kXsph := (s.params.kXsph.sub (.fin (fineStep dt))).narrow
    { params := { s.params with kXsph := kXsph }
      ubo := { s.ubo with kxsph := kXsph } }
  else s

/-- Runs a key handler when its key is down. -/
def whenKeyFloat (down : Bool) (f : FloatParamState → FloatParamState) (s : FloatParamState) :
    FloatParamState :=
  if down then f s else s

/-- The function `updateParams` (main.cpp, 1330-1417) on the stored floats; `dt` is the
`double` time since the previous call and `simTime` the accumulator it uploads first.  The
keys are polled in the order R, E, F, D, Y, T, V, C, 8, 7, 5, 4. -/
def updateParamsFloat (keys : Keys) (dt : ℚ) (simTime : FloatVal) (s : FloatParamState) :
    FloatParamState :=
  let s := { s with ubo := { s.ubo with time := simTime } }
  let s := whenKeyFloat keys.keyR (onKeyRFloat dt) s
  let s := whenKeyFloat keys.keyE (onKeyEFloat dt) s
  let s := whenKeyFloat keys.keyF (onKeyFFloat dt) s
  let s := whenKeyFloat keys.keyD (onKeyDFloat dt) s
  let s := whenKeyFloat keys.keyY (onKeyYFloat dt) s
  let s := whenKeyFloat keys.keyT (onKeyTFloat dt) s
  let s := whenKeyFloat keys.keyV (onKeyVFloat dt) s
  let s := whenKeyFloat keys.keyC (onKeyCFloat dt) s
  let s := whenKeyFloat keys.key8 (onKey8Float dt) s
  let s := whenKeyFloat keys.key7 (onKey7Float dt) s
  let s := whenKeyFloat keys.key5 (onKey5Float dt) s
  whenKeyFloat keys.key4 (onKey4Float dt) s

/-- The state just before key T is polled: the part of `updateParams` up to and including
key Y. -/
def beforeKeyTFloat (keys : Keys) (dt : ℚ) (simTime : FloatVal) (s : FloatParamState) :
    FloatParamState :=
  let s := { s with ubo := { s.ubo with time := simTime } }
  let s := whenKeyFloat keys.keyR (onKeyRFloat dt) s
  let s := whenKeyFloat keys.keyE (onKeyEFloat dt) s
  let s := whenKeyFloat keys.keyF (onKeyFFloat dt) s
  let s := whenKeyFloat keys.keyD (onKeyDFloat dt) s
  whenKeyFloat keys.keyY (onKeyYFloat dt) s

/-- The support radius and the four globals derived from it, as stored. -/
def radiusGroupFloat (p : FloatParams) : FloatVal × FloatVal × FloatVal × FloatVal × FloatVal :=
  (p.supportRad, p.kPoly, p.kSpiky, p.pressureRad, p.dCorr)

/-- The globals and the uniform block at boot, as stored floats; `kSpiky` holds the zero of
its self-initialisation. -/
def bootFloatParamState : FloatParamState where
  params :=
    { restDensity := .fin bootParams.restDensity, epsilon := .fin bootParams.epsilon,
      supportRad := .fin bootParams.supportRad, kPoly := .fin bootParams.kPoly,
      kSpiky := .fin bootParams.kSpiky, pressureRad := .fin bootParams.pressureRad,
      dCorr := .fin bootParams.dCorr, vEps := .fin bootParams.vEps,
      sCorr := .fin bootParams.sCorr, kXsph := .fin bootParams.kXsph }
  ubo :=
    { supportRadius := .fin bootParams.supportRad, restDensity := .fin bootParams.restDensity,
      epsilon := .fin bootParams.epsilon, kpoly := .fin KPOLY, kspiky := .fin KSPIKY,
      scorr := .fin SCORR, dcorr := .fin DCORR, kxsph := .fin KXSPH,
      vortEpsilon := .fin VORT_EPSILON, time := .fin 0 }

/-- Only key Y (increase the support radius) down. -/
def onlyKeyY : Keys :=
  { noKeys with keyY := true }

/-- The time since the previous call, in seconds, that takes the boot radius 0.5 down to
`2 ^ (-16)` in one call with key T down: `dt / 100 = 0.5 - 2 ^ (-16)`. -/
def longFrame : ℚ := 50 - 25 / 16384

/-- Key T held over `frames` calls of `updateParams`, each `dt` after the one before. -/
def holdKeyT (frames : ℕ) (dt : ℚ) (s : FloatParamState) : FloatParamState :=
  (updateParamsFloat onlyKeyT dt (.fin 0))^[frames] s

/-! ## Theorems -/

/-- C4: for every clock reading, the timestep `fluidUpdate` uploads into
`FluidDynamics.dt` (and so the one the GPU pass runs with) is the minimum of the measured
delta `time - lastTime` and `MAX_DELTA_T`. -/
theorem fluidUpdate_dt_eq_min (draw : FluidUniforms → Buffers → Buffers) (time : ℚ) (w : World) :
    (fluidUpdateHost time w).ubo.dt = min (time - w.lastTime) MAX_DELTA_T ∧
    (fluidUpdate draw time w).ubo.dt = min (time - w.lastTime) MAX_DELTA_T := by
  have key : (timeAndTimestamp MAX_DELTA_T time w.lastTime w.simTime).1
      = min (time - w.lastTime) MAX_DELTA_T := by
    unfold timeAndTimestamp
    by_cases h : time - w.lastTime > MAX_DELTA_T
    · simp [h, min_eq_right (le_of_lt h)]
    · simp [h, min_eq_left (not_lt.mp h)]
  exact ⟨key, key⟩

/-- C5 (the code at a measured delta that is not clamped): when the measured delta is
positive and at most `MAX_DELTA_T`, `fluidUpdate` leaves `simTime` as it was, so the
accumulator does not advance by `min(d, MAX_DELTA_T)`. -/
theorem fluidUpdate_simTime_unclamped (draw : FluidUniforms → Buffers → Buffers) (time : ℚ)
    (w : World) (hpos : 0 < time - w.lastTime) (hle : time - w.lastTime ≤ MAX_DELTA_T) :
    (fluidUpdate draw time w).simTime = w.simTime ∧
    (fluidUpdate draw time w).simTime ≠ w.simTime + min (time - w.lastTime) MAX_DELTA_T := by
  have key : (timeAndTimestamp MAX_DELTA_T time w.lastTime w.simTime).2.2 = w.simTime := by
    unfold timeAndTimestamp
    simp [not_lt.mpr hle]
  have h1 : (fluidUpdate draw time w).simTime = w.simTime := key
  refine ⟨h1, ?_⟩
  rw [h1, min_eq_left hle]
  intro h
  linarith

theorem fluidUpdate_simTime_unclamped_witness :
    (fluidUpdate (fun _ b => b) 0.005 sampleBootWorld).simTime = sampleBootWorld.simTime ∧
    (fluidUpdate (fun _ b => b) 0.005 sampleBootWorld).simTime
      ≠ sampleBootWorld.simTime + min (0.005 - sampleBootWorld.lastTime) MAX_DELTA_T :=
  fluidUpdate_simTime_unclamped (fun _ b => b) 0.005 sampleBootWorld
    (by norm_num [sampleBootWorld, bootWorld])
    (by norm_num [sampleBootWorld, bootWorld, MAX_DELTA_T])

/-! ### Clear -/

theorem copyBufferSubData_full {α : Type} (read write : List α) (n : Nat)
    (hr : read.length = n) (hw : write.length = n) :
    copyBufferSubData read write n = read := by
  unfold copyBufferSubData
  have h1 : List.take n read = read := List.take_of_length_le (le_of_eq hr)
  have h2 : List.drop n write = [] := List.drop_of_length_le (le_of_eq hw)
  simp [hr, hw, h1, h2]

theorem clearBufferData_hashMap (b : Buffers) (hr : b.hashClear.length = HASH_MAP_SIZE)
    (hw : b.hashMap.length = HASH_MAP_SIZE) : (clearBufferData b).hashMap = b.hashClear :=
  copyBufferSubData_full b.hashClear b.hashMap HASH_MAP_SIZE hr hw

/-- The bucket-head half of Clear: with the clear image as `setupParticleData` fills it,
every bucket head is `NONE` after the Clear block, whatever the heads were. -/
theorem clearBufferData_heads (b : Buffers)
    (hr : b.hashClear = List.replicate HASH_MAP_SIZE ⟨NONE⟩)
    (hw : b.hashMap.length = HASH_MAP_SIZE) :
    ∀ h ∈ (clearBufferData b).hashMap, h.headNodeIndex = NONE := by
  intro h hh
  rw [clearBufferData_hashMap b (by rw [hr, List.length_replicate]) hw, hr] at hh
  rw [List.eq_of_mem_replicate hh]

/-- C1 (the code after two particles shared a bucket): the Clear block of `fluidUpdate`
never writes the node pool, for any buffers; on `sharedBucketBuffers` it resets every
bucket head to `NONE` and the counter to zero, and node 1 still points to node 0. -/
theorem clear_keeps_node_next :
    (∀ b : Buffers, (clearBufferData b).linkedList = b.linkedList) ∧
    (∀ (time : ℚ) (w : World), (fluidUpdateHost time w).bufs.linkedList = w.bufs.linkedList) ∧
    (∀ h ∈ (clearBufferData sharedBucketBuffers).hashMap, h.headNodeIndex = NONE) ∧
    nextAt (clearBufferData sharedBucketBuffers) 1 = 0 ∧
    nextAt (clearBufferData sharedBucketBuffers) 1 ≠ NONE := by
  refine ⟨fun b => rfl, fun time w => rfl, ?_, ?_, ?_⟩
  · have hc : sharedBucketBuffers.hashClear = List.replicate HASH_MAP_SIZE ⟨NONE⟩ := rfl
    have hm : sharedBucketBuffers.hashMap
        = ⟨1⟩ :: List.replicate (HASH_MAP_SIZE - 1) ⟨NONE⟩ := rfl
    have hcopy : (clearBufferData sharedBucketBuffers).hashMap
        = List.replicate HASH_MAP_SIZE ⟨NONE⟩ := by
      rw [clearBufferData_hashMap, hc]
      · rw [hc, List.length_replicate]
      · rw [hm, List.length_cons, List.length_replicate]
        rfl
    intro h hh
    rw [hcopy] at hh
    rw [List.eq_of_mem_replicate hh]
  · rfl
  · show (0 : Nat) ≠ NONE
    decide

/-! ### Parameters -/

theorem DerivedConsistent_of_radiusGroup {p q : Params} (h : radiusGroup p = radiusGroup q)
    (hq : DerivedConsistent q) : DerivedConsistent p := by
  simp only [radiusGroup, Prod.mk.injEq] at h
  obtain ⟨h1, h2, h3, h4, h5⟩ := h
  unfold DerivedConsistent at *
  rw [h1, h2, h3, h4, h5]
  exact hq

theorem radiusGroup_onKeyR (dt : ℚ) (s : ParamState) :
    radiusGroup (onKeyR dt s).params = radiusGroup s.params := rfl

theorem radiusGroup_onKeyE (dt : ℚ) (s : ParamState) :
    radiusGroup (onKeyE dt s).params = radiusGroup s.params := by
  unfold onKeyE; split <;> rfl

theorem radiusGroup_onKeyF (dt : ℚ) (s : ParamState) :
    radiusGroup (onKeyF dt s).params = radiusGroup s.params := rfl

theorem radiusGroup_onKeyD (dt : ℚ) (s : ParamState) :
    radiusGroup (onKeyD dt s).params = radiusGroup s.params := by
  unfold onKeyD; split <;> rfl

theorem radiusGroup_onKeyV (dt : ℚ) (s : ParamState) :
    radiusGroup (onKeyV dt s).params = radiusGroup s.params := rfl

theorem radiusGroup_onKeyC (dt : ℚ) (s : ParamState) :
    radiusGroup (onKeyC dt s).params = radiusGroup s.params := by
  unfold onKeyC; split <;> rfl

theorem radiusGroup_onKey8 (dt : ℚ) (s : ParamState) :
    radiusGroup (onKey8 dt s).params = radiusGroup s.params := rfl

theorem radiusGroup_onKey7 (dt : ℚ) (s : ParamState) :
    radiusGroup (onKey7 dt s).params = radiusGroup s.params := by
  unfold onKey7; split <;> rfl

theorem radiusGroup_onKey5 (dt : ℚ) (s : ParamState) :
    radiusGroup (onKey5 dt s).params = radiusGroup s.params := rfl

theorem radiusGroup_onKey4 (dt : ℚ) (s : ParamState) :
    radiusGroup (onKey4 dt s).params = radiusGroup s.params := by
  unfold onKey4; split <;> rfl

theorem radiusGroup_whenKey (down : Bool) (f : ParamState → ParamState)
    (hf : ∀ s, radiusGroup (f s).params = radiusGroup s.params) (s : ParamState) :
    radiusGroup (whenKey down f s).params = radiusGroup s.params := by
  unfold whenKey; split
  · exact hf s
  · rfl

/-- The keys polled after key T leave the radius group as key T left it. -/
theorem updateParams_radiusGroup (keys : Keys) (dt simTime : ℚ) (s : ParamState) :
    radiusGroup (updateParams keys dt simTime s).params
      = radiusGroup (whenKey keys.keyT (onKeyT dt) (beforeKeyT keys dt simTime s)).params := by
  unfold updateParams beforeKeyT
  simp only []
  rw [radiusGroup_whenKey _ _ (radiusGroup_onKey4 dt), radiusGroup_whenKey _ _ (radiusGroup_onKey5 dt),
    radiusGroup_whenKey _ _ (radiusGroup_onKey7 dt), radiusGroup_whenKey _ _ (radiusGroup_onKey8 dt),
    radiusGroup_whenKey _ _ (radiusGroup_onKeyC dt), radiusGroup_whenKey _ _ (radiusGroup_onKeyV dt)]

/-- C8 (the code at boot): the global `kSpiky` starts at zero, which is not the spiky
coefficient at the boot radius 0.5, so the boot state is not consistent; and a call of
`updateParams` with no key down leaves it so. -/
theorem boot_kSpiky_stale :
    bootParams.kSpiky = 0 ∧ spikyAt bootParams.supportRad = KSPIKY ∧ KSPIKY ≠ 0 ∧
    ¬ DerivedConsistent bootParams ∧
    ¬ DerivedConsistent
      (updateParams ⟨false, false, false, false, false, false, false, false, false, false, false, false⟩
        1 0 ⟨bootParams, setupUBOs bootParams 0⟩).params := by
  have h0 : KSPIKY ≠ 0 := by
    unfold KSPIKY M_PI SUPPORT_RADIUS
    norm_num
  have h1 : spikyAt bootParams.supportRad = KSPIKY := rfl
  have h2 : ¬ DerivedConsistent bootParams := by
    intro h
    have h3 : bootParams.kSpiky = spikyAt bootParams.supportRad := h.2.1
    rw [h1] at h3
    exact h0 h3.symm
  refine ⟨rfl, h1, h0, h2, ?_⟩
  intro h
  apply h2
  exact DerivedConsistent_of_radiusGroup rfl h

/-- C9 (as amended): at support radius 0.5 the poly6 coefficient `KPOLY` is `2520/π`,
about 802.14: it lies in [802.135, 802.145]. -/
theorem KPOLY_bounds : 802.135 ≤ KPOLY ∧ KPOLY ≤ 802.145 := by
  unfold KPOLY M_PI SUPPORT_RADIUS
  constructor <;> norm_num

/-- C9 (as stated) fails: `KPOLY` at support radius 0.5 does not lie in [1.555, 1.565]. -/
theorem KPOLY_not_near_1_56 : ¬ (1.555 ≤ KPOLY ∧ KPOLY ≤ 1.565) := by
  unfold KPOLY M_PI SUPPORT_RADIUS
  norm_num

/-- C10 (as amended): at support radius 0.5 the spiky-gradient coefficient `KSPIKY` is
`-2880/π`, about -916.73: it lies in [-916.78, -916.68]. -/
theorem KSPIKY_bounds : -916.78 ≤ KSPIKY ∧ KSPIKY ≤ -916.68 := by
  unfold KSPIKY M_PI SUPPORT_RADIUS
  constructor <;> norm_num

/-- C10 (as stated) fails: `KSPIKY` at support radius 0.5 does not lie in
[-1832.85, -1832.75]. -/
theorem KSPIKY_not_near_1832_8 : ¬ (-1832.85 ≤ KSPIKY ∧ KSPIKY ≤ -1832.75) := by
  unfold KSPIKY M_PI SUPPORT_RADIUS
  norm_num

/-! ### The hash grid -/

theorem getD_set_eq_ite {α : Type} (l : List α) (k k' : Nat) (x d : α) :
    (l.set k x).getD k' d = if k = k' ∧ k < l.length then x else l.getD k' d := by
  simp only [List.getD_eq_getElem?_getD, List.getElem?_set]
  by_cases h : k = k'
  · subst h
    by_cases h2 : k < l.length
    · simp [h2]
    · simp [h2]
      rw [List.getElem?_eq_none (by omega)]
      rfl
  · simp [h]

theorem hashInsert_hashMap_length (k i : Nat) (b : Buffers) :
    (hashInsert k i b).hashMap.length = b.hashMap.length := by
  simp [hashInsert]

theorem hashInsert_linkedList_length (k i : Nat) (b : Buffers) :
    (hashInsert k i b).linkedList.length = b.linkedList.length := by
  simp [hashInsert]

theorem headAt_hashInsert (k i k' : Nat) (b : Buffers) :
    headAt (hashInsert k i b) k' = if k = k' ∧ k < b.hashMap.length then i else headAt b k' := by
  unfold headAt hashInsert
  simp only [getD_set_eq_ite]
  split <;> rfl

theorem nextAt_hashInsert (k i i' : Nat) (b : Buffers) :
    nextAt (hashInsert k i b) i'
      = if i = i' ∧ i < b.linkedList.length then headAt b k else nextAt b i' := by
  unfold nextAt hashInsert
  simp only [getD_set_eq_ite]
  split <;> rfl

theorem ChainIs_congr (b b' : Buffers) (l : List Nat) :
    ∀ h, (∀ x ∈ l, nextAt b' x = nextAt b x) → ChainIs b l h → ChainIs b' l h := by
  induction l with
  | nil => intro h _ hc; exact hc
  | cons x xs ih =>
    intro h hagree hc
    obtain ⟨h1, h2, h3⟩ := hc
    refine ⟨h1, h2, ?_⟩
    rw [hagree x (List.mem_cons_self x xs)]
    exact ih _ (fun y hy => hagree y (List.mem_cons_of_mem x hy)) h3

theorem walkChain_of_ChainIs (b : Buffers) (l : List Nat) :
    ∀ (fuel h : Nat), ChainIs b l h → l.length ≤ fuel → walkChain b fuel h = l := by
  induction l with
  | nil =>
    intro fuel h hc _
    have hh : h = NONE := hc
    cases fuel with
    | zero => rfl
    | succ n => simp [walkChain, hh]
  | cons x xs ih =>
    intro fuel h hc hlen
    obtain ⟨h1, h2, h3⟩ := hc
    cases fuel with
    | zero => simp at hlen
    | succ n =>
      have hlen2 : xs.length ≤ n := by simpa using hlen
      subst h1
      simp [walkChain, h2, ih n _ h3 hlen2]

theorem bucketMembers_append_singleton (bucket : Nat → Nat) (k i : Nat) (inserted : List Nat) :
    bucketMembers bucket k (inserted ++ [i])
      = if bucket i = k then i :: bucketMembers bucket k inserted
        else bucketMembers bucket k inserted := by
  unfold bucketMembers
  rw [List.filter_append]
  by_cases h : bucket i = k
  · simp [h]
  · simp [h]

theorem mem_bucketMembers (bucket : Nat → Nat) (k x : Nat) (inserted : List Nat) :
    x ∈ bucketMembers bucket k inserted ↔ x ∈ inserted ∧ bucket x = k := by
  simp [bucketMembers]

theorem GridInv_hashInsert (bucket : Nat → Nat) (inserted : List Nat) (b : Buffers) (i : Nat)
    (hinv : GridInv bucket inserted b) (hnew : i ∉ inserted) (hi : i ≠ NONE)
    (hlen : i < b.linkedList.length) (hk : bucket i < b.hashMap.length) :
    GridInv bucket (inserted ++ [i]) (hashInsert (bucket i) i b) := by
  intro k hklt
  rw [hashInsert_hashMap_length] at hklt
  have hagree : ∀ x ∈ bucketMembers bucket k inserted,
      nextAt (hashInsert (bucket i) i b) x = nextAt b x := by
    intro x hx
    rw [nextAt_hashInsert]
    have hxi : ¬ (i = x ∧ i < b.linkedList.length) := by
      rintro ⟨hix, _⟩
      apply hnew
      rw [hix]
      exact ((mem_bucketMembers bucket k x inserted).mp hx).1
    simp [hxi]
  rw [bucketMembers_append_singleton, headAt_hashInsert]
  by_cases h : bucket i = k
  · subst h
    simp only [if_true, true_and, hk]
    refine ⟨rfl, hi, ?_⟩
    have hn : nextAt (hashInsert (bucket i) i b) i = headAt b (bucket i) := by
      rw [nextAt_hashInsert]; simp [hlen]
    rw [hn]
    exact ChainIs_congr b _ _ _ hagree (hinv _ hk)
  · simp only [h, if_false, false_and]
    exact ChainIs_congr b _ _ _ hagree (hinv _ hklt)

theorem foldl_hashInsert_lengths (bucket : Nat → Nat) (order : List Nat) :
    ∀ b : Buffers,
      (order.foldl (fun acc i => hashInsert (bucket i) i acc) b).hashMap.length
          = b.hashMap.length ∧
      (order.foldl (fun acc i => hashInsert (bucket i) i acc) b).linkedList.length
          = b.linkedList.length := by
  induction order with
  | nil => intro b; exact ⟨rfl, rfl⟩
  | cons i rest ih =>
    intro b
    simp only [List.foldl_cons]
    obtain ⟨h1, h2⟩ := ih (hashInsert (bucket i) i b)
    rw [h1, h2, hashInsert_hashMap_length, hashInsert_linkedList_length]
    exact ⟨rfl, rfl⟩

theorem GridInv_foldl (bucket : Nat → Nat) (order : List Nat) :
    ∀ (inserted : List Nat) (b : Buffers), GridInv bucket inserted b →
      (inserted ++ order).Nodup →
      (∀ i ∈ order, i ≠ NONE ∧ i < b.linkedList.length ∧ bucket i < b.hashMap.length) →
      GridInv bucket (inserted ++ order)
        (order.foldl (fun acc i => hashInsert (bucket i) i acc) b) := by
  induction order with
  | nil =>
    intro inserted b hinv _ _
    simpa using hinv
  | cons i rest ih =>
    intro inserted b hinv hnd hok
    simp only [List.foldl_cons]
    have hsplit : inserted ++ i :: rest = (inserted ++ [i]) ++ rest := by simp
    rw [hsplit] at hnd ⊢
    obtain ⟨h1, h2, h3⟩ := hok i (List.mem_cons_self i rest)
    have hnew : i ∉ inserted := by
      intro hmem
      have hnd2 : (inserted ++ [i]).Nodup := (List.nodup_append.mp hnd).1
      have := (List.nodup_append.mp hnd2).2.2
      exact this hmem (List.mem_singleton_self i)
    apply ih (inserted ++ [i]) (hashInsert (bucket i) i b)
      (GridInv_hashInsert bucket inserted b i hinv hnew h1 h2 h3) hnd
    intro x hx
    rw [hashInsert_hashMap_length, hashInsert_linkedList_length]
    exact hok x (List.mem_cons_of_mem i hx)

/-- After the Hash stage on cleared bucket heads, walking the chain of any bucket
yields exactly the particles of that bucket, whatever the node pool held before. -/
theorem walkChain_hashPass (hash : ℤ × ℤ × ℤ → Nat) (u : FluidUniforms) (position : Nat → Vec3)
    (order : List Nat) (b : Buffers)
    (hH : u.mapSize = b.hashMap.length) (hH0 : 0 < u.mapSize)
    (hclear : ∀ k, k < b.hashMap.length → headAt b k = NONE)
    (hN : b.linkedList.length ≤ NONE)
    (hnd : order.Nodup) (hall : ∀ p, p ∈ order → p < b.linkedList.length)
    (k : Nat) (hk : k < b.hashMap.length) :
    walkChain (hashPass hash u position order b) (hashPass hash u position order b).linkedList.length
        (headAt (hashPass hash u position order b) k)
      = bucketMembers (bucketOfParticle hash u position) k order := by
  have hinv0 : GridInv (bucketOfParticle hash u position) [] b := by
    intro k hk
    exact hclear k hk
  have hbk : ∀ i, bucketOfParticle hash u position i < b.hashMap.length := by
    intro i
    unfold bucketOfParticle bucketOf
    rw [← hH]
    exact Nat.mod_lt _ hH0
  have hinv := GridInv_foldl (bucketOfParticle hash u position) order [] b hinv0
    (by simpa using hnd)
    (fun i hi => ⟨by have := hall i hi; omega, hall i hi, hbk i⟩)
  obtain ⟨hl1, hl2⟩ := foldl_hashInsert_lengths (bucketOfParticle hash u position) order b
  have hc := hinv k (by rw [hl1]; exact hk)
  simp only [List.nil_append] at hc
  apply walkChain_of_ChainIs _ _ _ _ hc
  show _ ≤ (List.foldl _ b order).linkedList.length
  rw [hl2]
  have hsub : bucketMembers (bucketOfParticle hash u position) k order
      ⊆ List.range b.linkedList.length := by
    intro x hx
    rw [List.mem_range]
    exact hall x ((mem_bucketMembers _ k x order).mp hx).1
  have hnd2 : (bucketMembers (bucketOfParticle hash u position) k order).Nodup := by
    unfold bucketMembers
    exact List.nodup_reverse.mpr (hnd.filter _)
  have := (List.subperm_of_subset hnd2 hsub).length_le
  simpa using this

/-! ### The 27-cell search -/

theorem floor_div_near (r a c : ℚ) (hr : 0 < r) (h : (a - c) ^ 2 ≤ r ^ 2) :
    ⌊c / r⌋ - ⌊a / r⌋ = -1 ∨ ⌊c / r⌋ - ⌊a / r⌋ = 0 ∨ ⌊c / r⌋ - ⌊a / r⌋ = 1 := by
  have habs : |a - c| ≤ r := abs_le_of_sq_le_sq h (le_of_lt hr)
  obtain ⟨hlo, hhi⟩ := abs_le.mp habs
  have h1 : c / r ≤ a / r + 1 := by
    rw [div_add_one (ne_of_gt hr)]
    apply div_le_div_of_nonneg_right _ (le_of_lt hr)
    linarith
  have h2 : a / r ≤ c / r + 1 := by
    rw [div_add_one (ne_of_gt hr)]
    apply div_le_div_of_nonneg_right _ (le_of_lt hr)
    linarith
  have h3 : ⌊c / r⌋ ≤ ⌊a / r⌋ + 1 := by
    rw [← Int.floor_add_one]
    exact Int.floor_le_floor h1
  have h4 : ⌊a / r⌋ ≤ ⌊c / r⌋ + 1 := by
    rw [← Int.floor_add_one]
    exact Int.floor_le_floor h2
  omega

theorem mem_offsets27 (dx dy dz : ℤ) (hx : dx = -1 ∨ dx = 0 ∨ dx = 1)
    (hy : dy = -1 ∨ dy = 0 ∨ dy = 1) (hz : dz = -1 ∨ dz = 0 ∨ dz = 1) :
    (dx, dy, dz) ∈ offsets27 := by
  rcases hx with rfl | rfl | rfl <;> rcases hy with rfl | rfl | rfl <;>
    rcases hz with rfl | rfl | rfl <;> decide

theorem cellOf_near (r : ℚ) (p q : Vec3) (hr : 0 < r) (h : distSq p q ≤ r ^ 2) :
    ∃ d ∈ offsets27, cellOf r q = cellOf r p + d := by
  unfold distSq at h
  have hx : (p.x - q.x) ^ 2 ≤ r ^ 2 := by nlinarith [sq_nonneg (p.y - q.y), sq_nonneg (p.z - q.z)]
  have hy : (p.y - q.y) ^ 2 ≤ r ^ 2 := by nlinarith [sq_nonneg (p.x - q.x), sq_nonneg (p.z - q.z)]
  have hz : (p.z - q.z) ^ 2 ≤ r ^ 2 := by nlinarith [sq_nonneg (p.x - q.x), sq_nonneg (p.y - q.y)]
  refine ⟨(⌊q.x / r⌋ - ⌊p.x / r⌋, ⌊q.y / r⌋ - ⌊p.y / r⌋, ⌊q.z / r⌋ - ⌊p.z / r⌋),
    mem_offsets27 _ _ _ (floor_div_near r _ _ hr hx) (floor_div_near r _ _ hr hy)
      (floor_div_near r _ _ hr hz), ?_⟩
  unfold cellOf
  simp only [Prod.mk_add_mk, Prod.mk.injEq]
  refine ⟨?_, ?_, ?_⟩ <;> ring

/-- C3: for every support radius r > 0 and all particles i and j whose Euclidean distance
at hash time is at most r, the cell of j is one of the 27 cells around the cell of i, and
after the Hash stage (any insertion order over all particles, bucket heads cleared) j is
among the candidates reached for i before distance filtering. -/
theorem candidates_complete (hash : ℤ × ℤ × ℤ → Nat) (u : FluidUniforms)
    (position : Nat → Vec3) (order : List Nat) (b : Buffers) (i j : Nat)
    (hr : 0 < u.supportRadius)
    (hH : u.mapSize = b.hashMap.length) (hH0 : 0 < u.mapSize)
    (hclear : ∀ k, k < b.hashMap.length → headAt b k = NONE)
    (hN : b.linkedList.length ≤ NONE)
    (hnd : order.Nodup) (hall : ∀ p, p ∈ order ↔ p < b.linkedList.length)
    (hj : j < b.linkedList.length)
    (hdist : Real.sqrt ((distSq (position i) (position j) : ℚ) : ℝ) ≤ ((u.supportRadius : ℚ) : ℝ)) :
    (∃ d ∈ offsets27,
      cellOf u.supportRadius (position j) = cellOf u.supportRadius (position i) + d) ∧
    j ∈ candidates hash u position (hashPass hash u position order b) i := by
  have hsq : distSq (position i) (position j) ≤ u.supportRadius ^ 2 := by
    have hr0 : (0 : ℝ) ≤ ((u.supportRadius : ℚ) : ℝ) := by exact_mod_cast le_of_lt hr
    have := (Real.sqrt_le_left hr0).mp hdist
    exact_mod_cast this
  obtain ⟨d, hd, hcell⟩ := cellOf_near u.supportRadius (position i) (position j) hr hsq
  refine ⟨⟨d, hd, hcell⟩, ?_⟩
  unfold candidates
  rw [List.mem_flatMap]
  refine ⟨d, hd, ?_⟩
  have hk : bucketOf hash u.mapSize (cellOf u.supportRadius (position i) + d)
      < b.hashMap.length := by
    unfold bucketOf
    rw [← hH]
    exact Nat.mod_lt _ hH0
  rw [walkChain_hashPass hash u position order b hH hH0 hclear hN hnd
    (fun p hp => (hall p).mp hp) _ hk]
  rw [mem_bucketMembers]
  refine ⟨(hall j).mpr hj, ?_⟩
  unfold bucketOfParticle
  rw [hcell]

theorem candidates_complete_witness :
    (∃ d ∈ offsets27,
      cellOf demoUniforms.supportRadius (demoPositions 1)
        = cellOf demoUniforms.supportRadius (demoPositions 0) + d) ∧
    1 ∈ candidates demoHash demoUniforms demoPositions
      (hashPass demoHash demoUniforms demoPositions [2, 0, 1] (setupParticleDataWith 3 4)) 0 :=
  candidates_complete demoHash demoUniforms demoPositions [2, 0, 1] (setupParticleDataWith 3 4) 0 1
    (by norm_num [demoUniforms, setupUBOs, bootParams, SUPPORT_RADIUS])
    rfl
    (by decide)
    (by decide)
    (by decide)
    (by decide)
    (by
      intro p
      simp [setupParticleDataWith]
      omega)
    (by decide)
    (by
      have hr0 : (0 : ℝ) ≤ ((demoUniforms.supportRadius : ℚ) : ℝ) := by
        norm_num [demoUniforms, setupUBOs, bootParams, SUPPORT_RADIUS]
      rw [Real.sqrt_le_left hr0]
      have : distSq (demoPositions 0) (demoPositions 1) ≤ demoUniforms.supportRadius ^ 2 := by
        norm_num [distSq, demoPositions, demoUniforms, setupUBOs, bootParams, SUPPORT_RADIUS]
      exact_mod_cast this)

/-! ### Neighbour lists -/

theorem appendNeighbor_count_le (m j : Nat) (nl : NeighborType) (h : nl.count ≤ m) :
    (appendNeighbor m j nl).count ≤ m := by
  unfold appendNeighbor
  split
  · show nl.count + 1 ≤ m
    omega
  · exact h

theorem findNeighbors_count_le (hash : ℤ × ℤ × ℤ → Nat) (u : FluidUniforms)
    (position : Nat → Vec3) (b : Buffers) (i : Nat) (nl : NeighborType)
    (h : nl.count ≤ u.maxNeighbors) :
    (findNeighbors hash u position b i nl).count ≤ u.maxNeighbors := by
  unfold findNeighbors
  generalize candidates hash u position b i = cs
  induction cs generalizing nl with
  | nil => exact h
  | cons c rest ih =>
    simp only [List.foldl_cons]
    apply ih
    split
    · exact appendNeighbor_count_le _ _ _ h
    · exact h

theorem hashPass_neighborData (hash : ℤ × ℤ × ℤ → Nat) (u : FluidUniforms)
    (position : Nat → Vec3) (order : List Nat) :
    ∀ b : Buffers, (hashPass hash u position order b).neighborData = b.neighborData := by
  unfold hashPass
  induction order with
  | nil => intro b; rfl
  | cons i rest ih =>
    intro b
    simp only [List.foldl_cons]
    rw [ih]
    rfl

theorem gpuPass_count_le (hash : ℤ × ℤ × ℤ → Nat) (position : Nat → Vec3) (order : List Nat)
    (u : FluidUniforms) (b : Buffers)
    (h : ∀ e ∈ b.neighborData, e.count ≤ u.maxNeighbors) :
    ∀ e ∈ (gpuPass hash position order u b).neighborData, e.count ≤ u.maxNeighbors := by
  intro e he
  unfold gpuPass findNeighborsPass at he
  simp only [List.mem_map] at he
  obtain ⟨⟨i, nl⟩, hmem, rfl⟩ := he
  apply findNeighbors_count_le
  have hnl : nl ∈ (hashPass hash u position order b).neighborData := by
    obtain ⟨hlt, heq⟩ := List.mem_enum hmem
    rw [heq]
    exact List.getElem_mem hlt
  rw [hashPass_neighborData] at hnl
  exact h nl hnl

theorem fluidUpdate_count_le (hash : ℤ × ℤ × ℤ → Nat) (s : Substep) (w : World)
    (hm : w.ubo.maxNeighbors = MAX_NEIGHBORS)
    (h : ∀ e ∈ w.bufs.neighborData, e.count ≤ MAX_NEIGHBORS) :
    (fluidUpdate (gpuPass hash s.position s.order) s.time w).ubo.maxNeighbors = MAX_NEIGHBORS ∧
    ∀ e ∈ (fluidUpdate (gpuPass hash s.position s.order) s.time w).bufs.neighborData,
      e.count ≤ MAX_NEIGHBORS := by
  refine ⟨hm, ?_⟩
  intro e he
  have hu : (fluidUpdateHost s.time w).ubo.maxNeighbors = MAX_NEIGHBORS := hm
  rw [← hu]
  apply gpuPass_count_le hash s.position s.order (fluidUpdateHost s.time w).ubo
    (fluidUpdateHost s.time w).bufs _ e he
  rw [hu]
  exact h

theorem runSubsteps_count_le (hash : ℤ × ℤ × ℤ → Nat) (steps : List Substep) :
    ∀ w : World, w.ubo.maxNeighbors = MAX_NEIGHBORS →
      (∀ e ∈ w.bufs.neighborData, e.count ≤ MAX_NEIGHBORS) →
      ∀ e ∈ (runSubsteps hash steps w).bufs.neighborData, e.count ≤ MAX_NEIGHBORS := by
  unfold runSubsteps
  induction steps with
  | nil => intro w _ h; exact h
  | cons s rest ih =>
    intro w hm h
    simp only [List.foldl_cons]
    obtain ⟨h1, h2⟩ := fluidUpdate_count_le hash s w hm h
    exact ih _ h1 h2

/-- C2: at startup and after any run of substeps from the boot state, every neighbour
list has `count ≤ MAX_NEIGHBORS`; a candidate appended to a list that is at capacity
leaves the list, and so its count, as it was. -/
theorem neighbor_count_le_max (hash : ℤ × ℤ × ℤ → Nat) (startTime : ℚ)
    (fresh : List HashType) (freshCounter : Nat) (steps : List Substep) :
    MAX_NEIGHBORS = 500 ∧
    (∀ e ∈ setupParticleData.neighborData, e.count ≤ MAX_NEIGHBORS) ∧
    (∀ e ∈ (runSubsteps hash steps (bootWorld startTime fresh freshCounter)).bufs.neighborData,
      e.count ≤ MAX_NEIGHBORS) ∧
    (∀ (j : Nat) (nl : NeighborType), nl.count = MAX_NEIGHBORS →
      appendNeighbor MAX_NEIGHBORS j nl = nl ∧
      (appendNeighbor MAX_NEIGHBORS j nl).count ≤ MAX_NEIGHBORS) := by
  have hboot : ∀ e ∈ setupParticleData.neighborData, e.count ≤ MAX_NEIGHBORS := by
    intro e he
    have he2 : e ∈ List.replicate NUM_PARTICLES
        (⟨0, List.replicate MAX_NEIGHBORS 0xffffffff⟩ : NeighborType) := he
    rw [List.eq_of_mem_replicate he2]
    exact Nat.zero_le _
  refine ⟨rfl, hboot, ?_, ?_⟩
  · exact runSubsteps_count_le hash steps _ rfl hboot
  · intro j nl hnl
    have h1 : appendNeighbor MAX_NEIGHBORS j nl = nl := by
      unfold appendNeighbor
      simp [hnl]
    rw [h1]
    exact ⟨rfl, le_of_eq hnl⟩

theorem neighbor_count_le_max_witness :
    (appendNeighbor MAX_NEIGHBORS 7 ⟨500, List.replicate 500 0⟩).count ≤ MAX_NEIGHBORS :=
  ((neighbor_count_le_max demoHash 0 (List.replicate HASH_MAP_SIZE ⟨0⟩) 0
      [⟨demoPositions, [2, 0, 1], 0.005⟩]).2.2.2 7
    ⟨500, List.replicate 500 0⟩ rfl).2

/-! ### Boot-time constants and buffers -/

/-- C11: the boot-time derived constants are the closed forms at `SUPPORT_RADIUS = 0.5`:
`PRESSURE_RADIUS` is exactly 0.05, `DCORR` is `KPOLY * (0.5² - 0.05²)³`, and the block
`setupUBOs` fills at boot holds radius 0.5 with the poly6, spiky and tensile-correction
closed forms at that radius (`KPOLY`, `KSPIKY`, `DCORR`). -/
theorem boot_constants_consistent :
    SUPPORT_RADIUS = 0.5 ∧ PRESSURE_RADIUS = 0.05 ∧
    DCORR = KPOLY * ((0.5 : ℚ) ^ 2 - (0.05 : ℚ) ^ 2) ^ 3 ∧
    KPOLY = poly6At 0.5 ∧ KSPIKY = spikyAt 0.5 ∧ PRESSURE_RADIUS = pressureRadiusAt 0.5 ∧
    DCORR = tensileCorrAt 0.5 ∧
    (∀ simTime : ℚ,
      (setupUBOs bootParams simTime).supportRadius = 0.5 ∧
      (setupUBOs bootParams simTime).kpoly = poly6At (setupUBOs bootParams simTime).supportRadius ∧
      (setupUBOs bootParams simTime).kspiky = spikyAt (setupUBOs bootParams simTime).supportRadius ∧
      (setupUBOs bootParams simTime).dcorr
        = tensileCorrAt (setupUBOs bootParams simTime).supportRadius ∧
      (setupUBOs bootParams simTime).kpoly = KPOLY ∧
      (setupUBOs bootParams simTime).kspiky = KSPIKY ∧
      (setupUBOs bootParams simTime).dcorr = DCORR) := by
  have hp : PRESSURE_RADIUS = 0.05 := by
    unfold PRESSURE_RADIUS SUPPORT_RADIUS
    norm_num
  have hd : DCORR = KPOLY * ((0.5 : ℚ) ^ 2 - (0.05 : ℚ) ^ 2) ^ 3 := by
    unfold DCORR
    rw [hp]
    rfl
  have hr : bootParams.supportRad = 0.5 := rfl
  refine ⟨rfl, hp, hd, rfl, rfl, rfl, rfl, ?_⟩
  intro simTime
  exact ⟨hr, rfl, rfl, rfl, rfl, rfl, rfl⟩

/-- C14: the Clear block sets the shared insertion counter to zero, whatever it held:
so do `clearBufferData` and the buffers `fluidUpdate` hands to its draw call. -/
theorem clear_resets_counter :
    (∀ b : Buffers, (clearBufferData b).counter = 0) ∧
    (∀ (time : ℚ) (w : World), (fluidUpdateHost time w).bufs.counter = 0) ∧
    (∀ (draw : FluidUniforms → Buffers → Buffers) (time : ℚ) (w : World),
      (fluidUpdate draw time w).bufs
        = draw (fluidUpdateHost time w).ubo (fluidUpdateHost time w).bufs) := by
  refine ⟨?_, ?_, ?_⟩
  · intro b
    unfold clearBufferData
    rfl
  · intro time w
    unfold fluidUpdateHost clearBufferData
    rfl
  · intro draw time w
    rfl

theorem mem_replicate_eq {α : Type} {n : Nat} {a x : α} (h : x ∈ List.replicate n a) : x = a :=
  List.eq_of_mem_replicate h

/-- C16: after `setupParticleData` the arrays `hashMap` and `hashClear` have
`HASH_MAP_SIZE` entries, all with head `NONE`; `linkedList` and `listClear` have
`NUM_PARTICLES` nodes, all with next index `NONE`; and each of the `NUM_PARTICLES`
neighbour lists has count 0 and `MAX_NEIGHBORS` slots, all `NONE`. -/
theorem setupParticleData_cleared :
    (setupParticleData.hashMap.length = HASH_MAP_SIZE ∧
      ∀ h ∈ setupParticleData.hashMap, h.headNodeIndex = NONE) ∧
    (setupParticleData.hashClear.length = HASH_MAP_SIZE ∧
      ∀ h ∈ setupParticleData.hashClear, h.headNodeIndex = NONE) ∧
    (setupParticleData.linkedList.length = NUM_PARTICLES ∧
      ∀ n ∈ setupParticleData.linkedList, n.nextNodeIndex = NONE) ∧
    (setupParticleData.listClear.length = NUM_PARTICLES ∧
      ∀ n ∈ setupParticleData.listClear, n.nextNodeIndex = NONE) ∧
    (setupParticleData.neighborData.length = NUM_PARTICLES ∧
      ∀ e ∈ setupParticleData.neighborData,
        e.count = 0 ∧ e.neighboring.length = MAX_NEIGHBORS ∧ ∀ j ∈ e.neighboring, j = NONE) := by
  have h1 : setupParticleData.hashMap = List.replicate HASH_MAP_SIZE ⟨0xffffffff⟩ := rfl
  have h2 : setupParticleData.hashClear = List.replicate HASH_MAP_SIZE ⟨0xffffffff⟩ := rfl
  have h3 : setupParticleData.linkedList
      = List.replicate NUM_PARTICLES ⟨0xffffffff, 0xffffffff⟩ := rfl
  have h4 : setupParticleData.listClear
      = List.replicate NUM_PARTICLES ⟨0xffffffff, 0xffffffff⟩ := rfl
  have h5 : setupParticleData.neighborData
      = List.replicate NUM_PARTICLES ⟨0, List.replicate MAX_NEIGHBORS 0xffffffff⟩ := rfl
  rw [h1, h2, h3, h4, h5]
  simp only [List.length_replicate, true_and]
  refine ⟨?_, ?_, ?_, ?_, ?_⟩
  · intro h hh
    rw [mem_replicate_eq hh]
    rfl
  · intro h hh
    rw [mem_replicate_eq hh]
    rfl
  · intro n hn
    rw [mem_replicate_eq hn]
    rfl
  · intro n hn
    rw [mem_replicate_eq hn]
    rfl
  · intro e he
    rw [mem_replicate_eq he]
    refine ⟨rfl, List.length_replicate _ _, ?_⟩
    intro j hj
    have hj2 : j ∈ List.replicate MAX_NEIGHBORS 0xffffffff := hj
    rw [mem_replicate_eq hj2]
    rfl

theorem copyBufferSubData_length {α : Type} (read write : List α) (n : Nat) :
    (copyBufferSubData read write n).length = write.length := by
  unfold copyBufferSubData
  split
  · rename_i h
    rw [List.length_append, List.length_take, List.length_drop]
    omega
  · rfl

theorem fluidUpdate_gpuPass_hashMap_length (hash : ℤ × ℤ × ℤ → Nat) (s : Substep) (w : World) :
    (fluidUpdate (gpuPass hash s.position s.order) s.time w).bufs.hashMap.length
      = w.bufs.hashMap.length := by
  have h1 : (fluidUpdate (gpuPass hash s.position s.order) s.time w).bufs.hashMap
      = (hashPass hash (fluidUpdateHost s.time w).ubo s.position s.order
          (clearBufferData w.bufs)).hashMap := rfl
  rw [h1]
  unfold hashPass
  rw [(foldl_hashInsert_lengths _ s.order (clearBufferData w.bufs)).1]
  exact copyBufferSubData_length _ _ _

theorem runSubsteps_hashMap_length (hash : ℤ × ℤ × ℤ → Nat) (steps : List Substep) :
    ∀ w : World, (runSubsteps hash steps w).bufs.hashMap.length = w.bufs.hashMap.length := by
  unfold runSubsteps
  induction steps with
  | nil => intro w; rfl
  | cons s rest ih =>
    intro w
    simp only [List.foldl_cons]
    rw [ih, fluidUpdate_gpuPass_hashMap_length]

theorem nonEmptyBuckets_le (b : Buffers) : nonEmptyBuckets b ≤ b.hashMap.length :=
  List.length_filter_le _ _

/-- C18: the boot-time configuration is the documented one: N = 1536·10 = 15360
particles, H = N buckets, M = 500, S = 2, K = 4, rest density 600, support radius 0.5,
relaxation epsilon 6000, maximum substep delta 0.0083, and the mutable globals and the
uniform block start from these values.  With the bucket-head buffer allocated for H
entries, the number of non-empty buckets after any run of substeps is at most 15360. -/
theorem boot_configuration (hash : ℤ × ℤ × ℤ → Nat) (startTime : ℚ) (fresh : List HashType)
    (freshCounter : Nat) (steps : List Substep) (hfresh : fresh.length = HASH_MAP_SIZE) :
    (NUM_PARTICLES = 1536 * 10 ∧ NUM_PARTICLES = 15360 ∧ HASH_MAP_SIZE = NUM_PARTICLES ∧
      MAX_NEIGHBORS = 500 ∧ SUBSTEPS = 2 ∧ SOLVER_ITERS = 4) ∧
    (REST_DENSITY = 600 ∧ SUPPORT_RADIUS = 0.5 ∧ EPSILON = 6000 ∧ MAX_DELTA_T = 0.0083) ∧
    (bootParams.restDensity = 600 ∧ bootParams.supportRad = 0.5 ∧ bootParams.epsilon = 6000) ∧
    ((bootWorld startTime fresh freshCounter).ubo.maxParticles = 15360 ∧
      (bootWorld startTime fresh freshCounter).ubo.mapSize = 15360 ∧
      (bootWorld startTime fresh freshCounter).ubo.maxNeighbors = 500 ∧
      (bootWorld startTime fresh freshCounter).ubo.solverIters = 4 ∧
      (bootWorld startTime fresh freshCounter).ubo.restDensity = 600 ∧
      (bootWorld startTime fresh freshCounter).ubo.supportRadius = 0.5 ∧
      (bootWorld startTime fresh freshCounter).ubo.epsilon = 6000 ∧
      (bootWorld startTime fresh freshCounter).ubo.dt = 0.0083) ∧
    nonEmptyBuckets (runSubsteps hash steps (bootWorld startTime fresh freshCounter)).bufs
      ≤ 15360 := by
  have hR : REST_DENSITY = 600 := by unfold REST_DENSITY; norm_num
  have hE : EPSILON = 6000 := by unfold EPSILON; norm_num
  refine ⟨⟨rfl, rfl, rfl, rfl, rfl, rfl⟩, ⟨hR, rfl, hE, rfl⟩, ⟨hR, rfl, hE⟩,
    ⟨rfl, rfl, rfl, rfl, hR, rfl, hE, rfl⟩, ?_⟩
  apply le_trans (nonEmptyBuckets_le _)
  rw [runSubsteps_hashMap_length]
  show fresh.length ≤ 15360
  rw [hfresh]
  exact le_of_eq rfl

theorem boot_configuration_witness :
    nonEmptyBuckets (runSubsteps demoHash [⟨demoPositions, [2, 0, 1], 0.005⟩]
      (bootWorld 0 (List.replicate HASH_MAP_SIZE ⟨0⟩) 0)).bufs ≤ 15360 :=
  (boot_configuration demoHash 0 (List.replicate HASH_MAP_SIZE ⟨0⟩) 0
    [⟨demoPositions, [2, 0, 1], 0.005⟩] (List.length_replicate _ _)).2.2.2.2

/-! ### Guards of updateParams -/

theorem coarseStep_nonneg (dt : ℚ) (h : 0 ≤ dt) : 0 ≤ coarseStep dt := by
  unfold coarseStep
  have h1 : (0 : ℤ) ≤ ⌈100 * dt⌉ := Int.ceil_nonneg (by linarith)
  exact_mod_cast h1

theorem fineStep_nonneg (dt : ℚ) (h : 0 ≤ dt) : 0 ≤ fineStep dt := by
  unfold fineStep
  apply div_nonneg h
  norm_num

theorem AllPositive_onKeyR (dt : ℚ) (h : 0 ≤ dt) (s : ParamState)
    (hs : AllPositive s.params) : AllPositive (onKeyR dt s).params := by
  obtain ⟨h1, h2, h3, h4, h5, h6⟩ := hs
  have := coarseStep_nonneg dt h
  refine ⟨?_, h2, h3, h4, h5, h6⟩
  show 0 < s.params.restDensity + coarseStep dt
  linarith

theorem AllPositive_onKeyE (dt : ℚ) (s : ParamState)
    (hs : AllPositive s.params) : AllPositive (onKeyE dt s).params := by
  obtain ⟨h1, h2, h3, h4, h5, h6⟩ := hs
  unfold onKeyE
  split
  · rename_i hg
    refine ⟨?_, h2, h3, h4, h5, h6⟩
    show 0 < s.params.restDensity - coarseStep dt
    linarith
  · exact ⟨h1, h2, h3, h4, h5, h6⟩

theorem AllPositive_onKeyF (dt : ℚ) (h : 0 ≤ dt) (s : ParamState)
    (hs : AllPositive s.params) : AllPositive (onKeyF dt s).params := by
  obtain ⟨h1, h2, h3, h4, h5, h6⟩ := hs
  have := coarseStep_nonneg dt h
  refine ⟨h1, ?_, h3, h4, h5, h6⟩
  show 0 < s.params.epsilon + coarseStep dt
  linarith

theorem AllPositive_onKeyD (dt : ℚ) (s : ParamState)
    (hs : AllPositive s.params) : AllPositive (onKeyD dt s).params := by
  obtain ⟨h1, h2, h3, h4, h5, h6⟩ := hs
  unfold onKeyD
  split
  · rename_i hg
    refine ⟨h1, ?_, h3, h4, h5, h6⟩
    show 0 < s.params.epsilon - coarseStep dt
    linarith
  · exact ⟨h1, h2, h3, h4, h5, h6⟩

theorem AllPositive_onKeyY (dt : ℚ) (h : 0 ≤ dt) (s : ParamState)
    (hs : AllPositive s.params) : AllPositive (onKeyY dt s).params := by
  obtain ⟨h1, h2, h3, h4, h5, h6⟩ := hs
  have := fineStep_nonneg dt h
  refine ⟨h1, h2, ?_, h4, h5, h6⟩
  show 0 < s.params.supportRad + fineStep dt
  linarith

theorem AllPositive_onKeyT (dt : ℚ) (s : ParamState)
    (hs : AllPositive s.params) : AllPositive (onKeyT dt s).params := by
  obtain ⟨h1, h2, h3, h4, h5, h6⟩ := hs
  unfold onKeyT
  split
  · rename_i hg
    refine ⟨h1, h2, ?_, h4, h5, h6⟩
    show 0 < s.params.supportRad - fineStep dt
    linarith
  · exact ⟨h1, h2, h3, h4, h5, h6⟩

theorem AllPositive_onKeyV (dt : ℚ) (h : 0 ≤ dt) (s : ParamState)
    (hs : AllPositive s.params) : AllPositive (onKeyV dt s).params := by
  obtain ⟨h1, h2, h3, h4, h5, h6⟩ := hs
  have := fineStep_nonneg dt h
  refine ⟨h1, h2, h3, ?_, h5, h6⟩
  show 0 < s.params.vEps + fineStep dt
  linarith

theorem AllPositive_onKeyC (dt : ℚ) (s : ParamState)
    (hs : AllPositive s.params) : AllPositive (onKeyC dt s).params := by
  obtain ⟨h1, h2, h3, h4, h5, h6⟩ := hs
  unfold onKeyC
  split
  · rename_i hg
    refine ⟨h1, h2, h3, ?_, h5, h6⟩
    show 0 < s.params.vEps - fineStep dt
    linarith
  · exact ⟨h1, h2, h3, h4, h5, h6⟩

theorem AllPositive_onKey8 (dt : ℚ) (h : 0 ≤ dt) (s : ParamState)
    (hs : AllPositive s.params) : AllPositive (onKey8 dt s).params := by
  obtain ⟨h1, h2, h3, h4, h5, h6⟩ := hs
  have := fineStep_nonneg dt h
  refine ⟨h1, h2, h3, h4, ?_, h6⟩
  show 0 < s.params.sCorr + fineStep dt
  linarith

theorem AllPositive_onKey7 (dt : ℚ) (s : ParamState)
    (hs : AllPositive s.params) : AllPositive (onKey7 dt s).params := by
  obtain ⟨h1, h2, h3, h4, h5, h6⟩ := hs
  unfold onKey7
  split
  · rename_i hg
    refine ⟨h1, h2, h3, h4, ?_, h6⟩
    show 0 < s.params.sCorr - fineStep dt
    linarith
  · exact ⟨h1, h2, h3, h4, h5, h6⟩

theorem AllPositive_onKey5 (dt : ℚ) (h : 0 ≤ dt) (s : ParamState)
    (hs : AllPositive s.params) : AllPositive (onKey5 dt s).params := by
  obtain ⟨h1, h2, h3, h4, h5, h6⟩ := hs
  have := fineStep_nonneg dt h
  refine ⟨h1, h2, h3, h4, h5, ?_⟩
  show 0 < s.params.kXsph + fineStep dt
  linarith

theorem AllPositive_onKey4 (dt : ℚ) (s : ParamState)
    (hs : AllPositive s.params) : AllPositive (onKey4 dt s).params := by
  obtain ⟨h1, h2, h3, h4, h5, h6⟩ := hs
  unfold onKey4
  split
  · rename_i hg
    refine ⟨h1, h2, h3, h4, h5, ?_⟩
    show 0 < s.params.kXsph - fineStep dt
    linarith
  · exact ⟨h1, h2, h3, h4, h5, h6⟩

theorem AllPositive_whenKey (down : Bool) (f : ParamState → ParamState) (s : ParamState)
    (hf : AllPositive s.params → AllPositive (f s).params) (hs : AllPositive s.params) :
    AllPositive (whenKey down f s).params := by
  unfold whenKey
  split
  · exact hf hs
  · exact hs

/-- C12: for every elapsed time `dt ≥ 0` and every combination of pressed keys, if
`restDensity`, `epsilon`, `supportRad`, `vEps`, `sCorr` and `kXsph` are all positive before
`updateParams`, each of them is positive after it. -/
theorem updateParams_keeps_positive (keys : Keys) (dt simTime : ℚ) (s : ParamState)
    (hdt : 0 ≤ dt) (hs : AllPositive s.params) :
    AllPositive (updateParams keys dt simTime s).params := by
  unfold updateParams
  simp only []
  apply AllPositive_whenKey _ _ _ (AllPositive_onKey4 dt _)
  apply AllPositive_whenKey _ _ _ (AllPositive_onKey5 dt hdt _)
  apply AllPositive_whenKey _ _ _ (AllPositive_onKey7 dt _)
  apply AllPositive_whenKey _ _ _ (AllPositive_onKey8 dt hdt _)
  apply AllPositive_whenKey _ _ _ (AllPositive_onKeyC dt _)
  apply AllPositive_whenKey _ _ _ (AllPositive_onKeyV dt hdt _)
  apply AllPositive_whenKey _ _ _ (AllPositive_onKeyT dt _)
  apply AllPositive_whenKey _ _ _ (AllPositive_onKeyY dt hdt _)
  apply AllPositive_whenKey _ _ _ (AllPositive_onKeyD dt _)
  apply AllPositive_whenKey _ _ _ (AllPositive_onKeyF dt hdt _)
  apply AllPositive_whenKey _ _ _ (AllPositive_onKeyE dt _)
  apply AllPositive_whenKey _ _ _ (AllPositive_onKeyR dt hdt _)
  exact hs

theorem updateParams_keeps_positive_witness :
    AllPositive (updateParams allKeys 1000 0 bootParamState).params :=
  updateParams_keeps_positive allKeys 1000 0 bootParamState (by norm_num) (by
    unfold AllPositive bootParamState bootParams REST_DENSITY EPSILON SUPPORT_RADIUS
      VORT_EPSILON SCORR KXSPH
    norm_num)

/-- C13: when the pre-check of a decrement key fails (the parameter is at most the step:
`ceil(100·dt)` for rest density and epsilon, `dt/100` for support radius, vorticity
epsilon, sCorr and kXsph) and the matching increment key is up, `updateParams` leaves that
parameter as it was, whether or not the decrement key is down; for the support radius
the four derived coefficients are unchanged as well. -/
theorem updateParams_failed_guard (keys : Keys) (dt simTime : ℚ) (s : ParamState) :
    (keys.keyR = false → s.params.restDensity ≤ coarseStep dt →
      (updateParams keys dt simTime s).params.restDensity = s.params.restDensity) ∧
    (keys.keyF = false → s.params.epsilon ≤ coarseStep dt →
      (updateParams keys dt simTime s).params.epsilon = s.params.epsilon) ∧
    (keys.keyY = false → s.params.supportRad ≤ fineStep dt →
      radiusGroup (updateParams keys dt simTime s).params = radiusGroup s.params) ∧
    (keys.keyV = false → s.params.vEps ≤ fineStep dt →
      (updateParams keys dt simTime s).params.vEps = s.params.vEps) ∧
    (keys.key8 = false → s.params.sCorr ≤ fineStep dt →
      (updateParams keys dt simTime s).params.sCorr = s.params.sCorr) ∧
    (keys.key5 = false → s.params.kXsph ≤ fineStep dt →
      (updateParams keys dt simTime s).params.kXsph = s.params.kXsph) := by
  refine ⟨?_, ?_, ?_, ?_, ?_, ?_⟩
  · intro hk hg
    simp only [updateParams, whenKey, onKeyR, onKeyE, onKeyF, onKeyD, onKeyY, onKeyT, onKeyV,
      onKeyC, onKey8, onKey7, onKey5, onKey4, recomputeDerived, hk, apply_ite ParamState.params,
      apply_ite Params.restDensity, ite_self, Bool.false_eq_true, if_false, not_lt.mpr hg]
  · intro hk hg
    simp only [updateParams, whenKey, onKeyR, onKeyE, onKeyF, onKeyD, onKeyY, onKeyT, onKeyV,
      onKeyC, onKey8, onKey7, onKey5, onKey4, recomputeDerived, hk, apply_ite ParamState.params,
      apply_ite Params.epsilon, ite_self, Bool.false_eq_true, if_false, not_lt.mpr hg]
  · intro hk hg
    simp only [radiusGroup, updateParams, whenKey, onKeyR, onKeyE, onKeyF, onKeyD, onKeyY, onKeyT,
      onKeyV, onKeyC, onKey8, onKey7, onKey5, onKey4, recomputeDerived, hk,
      apply_ite ParamState.params, apply_ite Params.supportRad, apply_ite Params.kPoly,
      apply_ite Params.kSpiky, apply_ite Params.pressureRad, apply_ite Params.dCorr, ite_self,
      Bool.false_eq_true, if_false, not_lt.mpr hg]
  · intro hk hg
    simp only [updateParams, whenKey, onKeyR, onKeyE, onKeyF, onKeyD, onKeyY, onKeyT, onKeyV,
      onKeyC, onKey8, onKey7, onKey5, onKey4, recomputeDerived, hk, apply_ite ParamState.params,
      apply_ite Params.vEps, ite_self, Bool.false_eq_true, if_false, not_lt.mpr hg]
  · intro hk hg
    simp only [updateParams, whenKey, onKeyR, onKeyE, onKeyF, onKeyD, onKeyY, onKeyT, onKeyV,
      onKeyC, onKey8, onKey7, onKey5, onKey4, recomputeDerived, hk, apply_ite ParamState.params,
      apply_ite Params.sCorr, ite_self, Bool.false_eq_true, if_false, not_lt.mpr hg]
  · intro hk hg
    simp only [updateParams, whenKey, onKeyR, onKeyE, onKeyF, onKeyD, onKeyY, onKeyT, onKeyV,
      onKeyC, onKey8, onKey7, onKey5, onKey4, recomputeDerived, hk, apply_ite ParamState.params,
      apply_ite Params.kXsph, ite_self, Bool.false_eq_true, if_false, not_lt.mpr hg]

theorem updateParams_failed_guard_witness :
    radiusGroup (updateParams onlyKeyT 1000 0 bootParamState).params
      = radiusGroup bootParamState.params :=
  (updateParams_failed_guard onlyKeyT 1000 0 bootParamState).2.2.1 rfl (by
    unfold bootParamState bootParams SUPPORT_RADIUS fineStep
    norm_num)

/-! ### The frame -/

theorem fluidUpdateLogged_eq (draw : FluidUniforms → Buffers → Buffers) (time : ℚ)
    (s : World × List GLCall) :
    fluidUpdateLogged draw time s
      = (fluidUpdate draw time s.1,
          s.2 ++ [GLCall.copyHashClear, GLCall.resetCounter, GLCall.uploadDt,
            GLCall.drawFluidPass]) := by
  unfold fluidUpdateLogged fluidUpdate fluidUpdateHost clearBufferData
  simp only [List.append_assoc, List.singleton_append, List.cons_append, List.nil_append]

/-- C15: a frame runs exactly `SUBSTEPS = 2` substeps: the state `renderScene` ends with is
that of two calls of `fluidUpdate`, its GL calls are Clear (copy of the clear image, counter
reset), upload of `dt` and the fluid pass, twice over, and only then the two draws of the
scene; and the fluid pass of each substep runs on the buffers its own Clear produced. -/
theorem renderScene_two_substeps (draw : FluidUniforms → Buffers → Buffers) (clock : Nat → ℚ)
    (w : World) (log : List GLCall) :
    SUBSTEPS = 2 ∧
    (renderScene draw clock (w, log)).1
      = fluidUpdate draw (clock 1) (fluidUpdate draw (clock 0) w) ∧
    (renderScene draw clock (w, log)).2
      = log ++ [GLCall.copyHashClear, GLCall.resetCounter, GLCall.uploadDt, GLCall.drawFluidPass,
          GLCall.copyHashClear, GLCall.resetCounter, GLCall.uploadDt, GLCall.drawFluidPass,
          GLCall.drawSpheres, GLCall.drawGround] ∧
    ((renderScene draw clock (w, [])).2.count GLCall.drawFluidPass = 2 ∧
      (renderScene draw clock (w, [])).2.count GLCall.copyHashClear = 2) ∧
    (∀ (time : ℚ) (v : World),
      (fluidUpdate draw time v).bufs
        = draw (fluidUpdateHost time v).ubo (clearBufferData v.bufs)) := by
  have hrun : renderScene draw clock (w, log)
      = (fluidUpdate draw (clock 1) (fluidUpdate draw (clock 0) w),
          log ++ [GLCall.copyHashClear, GLCall.resetCounter, GLCall.uploadDt,
            GLCall.drawFluidPass, GLCall.copyHashClear, GLCall.resetCounter, GLCall.uploadDt,
            GLCall.drawFluidPass, GLCall.drawSpheres, GLCall.drawGround]) := by
    unfold renderScene
    have hr : List.range SUBSTEPS = [0, 1] := rfl
    simp only [hr, List.foldl_cons, List.foldl_nil, fluidUpdateLogged_eq, List.append_assoc,
      List.cons_append, List.nil_append]
  have hrun0 : (renderScene draw clock (w, [])).2
      = [GLCall.copyHashClear, GLCall.resetCounter, GLCall.uploadDt,
          GLCall.drawFluidPass, GLCall.copyHashClear, GLCall.resetCounter, GLCall.uploadDt,
          GLCall.drawFluidPass, GLCall.drawSpheres, GLCall.drawGround] := by
    unfold renderScene
    have hr : List.range SUBSTEPS = [0, 1] := rfl
    simp only [hr, List.foldl_cons, List.foldl_nil, fluidUpdateLogged_eq, List.append_assoc,
      List.cons_append, List.nil_append]
  refine ⟨rfl, ?_, ?_, ?_, ?_⟩
  · rw [hrun]
  · rw [hrun]
  · rw [hrun0]
    exact ⟨by decide, by decide⟩
  · intro time v
    rfl

/-! ### The particle pool -/

theorem PoolFilled_zero (rand : Nat → Nat) (n : Nat) :
    PoolFilled rand n 0 (zeroParticleData n, 0) := by
  refine ⟨rfl, ?_, ?_, ?_, ?_, ?_, ?_⟩
  · simp [zeroParticleData]
  · simp [zeroParticleData]
  · simp [zeroParticleData]
  · simp [zeroParticleData]
  · intro i hi
    omega
  · intro i _ hi
    simp [zeroParticleData, List.getElem?_replicate, hi]

theorem PoolFilled_step (rand : Nat → Nat) (n k : Nat) (s : ParticleData × Nat)
    (h : PoolFilled rand n k s) (hk : k < n) :
    PoolFilled rand n (k + 1) (setupParticleStep rand s k) := by
  obtain ⟨hc, hl1, hl2, hl3, hl4, hdone, hrest⟩ := h
  obtain ⟨hp, hv, hcol⟩ := hrest k (le_refl k) hk
  have hpd : s.1.position.getD k ⟨0, 0, 0, 0⟩ = ⟨0, 0, 0, 0⟩ := by
    rw [List.getD_eq_getElem?_getD, hp]; rfl
  have hvd : s.1.velocity.getD k ⟨0, 0, 0, 0⟩ = ⟨0, 0, 0, 0⟩ := by
    rw [List.getD_eq_getElem?_getD, hv]; rfl
  have hcd : s.1.color.getD k ⟨0, 0, 0, 0⟩ = ⟨0, 0, 0, 0⟩ := by
    rw [List.getD_eq_getElem?_getD, hcol]; rfl
  unfold setupParticleStep
  simp only [hpd, hvd, hcd]
  refine ⟨by rw [hc]; ring, by simp [hl1], by simp [hl2], by simp [hl3], by simp [hl4], ?_, ?_⟩
  · intro i hi
    by_cases hik : i = k
    · subst hik
      simp only [List.getElem?_set_self (hl1 ▸ hk), List.getElem?_set_self (hl2 ▸ hk),
        List.getElem?_set_self (hl3 ▸ hk), List.getElem?_set_self (hl4 ▸ hk), hc]
      refine ⟨trivial, trivial, ?_, ?_⟩
      · norm_num
      · norm_num
    · have hne : k ≠ i := fun h => hik h.symm
      simp only [List.getElem?_set_ne hne]
      exact hdone i (by omega)
  · intro i hki hi
    have hne : k ≠ i := by omega
    simp only [List.getElem?_set_ne hne]
    exact hrest i (by omega) hi

theorem PoolFilled_range (rand : Nat → Nat) (n : Nat) :
    ∀ k, k ≤ n →
      PoolFilled rand n k ((List.range k).foldl (setupParticleStep rand) (zeroParticleData n, 0)) := by
  intro k
  induction k with
  | zero => intro _; exact PoolFilled_zero rand n
  | succ k ih =>
    intro hk
    rw [List.range_succ, List.foldl_append]
    exact PoolFilled_step rand n k _ (ih (by omega)) (by omega)

theorem randomCoordinate_bounds (r : Nat) :
    -5 ≤ randomCoordinate r ∧ randomCoordinate r ≤ 4.99 := by
  unfold randomCoordinate
  have h1 : ((r % 1000 : Nat) : ℚ) ≤ 999 := by
    have : r % 1000 ≤ 999 := by omega
    exact_mod_cast this
  have h0 : (0 : ℚ) ≤ ((r % 1000 : Nat) : ℚ) := Nat.cast_nonneg _
  constructor <;> norm_num <;> linarith

/-- C17: for every sequence of outputs of `rand()`, `setupParticleData` gives particle `i`
the position `((rand() mod 1000)/100 - 5)` in each coordinate, from three successive calls,
so each coordinate lies in [-5, 4.99], inside the 10×10×10 cube; its id is `idx[i] = i`
and its velocity is zero. -/
theorem setupParticleData_in_cube (rand : Nat → Nat) (i : Nat) (hi : i < NUM_PARTICLES) :
    (setupParticlePool rand).position[i]?
      = some ⟨randomCoordinate (rand (3 * i)), randomCoordinate (rand (3 * i + 1)),
          randomCoordinate (rand (3 * i + 2)), 0⟩ ∧
    (∀ r : Nat, randomCoordinate r = ((r % 1000 : Nat) : ℚ) / 100 - 5 ∧
      -5 ≤ randomCoordinate r ∧ randomCoordinate r ≤ 4.99) ∧
    (setupParticlePool rand).idx[i]? = some i ∧
    (setupParticlePool rand).velocity[i]? = some ⟨0, 0, 0, 0⟩ ∧
    (setupParticlePool rand).position.length = NUM_PARTICLES := by
  have h := PoolFilled_range rand NUM_PARTICLES NUM_PARTICLES (le_refl _)
  unfold setupParticlePool setupParticlePoolWith
  obtain ⟨_, _, hl2, _, _, hdone, _⟩ := h
  obtain ⟨h1, h2, h3, _⟩ := hdone i hi
  refine ⟨h2, ?_, h1, h3, hl2⟩
  intro r
  refine ⟨?_, randomCoordinate_bounds r⟩
  unfold randomCoordinate
  norm_num

theorem setupParticleData_in_cube_witness :
    (setupParticlePool sampleRand).position[15359]?
      = some ⟨randomCoordinate (sampleRand (3 * 15359)),
          randomCoordinate (sampleRand (3 * 15359 + 1)),
          randomCoordinate (sampleRand (3 * 15359 + 2)), 0⟩ :=
  (setupParticleData_in_cube sampleRand 15359 (by norm_num [NUM_PARTICLES, WORK_GROUP_SIZE])).1

/-! ### Independent builds -/

theorem headAt_clearBufferData (b : Buffers)
    (hr : b.hashClear = List.replicate HASH_MAP_SIZE ⟨NONE⟩)
    (hw : b.hashMap.length = HASH_MAP_SIZE) (k : Nat) :
    headAt (clearBufferData b) k = NONE := by
  unfold headAt
  rw [clearBufferData_hashMap b (by rw [hr, List.length_replicate]) hw, hr,
    List.getD_eq_getElem?_getD, List.getElem?_replicate]
  split <;> rfl

theorem bucketContents_clearAndHash (hash : ℤ × ℤ × ℤ → Nat) (u : FluidUniforms)
    (position : Nat → Vec3) (order : List Nat) (b : Buffers)
    (hu : u.mapSize = HASH_MAP_SIZE)
    (hr : b.hashClear = List.replicate HASH_MAP_SIZE ⟨NONE⟩)
    (hw : b.hashMap.length = HASH_MAP_SIZE)
    (hn : b.linkedList.length = NUM_PARTICLES)
    (hnd : order.Nodup) (hall : ∀ p, p ∈ order ↔ p < NUM_PARTICLES)
    (k : Nat) (hk : k < HASH_MAP_SIZE) :
    bucketContents (clearAndHash hash u position order b) k
      = bucketMembers (bucketOfParticle hash u position) k order := by
  unfold bucketContents clearAndHash
  have hlen : (clearBufferData b).hashMap.length = HASH_MAP_SIZE := by
    rw [clearBufferData_hashMap b (by rw [hr, List.length_replicate]) hw, hr,
      List.length_replicate]
  have hll : (clearBufferData b).linkedList.length = NUM_PARTICLES := hn
  apply walkChain_hashPass hash u position order (clearBufferData b)
  · rw [hu, hlen]
  · rw [hu]
    exact Nat.lt_of_le_of_lt (Nat.zero_le k) hk
  · intro j _
    exact headAt_clearBufferData b hr hw j
  · rw [hll]
    norm_num [NUM_PARTICLES, WORK_GROUP_SIZE, NONE]
  · exact hnd
  · intro p hp
    rw [hll]
    exact (hall p).mp hp
  · rw [hlen]
    exact hk

theorem bucketMembers_perm (bucket : Nat → Nat) (k : Nat) (o₁ o₂ : List Nat)
    (h : o₁.Perm o₂) : (bucketMembers bucket k o₁).Perm (bucketMembers bucket k o₂) := by
  unfold bucketMembers
  exact ((List.reverse_perm _).trans (h.filter _)).trans (List.reverse_perm _).symm

/-- C19: with the same positions, hash function and uniforms, two independent Clear+Hash
builds, from any two buffer states and with any two insertion orders over all particles,
give every bucket the same particles: the two bucket chains are permutations of each
other, they have the same members, and a particle is a member exactly when its cell
hashes to the bucket. -/
theorem builds_same_membership (hash : ℤ × ℤ × ℤ → Nat) (u : FluidUniforms)
    (position : Nat → Vec3) (order₁ order₂ : List Nat) (b₁ b₂ : Buffers)
    (hu : u.mapSize = HASH_MAP_SIZE)
    (hr₁ : b₁.hashClear = List.replicate HASH_MAP_SIZE ⟨NONE⟩)
    (hw₁ : b₁.hashMap.length = HASH_MAP_SIZE)
    (hn₁ : b₁.linkedList.length = NUM_PARTICLES)
    (hr₂ : b₂.hashClear = List.replicate HASH_MAP_SIZE ⟨NONE⟩)
    (hw₂ : b₂.hashMap.length = HASH_MAP_SIZE)
    (hn₂ : b₂.linkedList.length = NUM_PARTICLES)
    (hnd₁ : order₁.Nodup) (hall₁ : ∀ p, p ∈ order₁ ↔ p < NUM_PARTICLES)
    (hnd₂ : order₂.Nodup) (hall₂ : ∀ p, p ∈ order₂ ↔ p < NUM_PARTICLES)
    (k : Nat) (hk : k < HASH_MAP_SIZE) :
    (bucketContents (clearAndHash hash u position order₁ b₁) k).Perm
      (bucketContents (clearAndHash hash u position order₂ b₂) k) ∧
    (∀ p, p ∈ bucketContents (clearAndHash hash u position order₁ b₁) k
      ↔ p ∈ bucketContents (clearAndHash hash u position order₂ b₂) k) ∧
    (∀ p, p ∈ bucketContents (clearAndHash hash u position order₁ b₁) k
      ↔ p < NUM_PARTICLES ∧ bucketOfParticle hash u position p = k) := by
  rw [bucketContents_clearAndHash hash u position order₁ b₁ hu hr₁ hw₁ hn₁ hnd₁ hall₁ k hk,
    bucketContents_clearAndHash hash u position order₂ b₂ hu hr₂ hw₂ hn₂ hnd₂ hall₂ k hk]
  have hperm : order₁.Perm order₂ :=
    (List.perm_ext_iff_of_nodup hnd₁ hnd₂).mpr (fun p => by rw [hall₁, hall₂])
  have hp := bucketMembers_perm (bucketOfParticle hash u position) k order₁ order₂ hperm
  refine ⟨hp, fun p => hp.mem_iff, ?_⟩
  intro p
  rw [mem_bucketMembers, hall₁]

theorem builds_same_membership_witness :
    (bucketContents (clearAndHash demoHash (setupUBOs bootParams 0) demoPositions
        (List.range NUM_PARTICLES) sampleBootWorld.bufs) 0).Perm
      (bucketContents (clearAndHash demoHash (setupUBOs bootParams 0) demoPositions
        (List.range NUM_PARTICLES).reverse sharedBucketBuffers) 0) :=
  (builds_same_membership demoHash (setupUBOs bootParams 0) demoPositions
    (List.range NUM_PARTICLES) (List.range NUM_PARTICLES).reverse
    sampleBootWorld.bufs sharedBucketBuffers
    rfl
    rfl
    (by
      have h : sampleBootWorld.bufs.hashMap = List.replicate HASH_MAP_SIZE ⟨0⟩ := rfl
      rw [h, List.length_replicate])
    (by
      have h : sampleBootWorld.bufs.linkedList
          = List.replicate NUM_PARTICLES ⟨0xffffffff, 0xffffffff⟩ := rfl
      rw [h, List.length_replicate])
    rfl
    (by
      have h : sharedBucketBuffers.hashMap
          = ⟨1⟩ :: List.replicate (HASH_MAP_SIZE - 1) ⟨NONE⟩ := rfl
      rw [h, List.length_cons, List.length_replicate]
      rfl)
    (by
      have h : sharedBucketBuffers.linkedList
          = ⟨NONE, NONE⟩ :: ⟨0, NONE⟩ :: List.replicate (NUM_PARTICLES - 2) ⟨NONE, NONE⟩ := rfl
      rw [h, List.length_cons, List.length_cons, List.length_replicate]
      rfl)
    (List.nodup_range _)
    (fun _ => List.mem_range)
    (List.nodup_reverse.mpr (List.nodup_range _))
    (fun _ => List.mem_reverse.trans List.mem_range)
    0 (by norm_num [HASH_MAP_SIZE, NUM_PARTICLES, WORK_GROUP_SIZE])).1

/-! ### Racing inserts -/

theorem ChainVia_congr (next next' : Nat → Nat) (l : List Nat) :
    ∀ h, (∀ x ∈ l, next' x = next x) → ChainVia next l h → ChainVia next' l h := by
  induction l with
  | nil => intro h _ hc; exact hc
  | cons x xs ih =>
    intro h hagree hc
    obtain ⟨h1, h2, h3⟩ := hc
    refine ⟨h1, h2, ?_⟩
    rw [hagree x (List.mem_cons_self x xs)]
    exact ih _ (fun y hy => hagree y (List.mem_cons_of_mem x hy)) h3

theorem ChainIs_of_ChainVia (b : Buffers) (l : List Nat) :
    ∀ h, ChainVia (nextAt b) l h → ChainIs b l h := by
  induction l with
  | nil => intro h hc; exact hc
  | cons x xs ih =>
    intro h hc
    exact ⟨hc.1, hc.2.1, ih _ hc.2.2⟩

theorem raceStep_exchange_headAt (bucket : Nat → Nat) (s : RaceState) (i k : Nat) :
    headAt (raceStep bucket s (InsertOp.exchange i)).bufs k
      = if bucket i = k ∧ bucket i < s.bufs.hashMap.length then i else headAt s.bufs k := by
  unfold headAt raceStep
  simp only [getD_set_eq_ite]
  split <;> rfl

theorem raceStep_exchange_nextView (bucket : Nat → Nat) (s : RaceState) (i x : Nat) :
    nextView (raceStep bucket s (InsertOp.exchange i)) x
      = if x = i then headAt s.bufs (bucket i) else nextView s x := by
  unfold nextView raceStep
  by_cases h : x = i
  · subst h
    simp
  · simp [Function.update, h]
    rfl

theorem raceStep_hashMap_length (bucket : Nat → Nat) (s : RaceState) (op : InsertOp) :
    (raceStep bucket s op).bufs.hashMap.length = s.bufs.hashMap.length := by
  cases op with
  | exchange i => simp [raceStep]
  | link i =>
    unfold raceStep
    simp only []
    split <;> rfl

theorem raceStep_linkedList_length (bucket : Nat → Nat) (s : RaceState) (op : InsertOp) :
    (raceStep bucket s op).bufs.linkedList.length = s.bufs.linkedList.length := by
  cases op with
  | exchange i => simp [raceStep]
  | link i =>
    unfold raceStep
    simp only []
    split
    · simp
    · rfl

theorem RaceInv_exchange (bucket : Nat → Nat) (inserted : List Nat) (s : RaceState) (i : Nat)
    (hinv : RaceInv bucket inserted s) (hnew : i ∉ inserted) (hi : i ≠ NONE)
    (hk : bucket i < s.bufs.hashMap.length) :
    RaceInv bucket (inserted ++ [i]) (raceStep bucket s (InsertOp.exchange i)) := by
  obtain ⟨hchain, hheld, hdom⟩ := hinv
  have hview : ∀ x, x ∈ inserted →
      nextView (raceStep bucket s (InsertOp.exchange i)) x = nextView s x := by
    intro x hx
    rw [raceStep_exchange_nextView]
    have hxi : x ≠ i := fun h => hnew (h ▸ hx)
    simp [hxi]
  refine ⟨?_, ?_, ?_⟩
  · intro k hklt
    rw [raceStep_hashMap_length] at hklt
    have hagree : ∀ x ∈ bucketMembers bucket k inserted,
        nextView (raceStep bucket s (InsertOp.exchange i)) x = nextView s x :=
      fun x hx => hview x ((mem_bucketMembers bucket k x inserted).mp hx).1
    rw [bucketMembers_append_singleton, raceStep_exchange_headAt]
    by_cases h : bucket i = k
    · subst h
      simp only [if_true, true_and, hk]
      refine ⟨rfl, hi, ?_⟩
      have hn : nextView (raceStep bucket s (InsertOp.exchange i)) i
          = headAt s.bufs (bucket i) := by
        rw [raceStep_exchange_nextView]; simp
      rw [hn]
      exact ChainVia_congr _ _ _ _ hagree (hchain _ hk)
    · simp only [h, if_false, false_and]
      exact ChainVia_congr _ _ _ _ hagree (hchain _ hklt)
  · intro x hx
    rcases List.mem_append.mp hx with hx | hx
    · rw [hview x hx]
      have hxi : x ≠ i := fun h => hnew (h ▸ hx)
      have : (raceStep bucket s (InsertOp.exchange i)).held x = s.held x := by
        simp [raceStep, Function.update, hxi]
      rw [this]
      exact hheld x hx
    · have hxi : x = i := List.mem_singleton.mp hx
      subst hxi
      rw [raceStep_exchange_nextView]
      simp [raceStep]
  · intro x hx
    by_cases hxi : x = i
    · subst hxi
      simp
    · have : (raceStep bucket s (InsertOp.exchange i)).held x = s.held x := by
        simp [raceStep, Function.update, hxi]
      rw [this] at hx
      exact List.mem_append_left _ (hdom x hx)

theorem raceStep_link_none (bucket : Nat → Nat) (s : RaceState) (i : Nat)
    (h : s.held i = none) : raceStep bucket s (InsertOp.link i) = s := by
  unfold raceStep
  simp only [h]

theorem raceStep_link_some (bucket : Nat → Nat) (s : RaceState) (i p : Nat)
    (h : s.held i = some p) :
    raceStep bucket s (InsertOp.link i)
      = { s with
          bufs := { s.bufs with
            linkedList := s.bufs.linkedList.set i
              { s.bufs.linkedList.getD i ⟨NONE, NONE⟩ with nextNodeIndex := p } }
          linked := Function.update s.linked i true } := by
  unfold raceStep
  simp only [h]

theorem raceStep_link_nextView (bucket : Nat → Nat) (s : RaceState) (i p : Nat)
    (h : s.held i = some p) (hp : nextView s i = p) (hi : i < s.bufs.linkedList.length) :
    nextView (raceStep bucket s (InsertOp.link i)) = nextView s := by
  funext x
  rw [raceStep_link_some bucket s i p h]
  unfold nextView at hp ⊢
  have hnext : ∀ y, nextAt { s.bufs with
      linkedList := s.bufs.linkedList.set i
        { s.bufs.linkedList.getD i ⟨NONE, NONE⟩ with nextNodeIndex := p } } y
      = if i = y ∧ i < s.bufs.linkedList.length then p else nextAt s.bufs y := by
    intro y
    unfold nextAt
    simp only [getD_set_eq_ite]
    split <;> rfl
  simp only [hnext]
  by_cases hx : x = i
  · subst hx
    rw [h] at hp ⊢
    simp only [Function.update_same, if_true, true_and, hi]
    exact hp.symm
  · have hne : ¬ (i = x ∧ i < s.bufs.linkedList.length) := fun hc => hx hc.1.symm
    simp only [hne, if_false, Function.update_noteq hx]

theorem RaceInv_link (bucket : Nat → Nat) (inserted : List Nat) (s : RaceState) (i : Nat)
    (hinv : RaceInv bucket inserted s)
    (hlt : ∀ x, x ∈ inserted → x < s.bufs.linkedList.length) :
    RaceInv bucket inserted (raceStep bucket s (InsertOp.link i)) := by
  cases hh : s.held i with
  | none =>
    rw [raceStep_link_none bucket s i hh]
    exact hinv
  | some p =>
    obtain ⟨hchain, hheld, hdom⟩ := hinv
    have hmem : i ∈ inserted := hdom i (by rw [hh]; simp)
    have hp : nextView s i = p := by
      have := hheld i hmem
      rw [hh] at this
      exact (Option.some.inj this).symm
    have hview := raceStep_link_nextView bucket s i p hh hp (hlt i hmem)
    have hbufs : ∀ k, headAt (raceStep bucket s (InsertOp.link i)).bufs k = headAt s.bufs k := by
      intro k
      rw [raceStep_link_some bucket s i p hh]
      rfl
    have hheld2 : (raceStep bucket s (InsertOp.link i)).held = s.held := by
      rw [raceStep_link_some bucket s i p hh]
    refine ⟨?_, ?_, ?_⟩
    · intro k hk
      rw [raceStep_hashMap_length] at hk
      rw [hview, hbufs]
      exact hchain k hk
    · intro x hx
      rw [hview, hheld2]
      exact hheld x hx
    · intro x hx
      rw [hheld2] at hx
      exact hdom x hx

theorem raceRun_lengths (bucket : Nat → Nat) (schedule : List InsertOp) :
    ∀ s : RaceState,
      (raceRun bucket schedule s).bufs.hashMap.length = s.bufs.hashMap.length ∧
      (raceRun bucket schedule s).bufs.linkedList.length = s.bufs.linkedList.length := by
  unfold raceRun
  induction schedule with
  | nil => intro s; exact ⟨rfl, rfl⟩
  | cons op rest ih =>
    intro s
    simp only [List.foldl_cons]
    obtain ⟨h1, h2⟩ := ih (raceStep bucket s op)
    rw [h1, h2, raceStep_hashMap_length, raceStep_linkedList_length]
    exact ⟨rfl, rfl⟩

theorem RaceInv_run (bucket : Nat → Nat) (schedule : List InsertOp) :
    ∀ (inserted : List Nat) (s : RaceState), RaceInv bucket inserted s →
      (inserted ++ exchangesOf schedule).Nodup →
      (∀ i, i ∈ inserted ++ exchangesOf schedule →
        i ≠ NONE ∧ i < s.bufs.linkedList.length ∧ bucket i < s.bufs.hashMap.length) →
      RaceInv bucket (inserted ++ exchangesOf schedule) (raceRun bucket schedule s) := by
  induction schedule with
  | nil =>
    intro inserted s hinv _ _
    simpa [exchangesOf, raceRun] using hinv
  | cons op rest ih =>
    intro inserted s hinv hnd hok
    cases op with
    | exchange i =>
      have hsplit : inserted ++ exchangesOf (InsertOp.exchange i :: rest)
          = (inserted ++ [i]) ++ exchangesOf rest := by simp [exchangesOf]
      rw [hsplit] at hnd hok ⊢
      obtain ⟨h1, h2, h3⟩ := hok i (by simp)
      have hnew : i ∉ inserted := by
        intro hmem
        have hnd2 : (inserted ++ [i]).Nodup := (List.nodup_append.mp hnd).1
        exact (List.nodup_append.mp hnd2).2.2 hmem (List.mem_singleton_self i)
      have hstep := RaceInv_exchange bucket inserted s i hinv hnew h1 h3
      have := ih (inserted ++ [i]) (raceStep bucket s (InsertOp.exchange i)) hstep hnd (by
        intro x hx
        rw [raceStep_hashMap_length, raceStep_linkedList_length]
        exact hok x hx)
      exact this
    | link i =>
      have hsplit : inserted ++ exchangesOf (InsertOp.link i :: rest)
          = inserted ++ exchangesOf rest := by simp [exchangesOf]
      rw [hsplit] at hnd hok ⊢
      have hstep := RaceInv_link bucket inserted s i hinv
        (fun x hx => (hok x (List.mem_append_left _ hx)).2.1)
      exact ih inserted (raceStep bucket s (InsertOp.link i)) hstep hnd (by
        intro x hx
        rw [raceStep_hashMap_length, raceStep_linkedList_length]
        exact hok x hx)

theorem ChainIs_ne_NONE (b : Buffers) (l : List Nat) :
    ∀ h, ChainIs b l h → ∀ x, x ∈ l → x ≠ NONE := by
  induction l with
  | nil => intro h _ x hx; simp at hx
  | cons y ys ih =>
    intro h hc x hx
    rcases List.mem_cons.mp hx with rfl | hx
    · exact hc.2.1
    · exact ih _ hc.2.2 x hx

theorem ChainIs_next (b : Buffers) (l : List Nat) :
    ∀ h, ChainIs b l h → ∀ m (hm : m < l.length),
      nextAt b (l[m]) = (l[m + 1]?).getD NONE := by
  induction l with
  | nil => intro h _ m hm; simp at hm
  | cons y ys ih =>
    intro h hc m hm
    obtain ⟨_, _, hrest⟩ := hc
    cases m with
    | zero =>
      simp only [List.getElem_cons_zero, List.getElem?_cons_succ]
      cases ys with
      | nil => exact hrest
      | cons z zs =>
        simp only [List.getElem?_cons_zero, Option.getD_some]
        exact hrest.1
    | succ m =>
      simp only [List.getElem_cons_succ, List.getElem?_cons_succ]
      exact ih _ hrest m (by simpa using hm)

theorem ChainIs_next_injective (b : Buffers) (l : List Nat) (h : Nat) (hc : ChainIs b l h)
    (hnd : l.Nodup) (i j : Nat) (hi : i ∈ l) (hj : j ∈ l) (hij : i ≠ j) :
    nextAt b i ≠ nextAt b j := by
  obtain ⟨m, hm, rfl⟩ := List.getElem_of_mem hi
  obtain ⟨n, hn, rfl⟩ := List.getElem_of_mem hj
  have hmn : m ≠ n := fun e => hij (by subst e; rfl)
  rw [ChainIs_next b l h hc m hm, ChainIs_next b l h hc n hn]
  intro heq
  by_cases h1 : m + 1 < l.length
  · by_cases h2 : n + 1 < l.length
    · rw [List.getElem?_eq_getElem h1, List.getElem?_eq_getElem h2] at heq
      simp only [Option.getD_some] at heq
      have := (List.Nodup.getElem_inj_iff hnd).mp heq
      omega
    · rw [List.getElem?_eq_getElem h1, List.getElem?_eq_none (by omega)] at heq
      simp only [Option.getD_some, Option.getD_none] at heq
      exact ChainIs_ne_NONE b l h hc _ (List.getElem_mem h1) heq
  · by_cases h2 : n + 1 < l.length
    · rw [List.getElem?_eq_none (by omega), List.getElem?_eq_getElem h2] at heq
      simp only [Option.getD_some, Option.getD_none] at heq
      exact ChainIs_ne_NONE b l h hc _ (List.getElem_mem h2) heq.symm
    · omega

theorem count_bucketMembers (bucket : Nat → Nat) (k j : Nat) (inserted : List Nat)
    (hnd : inserted.Nodup) (hj : j ∈ inserted) :
    (bucketMembers bucket k inserted).count j = if bucket j = k then 1 else 0 := by
  unfold bucketMembers
  rw [List.count_reverse]
  by_cases h : bucket j = k
  · have hmem : j ∈ inserted.filter (fun i => bucket i = k) := by
      simp [List.mem_filter, hj, h]
    rw [if_pos h]
    exact List.count_eq_one_of_mem (hnd.filter _) hmem
  · rw [if_neg h]
    apply List.count_eq_zero_of_not_mem
    simp [List.mem_filter, h]

theorem bucketMembers_length_le (bucket : Nat → Nat) (k n : Nat) (inserted : List Nat)
    (hnd : inserted.Nodup) (hall : ∀ p, p ∈ inserted → p < n) :
    (bucketMembers bucket k inserted).length ≤ n := by
  have hsub : bucketMembers bucket k inserted ⊆ List.range n := by
    intro x hx
    rw [List.mem_range]
    exact hall x ((mem_bucketMembers _ k x inserted).mp hx).1
  have hnd2 : (bucketMembers bucket k inserted).Nodup := by
    unfold bucketMembers
    exact List.nodup_reverse.mpr (hnd.filter _)
  have := (List.subperm_of_subset hnd2 hsub).length_le
  simpa using this

/-- C20: in any interleaving of the exchange and link operations of the insert workers
(each particle exchanges once; all workers retired at the end; bucket heads cleared at the
start): an exchange makes the particle the bucket head and hands the worker the previous
head in one step, and the link stores that value as the particle's node-next; no two
particles of one bucket read the same previous head; and afterwards every particle is on
the chain of its own bucket exactly once and on no other chain, the chains being those of
the sequential Hash stage in exchange order. -/
theorem racing_inserts (hash : ℤ × ℤ × ℤ → Nat) (u : FluidUniforms) (position : Nat → Vec3)
    (schedule : List InsertOp) (b : Buffers)
    (hH : u.mapSize = b.hashMap.length) (hH0 : 0 < u.mapSize)
    (hclear : ∀ k, k < b.hashMap.length → headAt b k = NONE)
    (hN : b.linkedList.length ≤ NONE)
    (hnd : (exchangesOf schedule).Nodup)
    (hall : ∀ p, p ∈ exchangesOf schedule → p < b.linkedList.length)
    (hret : AllRetired b.linkedList.length
      (raceRun (bucketOfParticle hash u position) schedule (raceStart b))) :
    (∀ (s : RaceState) (i : Nat),
      bucketOfParticle hash u position i < s.bufs.hashMap.length →
      headAt (raceStep (bucketOfParticle hash u position) s (InsertOp.exchange i)).bufs
          (bucketOfParticle hash u position i) = i ∧
      (raceStep (bucketOfParticle hash u position) s (InsertOp.exchange i)).held i
        = some (headAt s.bufs (bucketOfParticle hash u position i))) ∧
    (∀ i, i < b.linkedList.length →
      (raceRun (bucketOfParticle hash u position) schedule (raceStart b)).held i
        = some (nextAt (raceRun (bucketOfParticle hash u position) schedule (raceStart b)).bufs i)) ∧
    (∀ i j, i < b.linkedList.length → j < b.linkedList.length → i ≠ j →
      bucketOfParticle hash u position i = bucketOfParticle hash u position j →
      (raceRun (bucketOfParticle hash u position) schedule (raceStart b)).held i
        ≠ (raceRun (bucketOfParticle hash u position) schedule (raceStart b)).held j) ∧
    (∀ j k, j < b.linkedList.length → k < b.hashMap.length →
      (bucketContents (raceRun (bucketOfParticle hash u position) schedule (raceStart b)).bufs
          k).count j
        = if bucketOfParticle hash u position j = k then 1 else 0) ∧
    (∀ k, k < b.hashMap.length →
      bucketContents (raceRun (bucketOfParticle hash u position) schedule (raceStart b)).bufs k
        = bucketContents (hashPass hash u position (exchangesOf schedule) b) k) := by
  have hbk : ∀ i, bucketOfParticle hash u position i < b.hashMap.length := by
    intro i
    unfold bucketOfParticle bucketOf
    rw [← hH]
    exact Nat.mod_lt _ hH0
  generalize hbkdef : bucketOfParticle hash u position = bk at hbk hret ⊢
  generalize hfin : raceRun bk schedule (raceStart b) = fin at hret ⊢
  have hinv0 : RaceInv bk [] (raceStart b) := by
    refine ⟨?_, ?_, ?_⟩
    · intro k hk
      exact hclear k hk
    · intro i hi
      simp at hi
    · intro i hi
      exact absurd rfl hi
  have hinv := RaceInv_run bk schedule [] (raceStart b) hinv0 (by simpa using hnd)
    (fun i hi => by
      have hi2 : i ∈ exchangesOf schedule := by simpa using hi
      have := hall i hi2
      exact ⟨by omega, this, hbk i⟩)
  simp only [List.nil_append] at hinv
  rw [hfin] at hinv
  obtain ⟨hl1, hl2⟩ := raceRun_lengths bk schedule (raceStart b)
  rw [hfin] at hl1 hl2
  have hl1' : fin.bufs.hashMap.length = b.hashMap.length := hl1
  have hl2' : fin.bufs.linkedList.length = b.linkedList.length := hl2
  obtain ⟨hchain, hheld, hdom⟩ := hinv
  have hview : ∀ i, i < b.linkedList.length → nextView fin i = nextAt fin.bufs i := by
    intro i hi
    obtain ⟨_, hlinked⟩ := hret i hi
    unfold nextView
    cases fin.held i with
    | none => rfl
    | some p => simp [hlinked]
  have hdone : ∀ i, i < b.linkedList.length → i ∈ exchangesOf schedule :=
    fun i hi => hdom i (hret i hi).1
  have hchainIs : ∀ k, k < b.hashMap.length →
      ChainIs fin.bufs (bucketMembers bk k (exchangesOf schedule)) (headAt fin.bufs k) := by
    intro k hk
    apply ChainIs_of_ChainVia
    apply ChainVia_congr (nextView fin) _ _ _ _ (hchain k (by rw [hl1']; exact hk))
    intro x hx
    exact (hview x (hall x ((mem_bucketMembers bk k x _).mp hx).1)).symm
  have hcontents : ∀ k, k < b.hashMap.length →
      bucketContents fin.bufs k = bucketMembers bk k (exchangesOf schedule) := by
    intro k hk
    unfold bucketContents
    apply walkChain_of_ChainIs _ _ _ _ (hchainIs k hk)
    rw [hl2']
    exact bucketMembers_length_le bk k _ _ hnd hall
  have hB : ∀ i, i < b.linkedList.length → fin.held i = some (nextAt fin.bufs i) := by
    intro i hi
    rw [← hview i hi]
    exact hheld i (hdone i hi)
  refine ⟨?_, hB, ?_, ?_, ?_⟩
  · intro s i hi
    refine ⟨?_, ?_⟩
    · rw [raceStep_exchange_headAt]
      simp [hi]
    · simp [raceStep]
  · intro i j hi hj hij hsame
    rw [hB i hi, hB j hj]
    intro heq
    have hnd2 : (bucketMembers bk (bk i) (exchangesOf schedule)).Nodup := by
      unfold bucketMembers
      exact List.nodup_reverse.mpr (hnd.filter _)
    exact ChainIs_next_injective fin.bufs _ _ (hchainIs (bk i) (hbk i)) hnd2 i j
      ((mem_bucketMembers bk _ i _).mpr ⟨hdone i hi, rfl⟩)
      ((mem_bucketMembers bk _ j _).mpr ⟨hdone j hj, hsame.symm⟩) hij (Option.some.inj heq)
  · intro j k hj hk
    rw [hcontents k hk]
    exact count_bucketMembers bk k j _ hnd (hdone j hj)
  · intro k hk
    rw [hcontents k hk]
    unfold bucketContents
    rw [← hbkdef]
    exact (walkChain_hashPass hash u position (exchangesOf schedule) b hH hH0 hclear hN hnd
      hall k hk).symm

theorem racing_inserts_witness :
    (raceRun (bucketOfParticle demoHash demoUniforms crowdedPositions) demoSchedule
        (raceStart (setupParticleDataWith 3 4))).held 0
      ≠ (raceRun (bucketOfParticle demoHash demoUniforms crowdedPositions) demoSchedule
        (raceStart (setupParticleDataWith 3 4))).held 1 :=
  (racing_inserts demoHash demoUniforms crowdedPositions demoSchedule (setupParticleDataWith 3 4)
    rfl (by decide) (by decide) (by decide) (by decide) (by decide) (by decide)).2.2.1 0 1
    (by decide) (by decide) (by decide) (by
      simp only [bucketOfParticle, bucketOf, cellOf, crowdedPositions, demoUniforms, setupUBOs,
        bootParams, SUPPORT_RADIUS]
      norm_num)

/-! ### The frame of updateParams -/

/-- C27: `updateParams` changes only what its pressed keys name: with no key down every
tunable parameter is unchanged, and with any combination of the keys other than Y and T
down, `supportRad`, `kPoly`, `kSpiky`, `pressureRad` and `dCorr` are unchanged. -/
theorem updateParams_frame (keys : Keys) (dt simTime : ℚ) (s : ParamState) :
    (updateParams noKeys dt simTime s).params = s.params ∧
    (keys.keyY = false → keys.keyT = false →
      radiusGroup (updateParams keys dt simTime s).params = radiusGroup s.params ∧
      (updateParams keys dt simTime s).params.supportRad = s.params.supportRad ∧
      (updateParams keys dt simTime s).params.kPoly = s.params.kPoly ∧
      (updateParams keys dt simTime s).params.kSpiky = s.params.kSpiky ∧
      (updateParams keys dt simTime s).params.pressureRad = s.params.pressureRad ∧
      (updateParams keys dt simTime s).params.dCorr = s.params.dCorr) := by
  refine ⟨?_, ?_⟩
  · simp only [updateParams, whenKey, noKeys, Bool.false_eq_true, if_false]
  · intro hY hT
    have h : radiusGroup (updateParams keys dt simTime s).params = radiusGroup s.params := by
      simp only [radiusGroup, updateParams, whenKey, onKeyR, onKeyE, onKeyF, onKeyD, onKeyV,
        onKeyC, onKey8, onKey7, onKey5, onKey4, hY, hT,
        apply_ite ParamState.params, apply_ite Params.supportRad, apply_ite Params.kPoly,
        apply_ite Params.kSpiky, apply_ite Params.pressureRad, apply_ite Params.dCorr, ite_self,
        Bool.false_eq_true, if_false]
    refine ⟨h, ?_⟩
    simp only [radiusGroup, Prod.mk.injEq] at h
    exact h

theorem updateParams_frame_witness :
    radiusGroup (updateParams nonRadiusKeys 1000 0 bootParamState).params
      = radiusGroup bootParamState.params :=
  ((updateParams_frame nonRadiusKeys 1000 0 bootParamState).2 rfl rfl).1

/-! ### The signed distance field -/

/-- C21: `calculateSignedDistanceFieldCPU` returns false and runs no stage when the SDF
buffer location is -1, when `resolution ≤ 0` or when `offset < 0`;
`calculateSignedDistanceField` does the same and also when the compute shader is null or
the triangle buffer location is -1; when every check passes both return true. -/
theorem sdf_checks (computeShaderIsNull : Bool) (sdfLoc triangleLoc : ℤ)
    (resolution offset : ℚ) :
    ((sdfLoc = -1 ∨ resolution ≤ 0 ∨ offset < 0) →
      calculateSignedDistanceFieldCPU sdfLoc resolution offset = (false, [])) ∧
    ((computeShaderIsNull = true ∨ sdfLoc = -1 ∨ triangleLoc = -1 ∨ resolution ≤ 0 ∨
        offset < 0) →
      calculateSignedDistanceField computeShaderIsNull sdfLoc triangleLoc resolution offset
        = (false, [])) ∧
    ((sdfLoc ≠ -1 ∧ 0 < resolution ∧ 0 ≤ offset) →
      (calculateSignedDistanceFieldCPU sdfLoc resolution offset).1 = true ∧
      (calculateSignedDistanceFieldCPU sdfLoc resolution offset).2 ≠ []) ∧
    ((computeShaderIsNull = false ∧ sdfLoc ≠ -1 ∧ triangleLoc ≠ -1 ∧ 0 < resolution ∧
        0 ≤ offset) →
      (calculateSignedDistanceField computeShaderIsNull sdfLoc triangleLoc resolution
        offset).1 = true ∧
      (calculateSignedDistanceField computeShaderIsNull sdfLoc triangleLoc resolution
        offset).2 ≠ []) := by
  have h0 : (0.0 : ℚ) = 0 := by norm_num
  refine ⟨?_, ?_, ?_, ?_⟩
  · intro h
    unfold calculateSignedDistanceFieldCPU
    rw [h0]
    rcases h with h | h | h
    · simp [h]
    · by_cases h1 : sdfLoc = -1
      · simp [h1]
      · simp [h1, h]
    · by_cases h1 : sdfLoc = -1
      · simp [h1]
      · by_cases h2 : resolution ≤ 0
        · simp [h1, h2]
        · simp [h1, h2, h]
  · intro h
    unfold calculateSignedDistanceField
    rw [h0]
    by_cases c1 : computeShaderIsNull = true
    · simp [c1]
    · by_cases c2 : sdfLoc = -1
      · simp [c1, c2]
      · by_cases c3 : triangleLoc = -1
        · simp [c1, c2, c3]
        · by_cases c4 : resolution ≤ 0
          · simp [c1, c2, c3, c4]
          · have c5 : offset < 0 := by
              rcases h with h | h | h | h | h
              · exact absurd h c1
              · exact absurd h c2
              · exact absurd h c3
              · exact absurd h c4
              · exact h
            simp [c1, c2, c3, c4, c5]
  · rintro ⟨h1, h2, h3⟩
    unfold calculateSignedDistanceFieldCPU
    rw [h0]
    simp [h1, not_le.mpr h2, not_lt.mpr h3]
  · rintro ⟨h0', h1, h1', h2, h3⟩
    unfold calculateSignedDistanceField
    rw [h0]
    simp [h0', h1, h1', not_le.mpr h2, not_lt.mpr h3]

theorem sdf_checks_witness :
    calculateSignedDistanceFieldCPU 3 (-1) 0 = (false, []) :=
  (sdf_checks false 3 4 (-1) 0).1 (Or.inr (Or.inl (by norm_num)))

/-- C25 (the code on a 1×2×2 grid and on a 3×2×1 grid): the slot
`x + dimY·(y + dimZ·z)` of cell (0, 1, 1) of a 1×2×2 grid is 6, outside the 4 cells of
`grid`, and the loops write the slots 0, 2, 4, 6; on a 3×2×1 grid the cells (2, 0, 0) and
(0, 1, 0) share slot 2. -/
theorem sdfSlot_out_of_range :
    sdfSlot 2 2 0 1 1 = 6 ∧ sdfGridSize 1 2 2 = 4 ∧ ¬ (sdfSlot 2 2 0 1 1 < sdfGridSize 1 2 2) ∧
    sdfSlotsWritten 1 2 2 = [0, 2, 4, 6] ∧
    sdfSlot 2 1 2 0 0 = sdfSlot 2 1 0 1 0 ∧ sdfSlotsWritten 3 2 1 = [0, 1, 2, 2, 3, 4] := by
  decide

/-! ### The distance to a triangle -/

theorem closestParams_denom_pos {K : Type} [LinearOrderedField K] (a b c : K) (ha : 0 < a)
    (hdet : 0 < a * c - b * b) : 0 < a - 2 * b + c := by
  have h : 0 < a * (a - 2 * b + c) := by nlinarith [sq_nonneg (a - b)]
  by_contra hneg
  push_neg at hneg
  have : a * (a - 2 * b + c) ≤ 0 := mul_nonpos_of_nonneg_of_nonpos ha.le hneg
  linarith

theorem unit_of_neg_div {K : Type} [LinearOrderedField K] (x y : K) (hy : 0 < y) (hx : x < 0)
    (hlt : ¬ -x ≥ y) : 0 ≤ -x / y ∧ -x / y ≤ 1 := by
  constructor
  · apply div_nonneg _ hy.le
    linarith
  · rw [div_le_one hy]
    push_neg at hlt
    exact hlt.le

theorem unit_of_div {K : Type} [LinearOrderedField K] (x y : K) (hy : 0 < y) (hx : 0 ≤ x)
    (hlt : ¬ x ≥ y) : 0 ≤ x / y ∧ x / y ≤ 1 := by
  constructor
  · exact div_nonneg hx hy.le
  · rw [div_le_one hy]
    push_neg at hlt
    exact hlt.le

/-- C26: for every non-degenerate triangle (`a > 0`, `c > 0`, `a·c - b·b > 0`) and every
`d`, `e`, in any ordered field (the reals among them), the parameters `_distTriangle` ends
with satisfy `s ≥ 0`, `t ≥ 0` and `s + t ≤ 1` in each of its seven regions. -/
theorem closestParams_in_triangle {K : Type} [LinearOrderedField K] (a b c d e : K)
    (ha : 0 < a) (hc : 0 < c) (hdet : 0 < a * c - b * b) :
    0 ≤ (closestParams a b c d e).1 ∧ 0 ≤ (closestParams a b c d e).2 ∧
    (closestParams a b c d e).1 + (closestParams a b c d e).2 ≤ 1 := by
  have hden := closestParams_denom_pos a b c ha hdet
  unfold closestParams
  simp only []
  split_ifs
  all_goals
    refine ⟨?_, ?_, ?_⟩ <;>
    first
    | (norm_num; done)
    | linarith
    | (apply div_nonneg <;> linarith)
    | (simp only [add_zero, zero_add]; rw [div_le_one (by assumption)]; linarith)
    | (rw [sub_nonneg, div_le_one (by assumption)]; linarith)
    | (rw [← add_div, div_le_one (by assumption)]; linarith)
    | skip
  -- region 6, closest point on the edge t = 0
  rename_i hs _ hle _ he
  push_neg at hs hle he
  have hd : d ≤ 0 := by
    by_contra hpos
    push_neg at hpos
    have hb : 0 < b := by linarith
    have h1 : b * e < 0 := mul_neg_of_pos_of_neg hb he
    have h2 : 0 < c * d := mul_pos hc hpos
    linarith
  show 0 ≤ -d / a
  apply div_nonneg _ ha.le
  linarith

theorem closestParams_in_triangle_witness :
    0 ≤ (closestParams (1 : ℚ) 2 5 (-1 / 2) 0).1 ∧ 0 ≤ (closestParams (1 : ℚ) 2 5 (-1 / 2) 0).2 ∧
    (closestParams (1 : ℚ) 2 5 (-1 / 2) 0).1 + (closestParams (1 : ℚ) 2 5 (-1 / 2) 0).2 ≤ 1 :=
  closestParams_in_triangle 1 2 5 (-1 / 2) 0 (by norm_num) (by norm_num) (by norm_num)

/-- C24 (the code at a point of region 6): for the triangle (0,0,0), (1,0,0), (2,1,0) and
the point (0.5, -1, 0), `_distTriangle` measures to the vertex (0,0,0), `s = t = 0`, and
returns 5/4, while the point (0.5, 0, 0) of the triangle is at squared distance 1. -/
theorem distTriangle_not_closest :
    triangleParams obtuseTriangle belowEdge = (0, 0) ∧
    distTriangle obtuseTriangle belowEdge = 5 / 4 ∧
    distSq belowEdge (trianglePoint obtuseTriangle (1 / 2) 0) = 1 ∧
    distSq belowEdge (trianglePoint obtuseTriangle (1 / 2) 0)
      < |distTriangle obtuseTriangle belowEdge| := by
  have hp : triangleParams obtuseTriangle belowEdge = (0, 0) := by
    unfold triangleParams closestParams
    norm_num [obtuseTriangle, belowEdge, Vec4.xyz, Vec3.sub, dot3]
  have hd : distTriangle obtuseTriangle belowEdge = 5 / 4 := by
    unfold distTriangle
    rw [hp]
    norm_num [trianglePoint, obtuseTriangle, belowEdge, Vec4.xyz, Vec3.sub, Vec3.add, Vec3.scale,
      dot3, signum]
  have hq : distSq belowEdge (trianglePoint obtuseTriangle (1 / 2) 0) = 1 := by
    norm_num [distSq, trianglePoint, obtuseTriangle, belowEdge, Vec4.xyz, Vec3.sub, Vec3.add,
      Vec3.scale]
  refine ⟨hp, hd, hq, ?_⟩
  rw [hq, hd]
  norm_num [abs_of_pos]

/-! ### The sphere mesh -/

theorem foldl_length_add {α β : Type} (f : List β → α → List β) (c : Nat)
    (h : ∀ l a, (f l a).length = l.length + c) :
    ∀ (xs : List α) (l : List β), (xs.foldl f l).length = l.length + c * xs.length := by
  intro xs
  induction xs with
  | nil => intro l; simp
  | cons x xs ih =>
    intro l
    rw [List.foldl_cons, ih, h, List.length_cons]
    ring

theorem sphereVertices_length (cosf sinf : ℚ → ℚ) :
    (sphereVertices cosf sinf).length = 3 * ((SPHERE_STACKS + 1) * (SPHERE_SECTORS + 1)) := by
  unfold sphereVertices
  rw [foldl_length_add _ (3 * (SPHERE_SECTORS + 1))]
  · simp only [List.length_range, List.length_nil]
    ring
  · intro l i
    simp only []
    rw [foldl_length_add _ 3]
    · simp only [List.length_range]
    · intro l' j
      simp [sphereVertexInner]

theorem sphereIndexInner_fold (i : Nat) :
    ∀ (n : Nat) (indices : List Nat) (k1 k2 : Nat), k1 ≤ k2 →
      ((List.range n).foldl (sphereIndexInner i) (indices, k1, k2)).1.length
          = indices.length + n * sphereIndexCount i ∧
      ((List.range n).foldl (sphereIndexInner i) (indices, k1, k2)).2.1 = k1 + n ∧
      ((List.range n).foldl (sphereIndexInner i) (indices, k1, k2)).2.2 = k2 + n ∧
      ∀ k ∈ ((List.range n).foldl (sphereIndexInner i) (indices, k1, k2)).1,
        k ∈ indices ∨ k ≤ k2 + n := by
  intro n
  induction n with
  | zero =>
    intro indices k1 k2 _
    refine ⟨by simp, by simp, by simp, ?_⟩
    intro k hk
    exact Or.inl hk
  | succ n ih =>
    intro indices k1 k2 hk
    rw [List.range_succ, List.foldl_append, List.foldl_cons, List.foldl_nil]
    obtain ⟨h1, h2, h3, h4⟩ := ih indices k1 k2 hk
    generalize (List.range n).foldl (sphereIndexInner i) (indices, k1, k2) = st at h1 h2 h3 h4
    obtain ⟨ind, a, b⟩ := st
    simp only at h1 h2 h3 h4
    subst h2 h3
    unfold sphereIndexCount at h1
    unfold sphereIndexInner sphereIndexCount
    simp only []
    refine ⟨?_, by ring, by ring, ?_⟩
    · split_ifs at h1 ⊢ <;> simp at h1 ⊢ <;> omega
    · intro k hk'
      have hmem : k ∈ ind ∨ k = k1 + n ∨ k = k2 + n ∨ k = k1 + n + 1 ∨ k = k2 + n + 1 := by
        split_ifs at hk' <;> (try simp only [List.mem_append, List.mem_singleton] at hk') <;> tauto
      rcases hmem with h | h | h | h | h
      · rcases h4 k h with h' | h'
        · exact Or.inl h'
        · exact Or.inr (by omega)
      all_goals exact Or.inr (by omega)

theorem sphereIndices_fold (rows : List Nat) :
    ∀ indices : List Nat, (∀ i ∈ rows, i < SPHERE_STACKS) →
      (rows.foldl
        (fun indices i =>
          let k1 := i * (SPHERE_SECTORS + 1)
          let k2 := k1 + SPHERE_SECTORS + 1
          ((List.range SPHERE_SECTORS).foldl (sphereIndexInner i) (indices, k1, k2)).1)
        indices).length
        = indices.length + SPHERE_SECTORS * (rows.map sphereIndexCount).sum ∧
      ∀ k ∈ rows.foldl
        (fun indices i =>
          let k1 := i * (SPHERE_SECTORS + 1)
          let k2 := k1 + SPHERE_SECTORS + 1
          ((List.range SPHERE_SECTORS).foldl (sphereIndexInner i) (indices, k1, k2)).1)
        indices,
        k ∈ indices ∨ k < (SPHERE_STACKS + 1) * (SPHERE_SECTORS + 1) := by
  induction rows with
  | nil =>
    intro indices _
    exact ⟨by simp, fun k hk => Or.inl hk⟩
  | cons i rest ih =>
    intro indices hlt
    rw [List.foldl_cons]
    have hi : i < SPHERE_STACKS := hlt i (List.mem_cons_self i rest)
    obtain ⟨h1, _, _, h4⟩ := sphereIndexInner_fold i SPHERE_SECTORS indices
      (i * (SPHERE_SECTORS + 1)) (i * (SPHERE_SECTORS + 1) + SPHERE_SECTORS + 1) (by omega)
    obtain ⟨g1, g2⟩ := ih
      ((List.range SPHERE_SECTORS).foldl (sphereIndexInner i)
        (indices, i * (SPHERE_SECTORS + 1), i * (SPHERE_SECTORS + 1) + SPHERE_SECTORS + 1)).1
      (fun j hj => hlt j (List.mem_cons_of_mem i hj))
    simp only [] at g1 g2 ⊢
    refine ⟨?_, ?_⟩
    · rw [g1, h1, List.map_cons, List.sum_cons]
      ring
    · intro k hk
      rcases g2 k hk with h | h
      · rcases h4 k h with h' | h'
        · exact Or.inl h'
        · right
          unfold SPHERE_STACKS at hi
          unfold SPHERE_STACKS SPHERE_SECTORS
          unfold SPHERE_SECTORS at h'
          omega
      · exact Or.inr h

/-- C28: the sphere mesh of `setupVAOs` for `SPHERE_STACKS = 10` and `SPHERE_SECTORS = 24`
has (10+1)·(24+1) = 275 vertices (825 floats in `vertices`, whatever `cosf` and `sinf`
return) and exactly 1296 indices, each of them less than 275. -/
theorem sphere_mesh (cosf sinf : ℚ → ℚ) :
    SPHERE_STACKS = 10 ∧ SPHERE_SECTORS = 24 ∧
    (sphereVertices cosf sinf).length = 3 * 275 ∧
    sphereIndices.length = 1296 ∧
    ∀ k ∈ sphereIndices, k < 275 := by
  obtain ⟨h1, h2⟩ := sphereIndices_fold (List.range SPHERE_STACKS) []
    (fun i hi => List.mem_range.mp hi)
  refine ⟨rfl, rfl, ?_, ?_, ?_⟩
  · rw [sphereVertices_length]
    rfl
  · unfold sphereIndices
    rw [h1]
    decide
  · intro k hk
    rcases h2 k hk with h | h
    · simp at h
    · exact h

/-! ### Loading materials -/

theorem loadMaterialsLoop_appends {σ : Type} (sc : Scanner σ) (stale : Nat → String) :
    ∀ (remaining i : Nat) (s : σ) (ms : MaterialSettings),
      ∃ new : List Material,
        (loadMaterialsLoop sc stale remaining i s ms).2.allMats = ms.allMats ++ new ∧
        ((loadMaterialsLoop sc stale remaining i s ms).1 = true → new.length = remaining) ∧
        ((loadMaterialsLoop sc stale remaining i s ms).1 = false → new.length < remaining) ∧
        ((∀ t, (sc.scanWord t).1 ≠ some "") → (∀ k, stale k ≠ "") →
          (loadMaterialsLoop sc stale remaining i s ms).1 = true) := by
  intro remaining
  induction remaining with
  | zero =>
    intro i s ms
    exact ⟨[], by simp [loadMaterialsLoop], fun _ => rfl, fun h => by simp [loadMaterialsLoop] at h,
      fun _ _ => rfl⟩
  | succ n ih =>
    intro i s ms
    unfold loadMaterialsLoop
    simp only []
    split_ifs with hname
    · refine ⟨[], by simp, fun h => by simp at h, fun _ => by simp, ?_⟩
      intro hw hs
      exfalso
      cases hr : (sc.scanWord s).1 with
      | none =>
        rw [hr] at hname
        exact hs i hname
      | some w =>
        rw [hr] at hname
        exact hw s (by rw [hr]; exact congrArg some hname)
    · obtain ⟨new, h1, h2, h3, h4⟩ := ih (i + 1) (readMaterial sc (sc.scanWord s).2).2
        { allMats := ms.allMats ++ [(readMaterial sc (sc.scanWord s).2).1]
          materials := bindMaterial (bufferAfterScan (sc.scanWord s).1 (stale i))
            (readMaterial sc (sc.scanWord s).2).1 ms.materials }
      refine ⟨(readMaterial sc (sc.scanWord s).2).1 :: new, ?_, ?_, ?_, h4⟩
      · rw [h1]
        simp
      · intro h
        rw [List.length_cons, h2 h]
      · intro h
        rw [List.length_cons]
        exact Nat.succ_lt_succ (h3 h)

/-- The result of `loadMaterials` by cases on the file: -1 with nothing appended when the
file cannot be opened or when no leading count is read (or the count read is -1); for a
leading count `n ≥ 0` either `n`, with exactly `n` entries appended to the list
`getMaterials` returns, or -1 with fewer than `n` appended, the latter only when a name
reads as empty. -/
theorem loadMaterials_result {σ : Type} (sc : Scanner σ) (stale : Nat → String)
    (fp : Option σ) (ms : MaterialSettings) :
    (fp = none → loadMaterials sc stale fp ms = (-1, ms)) ∧
    (∀ s, fp = some s → ((sc.scanInt s).1 = none ∨ (sc.scanInt s).1 = some (-1)) →
      loadMaterials sc stale fp ms = (-1, ms)) ∧
    (∀ s n, fp = some s → (sc.scanInt s).1 = some n → 0 ≤ n →
      ∃ new : List Material,
        getMaterials (loadMaterials sc stale fp ms).2 = getMaterials ms ++ new ∧
        (((loadMaterials sc stale fp ms).1 = n ∧ (new.length : ℤ) = n) ∨
          ((loadMaterials sc stale fp ms).1 = -1 ∧ (new.length : ℤ) < n)) ∧
        ((∀ t, (sc.scanWord t).1 ≠ some "") → (∀ k, stale k ≠ "") →
          (loadMaterials sc stale fp ms).1 = n ∧ (new.length : ℤ) = n)) := by
  refine ⟨?_, ?_, ?_⟩
  · intro h
    rw [h]
    rfl
  · intro s h hcount
    rw [h]
    unfold loadMaterials
    rcases hcount with hc | hc <;> simp [hc]
  · intro s n h hn hpos
    rw [h]
    unfold loadMaterials getMaterials
    simp only [hn]
    have hne : n ≠ -1 := by omega
    simp only [hne, if_false]
    obtain ⟨new, h1, h2, h3, h4⟩ := loadMaterialsLoop_appends sc stale n.toNat 0 (sc.scanInt s).2 ms
    have hcast : ((n.toNat : ℕ) : ℤ) = n := Int.toNat_of_nonneg hpos
    refine ⟨new, ?_, ?_, ?_⟩
    · split_ifs <;> exact h1
    · cases hok : (loadMaterialsLoop sc stale n.toNat 0 (sc.scanInt s).2 ms).1 with
      | true =>
        left
        simp only [if_true]
        refine ⟨trivial, ?_⟩
        rw [h2 hok, hcast]
      | false =>
        right
        simp only [Bool.false_eq_true, if_false]
        refine ⟨trivial, ?_⟩
        have := h3 hok
        omega
    · intro hw hs
      have hok := h4 hw hs
      simp only [hok, if_true]
      refine ⟨trivial, ?_⟩
      rw [h2 hok, hcast]

/-- C22 (the code at a negative leading count): on a file that opens and whose leading count
reads as `n < -1`, `loadMaterials` returns `n` itself and appends nothing, whatever follows
the count and whatever the name buffer holds: the value returned is neither -1 nor the number
of materials read in, which is zero. -/
theorem loadMaterials_negative_count {σ : Type} (sc : Scanner σ) (stale : Nat → String)
    (s : σ) (ms : MaterialSettings) (n : ℤ) (hn : (sc.scanInt s).1 = some n) (hneg : n < -1) :
    loadMaterials sc stale (some s) ms = (n, ms) ∧
    (loadMaterials sc stale (some s) ms).1 ≠ -1 ∧
    getMaterials (loadMaterials sc stale (some s) ms).2 = getMaterials ms ∧
    (loadMaterials sc stale (some s) ms).1
      ≠ ((getMaterials (loadMaterials sc stale (some s) ms).2).length : ℤ)
        - ((getMaterials ms).length : ℤ) := by
  have hne : n ≠ -1 := by omega
  have hnat : n.toNat = 0 := Int.toNat_of_nonpos (by omega)
  have h : loadMaterials sc stale (some s) ms = (n, ms) := by
    unfold loadMaterials
    simp only [hn, hne, if_false, hnat, loadMaterialsLoop, if_true]
  rw [h]
  refine ⟨rfl, hne, rfl, ?_⟩
  show n ≠ ((getMaterials ms).length : ℤ) - ((getMaterials ms).length : ℤ)
  rw [sub_self]
  omega

theorem loadMaterials_negative_count_witness :
    loadMaterials tokenScanner (fun _ => "") (some [intToken "-2" (-2)]) noMaterials
      = (-2, noMaterials) :=
  (loadMaterials_negative_count tokenScanner (fun _ => "") [intToken "-2" (-2)] noMaterials
    (-2) rfl (by decide)).1

/-! ### Flipping an image about its horizontal axis -/


theorem flipSwap_apply {α : Type} (d : Nat → α) (top bot p : Nat) :
    flipSwap d top bot p = if p = bot then d top else if p = top then d bot else d p := by
  unfold flipSwap
  by_cases h1 : p = bot
  · subst h1
    simp
  · by_cases h2 : p = top
    · subst h2
      simp [Function.update_noteq h1, h1]
    · simp [Function.update_noteq h1, Function.update_noteq h2, h1, h2]

theorem rowSwap_succ {α : Type} (d : Nat → α) (a b n : Nat) :
    rowSwap d a b (n + 1) = flipSwap (rowSwap d a b n) (a + n) (b + n) := by
  unfold rowSwap
  rw [List.range_succ, List.foldl_append]
  rfl

theorem rowSwap_apply {α : Type} (d : Nat → α) (a b : Nat) :
    ∀ n, a + n ≤ b → ∀ p,
      rowSwap d a b n p
        = if a ≤ p ∧ p < a + n then d (b + (p - a))
          else if b ≤ p ∧ p < b + n then d (a + (p - b)) else d p := by
  intro n
  induction n with
  | zero =>
    intro _ p
    have h1 : ¬ (a ≤ p ∧ p < a + 0) := by omega
    have h2 : ¬ (b ≤ p ∧ p < b + 0) := by omega
    simp only [h1, h2, if_false]
    rfl
  | succ n ih =>
    intro hle p
    have ih' := ih (by omega)
    rw [rowSwap_succ, flipSwap_apply, ih' (a + n), ih' (b + n), ih' p]
    by_cases hb : p = b + n
    · subst hb
      have h1 : ¬ (a ≤ b + n ∧ b + n < a + (n + 1)) := by omega
      have h2 : b ≤ b + n ∧ b + n < b + (n + 1) := by omega
      have h3 : ¬ (a ≤ a + n ∧ a + n < a + n) := by omega
      have h4 : ¬ (b ≤ a + n ∧ a + n < b + n) := by omega
      simp only [h1, h2, h3, h4, if_true, if_false, and_self]
      congr 1
      omega
    · by_cases ha : p = a + n
      · subst ha
        have h1 : a ≤ a + n ∧ a + n < a + (n + 1) := by omega
        have h3 : ¬ (a ≤ b + n ∧ b + n < a + n) := by omega
        have h4 : ¬ (b ≤ b + n ∧ b + n < b + n) := by omega
        simp only [hb, h1, h3, h4, if_true, if_false, and_self]
        congr 1
        omega
      · simp only [hb, ha, if_false]
        by_cases c1 : a ≤ p ∧ p < a + n
        · have c1' : a ≤ p ∧ p < a + (n + 1) := by omega
          simp only [c1, c1', if_true, and_self]
        · have c1' : ¬ (a ≤ p ∧ p < a + (n + 1)) := by omega
          simp only [c1, c1', if_false]
          by_cases c2 : b ≤ p ∧ p < b + n
          · have c2' : b ≤ p ∧ p < b + (n + 1) := by omega
            simp only [c2, c2', if_true, and_self]
          · have c2' : ¬ (b ≤ p ∧ p < b + (n + 1)) := by omega
            simp only [c2, c2', if_false]

theorem nested_range_fold {β : Type} (g : β → Nat → β) (c : Nat) :
    ∀ (w : Nat) (init : β),
      (List.range w).foldl (fun acc i => (List.range c).foldl (fun acc k => g acc (i * c + k)) acc)
          init
        = (List.range (w * c)).foldl g init := by
  intro w
  induction w with
  | zero => intro init; simp
  | succ w ih =>
    intro init
    rw [List.range_succ, List.foldl_append, ih, List.foldl_cons, List.foldl_nil,
      Nat.succ_mul, List.range_add, List.foldl_append, List.foldl_map]

theorem flipImageY_eq_rowsFlip {α : Type} (w h c : Nat) (d : Nat → α) :
    flipImageY w h c d = rowsFlip (w * c) h (h / 2) d := by
  unfold flipImageY rowsFlip
  congr 1
  funext d j
  unfold rowSwap
  rw [← nested_range_fold]
  congr 1
  funext d i
  congr 1
  funext d k
  have e1 : (j * w + i) * c + k = j * (w * c) + (i * c + k) := by ring
  have e2 : ((h - j - 1) * w + i) * c + k = (h - j - 1) * (w * c) + (i * c + k) := by ring
  simp only [e1, e2]

theorem block_mem (n r s o : Nat) (ho : o < n) :
    (s * n ≤ r * n + o ∧ r * n + o < s * n + n) ↔ r = s := by
  constructor
  · rintro ⟨h1, h2⟩
    by_contra hne
    rcases Nat.lt_or_gt_of_ne hne with hlt | hgt
    · have : (r + 1) * n ≤ s * n := Nat.mul_le_mul_right n hlt
      rw [Nat.succ_mul] at this
      omega
    · have : (s + 1) * n ≤ r * n := Nat.mul_le_mul_right n hgt
      rw [Nat.succ_mul] at this
      omega
  · rintro rfl
    omega

theorem rowsFlip_succ {α : Type} (n h m : Nat) (d : Nat → α) :
    rowsFlip n h (m + 1) d = rowSwap (rowsFlip n h m d) (m * n) ((h - m - 1) * n) n := by
  unfold rowsFlip
  rw [List.range_succ, List.foldl_append]
  rfl

theorem rowsFlip_apply {α : Type} (n h : Nat) (d : Nat → α) :
    ∀ m, 2 * m ≤ h →
      (∀ r o, r < h → o < n →
        rowsFlip n h m d (r * n + o)
          = if r < m ∨ h - m ≤ r then d ((h - 1 - r) * n + o) else d (r * n + o)) ∧
      (∀ p, h * n ≤ p → rowsFlip n h m d p = d p) := by
  intro m
  induction m with
  | zero =>
    intro _
    refine ⟨?_, fun p _ => rfl⟩
    intro r o hr _
    have : ¬ (r < 0 ∨ h - 0 ≤ r) := by omega
    simp only [this, if_false]
    rfl
  | succ m ih =>
    intro hm
    obtain ⟨ih1, ih2⟩ := ih (by omega)
    have hblk : m * n + n ≤ (h - m - 1) * n := by
      have : (m + 1) * n ≤ (h - m - 1) * n := Nat.mul_le_mul_right n (by omega)
      rw [Nat.succ_mul] at this
      exact this
    refine ⟨?_, ?_⟩
    · intro r o hr ho
      rw [rowsFlip_succ, rowSwap_apply _ _ _ n hblk]
      by_cases c1 : r = m
      · subst c1
        have h1 : r * n ≤ r * n + o ∧ r * n + o < r * n + n := by omega
        have h2 : r < r + 1 ∨ h - (r + 1) ≤ r := by omega
        simp only [h1, h2, if_true, and_self]
        have e : (h - r - 1) * n + (r * n + o - r * n) = (h - r - 1) * n + o := by omega
        rw [e, ih1 (h - r - 1) o (by omega) ho]
        have h3 : ¬ (h - r - 1 < r ∨ h - r ≤ h - r - 1) := by omega
        simp only [h3, if_false]
        have e2 : h - 1 - r = h - r - 1 := by omega
        rw [e2]
      · have h1 : ¬ (m * n ≤ r * n + o ∧ r * n + o < m * n + n) :=
          fun hc => c1 ((block_mem n r m o ho).mp hc)
        simp only [h1, if_false]
        by_cases c2 : r = h - m - 1
        · have h2 : (h - m - 1) * n ≤ r * n + o ∧ r * n + o < (h - m - 1) * n + n :=
            (block_mem n r (h - m - 1) o ho).mpr c2
          simp only [h2, if_true, and_self]
          subst c2
          have e : m * n + ((h - m - 1) * n + o - (h - m - 1) * n) = m * n + o := by omega
          rw [e, ih1 m o (by omega) ho]
          have h3 : ¬ (m < m ∨ h - m ≤ m) := by omega
          have h4 : h - m - 1 < m + 1 ∨ h - (m + 1) ≤ h - m - 1 := by omega
          simp only [h3, h4, if_false, if_true]
          have e2 : h - 1 - (h - m - 1) = m := by omega
          rw [e2]
        · have h2 : ¬ ((h - m - 1) * n ≤ r * n + o ∧ r * n + o < (h - m - 1) * n + n) :=
            fun hc => c2 ((block_mem n r (h - m - 1) o ho).mp hc)
          simp only [h2, if_false]
          rw [ih1 r o hr ho]
          by_cases c3 : r < m ∨ h - m ≤ r
          · have c3' : r < m + 1 ∨ h - (m + 1) ≤ r := by omega
            simp only [c3, c3', if_true]
          · have c3' : ¬ (r < m + 1 ∨ h - (m + 1) ≤ r) := by omega
            simp only [c3, c3', if_false]
    · intro p hp
      rw [rowsFlip_succ, rowSwap_apply _ _ _ n hblk]
      have hhn : (h - m - 1) * n + n ≤ h * n := by
        have : (h - m - 1 + 1) * n ≤ h * n := Nat.mul_le_mul_right n (by omega)
        rw [Nat.succ_mul] at this
        exact this
      have h1 : ¬ (m * n ≤ p ∧ p < m * n + n) := by omega
      have h2 : ¬ ((h - m - 1) * n ≤ p ∧ p < (h - m - 1) * n + n) := by omega
      simp only [h1, h2, if_false]
      exact ih2 p hp

theorem pixelIndex_eq (w c j i k : Nat) : pixelIndex w c j i k = j * (w * c) + (i * c + k) := by
  unfold pixelIndex
  ring

theorem pixel_offset_lt (w c i k : Nat) (hi : i < w) (hk : k < c) : i * c + k < w * c := by
  have : (i + 1) * c ≤ w * c := Nat.mul_le_mul_right c hi
  rw [Nat.succ_mul] at this
  omega

/-- C29: for every width, height and channel count (natural numbers), flipImageY moves the
value at (column i, row j, channel k) to row height-1-j of the same column and channel, the
middle row of an odd-height image stays in place, entries beyond the image are untouched, and
flipping twice gives back the original image. -/
theorem flipImageY_flips {α : Type} (w h c : Nat) (d : Nat → α) :
    (∀ i j k, i < w → j < h → k < c →
      flipImageY w h c d (pixelIndex w c (h - 1 - j) i k) = d (pixelIndex w c j i k)) ∧
    (∀ i k, i < w → k < c → h % 2 = 1 →
      flipImageY w h c d (pixelIndex w c (h / 2) i k) = d (pixelIndex w c (h / 2) i k)) ∧
    (∀ p, w * h * c ≤ p → flipImageY w h c d p = d p) ∧
    flipImageY w h c (flipImageY w h c d) = d := by
  have hflip : ∀ (x : Nat → α) r o, r < h → o < w * c →
      flipImageY w h c x (r * (w * c) + o)
        = if r < h / 2 ∨ h - h / 2 ≤ r then x ((h - 1 - r) * (w * c) + o)
          else x (r * (w * c) + o) := by
    intro x r o hr ho
    rw [flipImageY_eq_rowsFlip]
    exact (rowsFlip_apply (w * c) h x (h / 2) (by omega)).1 r o hr ho
  have hout : ∀ (x : Nat → α) p, h * (w * c) ≤ p → flipImageY w h c x p = x p := by
    intro x p hp
    rw [flipImageY_eq_rowsFlip]
    exact (rowsFlip_apply (w * c) h x (h / 2) (by omega)).2 p hp
  have hpix : ∀ i j k, i < w → j < h → k < c →
      flipImageY w h c d (pixelIndex w c (h - 1 - j) i k) = d (pixelIndex w c j i k) := by
    intro i j k hi hj hk
    rw [pixelIndex_eq, pixelIndex_eq, hflip d (h - 1 - j) (i * c + k) (by omega)
      (pixel_offset_lt w c i k hi hk)]
    have e : h - 1 - (h - 1 - j) = j := by omega
    by_cases hc : h - 1 - j < h / 2 ∨ h - h / 2 ≤ h - 1 - j
    · simp only [hc, if_true, e]
    · simp only [hc, if_false]
      have : h - 1 - j = j := by omega
      rw [this]
  refine ⟨hpix, ?_, ?_, ?_⟩
  · intro i k hi hk hodd
    have hj : h / 2 < h := by omega
    have := hpix i (h / 2) k hi hj hk
    have e : h - 1 - h / 2 = h / 2 := by omega
    rw [e] at this
    exact this
  · intro p hp
    apply hout
    have e : w * h * c = h * (w * c) := by ring
    rw [← e]
    exact hp
  · funext p
    by_cases hp : h * (w * c) ≤ p
    · rw [hout _ p hp, hout _ p hp]
    · push_neg at hp
      have hn : 0 < w * c := by
        rcases Nat.eq_zero_or_pos (w * c) with h0 | h0
        · rw [h0] at hp
          omega
        · exact h0
      have hdecomp : p = p / (w * c) * (w * c) + p % (w * c) := by
        rw [Nat.mul_comm]
        exact (Nat.div_add_mod p (w * c)).symm
      have hr : p / (w * c) < h := by
        rw [Nat.div_lt_iff_lt_mul hn]
        exact hp
      have ho : p % (w * c) < w * c := Nat.mod_lt _ hn
      generalize p / (w * c) = r at hdecomp hr
      generalize p % (w * c) = o at hdecomp ho
      subst hdecomp
      rw [hflip _ r o hr ho]
      by_cases hc : r < h / 2 ∨ h - h / 2 ≤ r
      · simp only [hc, if_true]
        rw [hflip d (h - 1 - r) o (by omega) ho]
        have hc2 : h - 1 - r < h / 2 ∨ h - h / 2 ≤ h - 1 - r := by omega
        have e : h - 1 - (h - 1 - r) = r := by omega
        simp only [hc2, if_true, e]
      · simp only [hc, if_false]
        rw [hflip d r o hr ho]
        simp only [hc, if_false]

/-- On a 2 by 3 single-channel image whose entries are their own offsets, the flip puts the
last row first. -/
theorem flipImageY_sample :
    (List.range 6).map (flipImageY 2 3 1 sampleImage) = [4, 5, 2, 3, 0, 1] := by
  decide

/-! ### Tokenising a line -/

theorem findIdx_eq_length_takeWhile {α : Type} (p : α → Bool) (l : List α) :
    l.findIdx p = (l.takeWhile fun x => !p x).length := by
  induction l with
  | nil => rfl
  | cons a l ih =>
    rw [List.findIdx_cons, List.takeWhile_cons]
    cases h : p a <;> simp [ih]

theorem take_length_takeWhile {α : Type} (p : α → Bool) (l : List α) :
    l.take (l.takeWhile p).length = l.takeWhile p := by
  induction l with
  | nil => rfl
  | cons a l ih =>
    rw [List.takeWhile_cons]
    cases h : p a <;> simp [ih]

theorem drop_length_takeWhile {α : Type} (p : α → Bool) (l : List α) :
    l.drop (l.takeWhile p).length = l.dropWhile p := by
  induction l with
  | nil => rfl
  | cons a l ih =>
    rw [List.takeWhile_cons, List.dropWhile_cons]
    cases h : p a <;> simp [ih]

theorem length_takeWhile_le {α : Type} (p : α → Bool) (l : List α) :
    (l.takeWhile p).length ≤ l.length := by
  induction l with
  | nil => simp
  | cons a l ih =>
    rw [List.takeWhile_cons]
    cases h : p a <;> simp [ih]

theorem length_takeWhile_lt_iff {α : Type} (p : α → Bool) (l : List α) :
    (l.takeWhile p).length < l.length ↔ ∃ x ∈ l, p x = false := by
  induction l with
  | nil => simp
  | cons a l ih =>
    rw [List.takeWhile_cons]
    cases h : p a <;> simp [ih, h]

/-- The delimiter test of the two scans finds exactly the members of `delimiters`. -/
theorem find_first_of_char_ne_npos (delimiters : List Char) (c : Char)
    (hd : delimiters.length ≤ npos) :
    find_first_of_char delimiters c 0 ≠ npos ↔ delimiters.contains c = true := by
  unfold find_first_of_char
  simp only [List.drop_zero, Nat.zero_add]
  have hiff : List.findIdx (fun x => x == c) delimiters < delimiters.length
      ↔ delimiters.contains c = true := by
    rw [List.findIdx_lt_length]
    simp
  by_cases h : List.findIdx (fun x => x == c) delimiters < delimiters.length
  · simp only [h, if_true]
    constructor
    · intro _
      exact hiff.1 h
    · intro _
      omega
  · simp only [h, if_false]
    constructor
    · intro hne
      exact absurd rfl hne
    · intro hc
      exact absurd (hiff.2 hc) h

theorem lowerScan_eq (input delimiters : List Char) (hd : delimiters.length ≤ npos) :
    ∀ n i, input.length - i = n →
      lowerScan input delimiters i
        = some (i + ((input.drop i).takeWhile fun x => delimiters.contains x).length) := by
  intro n
  induction n with
  | zero =>
    intro i hi
    rw [lowerScan]
    have : ¬ i < input.length := by omega
    simp only [this, if_false]
    rw [List.drop_of_length_le (by omega)]
    simp
  | succ n ih =>
    intro i hi
    rw [lowerScan]
    have hlt : i < input.length := by omega
    simp only [hlt, if_true]
    have hat : charAt input (i : Int) = some input[i] := by
      unfold charAt
      have : ¬ ((i : Int) < 0) := by omega
      simp only [this, if_false, Int.toNat_ofNat]
      exact List.getElem?_eq_getElem hlt
    rw [hat, List.drop_eq_getElem_cons hlt, List.takeWhile_cons]
    by_cases hc : delimiters.contains input[i] = true
    · have := (find_first_of_char_ne_npos delimiters input[i] hd).2 hc
      simp only [this, hc, if_true, ne_eq, not_false_eq_true]
      rw [ih (i + 1) (by omega)]
      simp only [List.length_cons]
      congr 1
      omega
    · have hn : ¬ (find_first_of_char delimiters input[i] 0 ≠ npos) := fun h =>
        hc ((find_first_of_char_ne_npos delimiters input[i] hd).1 h)
      simp only [hn, if_false]
      have hc' : input[i] ∉ delimiters := by simpa using hc
      simp [hc']

theorem upperScan_eq (input delimiters : List Char) (hd : delimiters.length ≤ npos) :
    ∀ k, k ≤ input.length →
      upperScan input delimiters ((k : Int) - 1)
        = some (((k - ((input.take k).reverse.takeWhile
            fun x => delimiters.contains x).length : Nat) : Int) - 1) := by
  intro k
  induction k with
  | zero =>
    intro _
    rw [upperScan]
    simp
  | succ k ih =>
    intro hk
    rw [upperScan]
    have hlt : k < input.length := by omega
    have e : ((k + 1 : Nat) : Int) - 1 = (k : Int) := by omega
    rw [e]
    have h0 : (0 : Int) ≤ (k : Int) := by omega
    simp only [h0, if_true]
    have hat : charAt input (k : Int) = some input[k] := by
      unfold charAt
      have : ¬ ((k : Int) < 0) := by omega
      simp only [this, if_false, Int.toNat_ofNat]
      exact List.getElem?_eq_getElem hlt
    have htake : input.take (k + 1) = input.take k ++ [input[k]] := by
      rw [List.take_succ, List.getElem?_eq_getElem hlt]
      rfl
    rw [hat, htake, List.reverse_append, List.reverse_singleton, List.singleton_append,
      List.takeWhile_cons]
    by_cases hc : delimiters.contains input[k] = true
    · have := (find_first_of_char_ne_npos delimiters input[k] hd).2 hc
      simp only [this, hc, if_true, ne_eq, not_false_eq_true]
      rw [ih (by omega)]
      simp only [List.length_cons]
      have hle := length_takeWhile_le (fun x => delimiters.contains x) (input.take k).reverse
      rw [List.length_reverse, List.length_take] at hle
      congr 1
      omega
    · have hn : ¬ (find_first_of_char delimiters input[k] 0 ≠ npos) := fun h =>
        hc ((find_first_of_char_ne_npos delimiters input[k] hd).1 h)
      simp only [hn, if_false]
      have hc' : input[k] ∉ delimiters := by simpa using hc
      simp [hc']

theorem runStartsAt_succ (atStart : Bool) (c : Char) (cs delimiters : List Char) (i : Nat) :
    runStartsAt atStart (c :: cs) delimiters (i + 1)
      = runStartsAt (delimiters.contains c) cs delimiters i := by
  unfold runStartsAt
  rw [List.getElem?_cons_succ]
  cases i with
  | zero => simp
  | succ i => simp

theorem runsFrom_nil (atStart : Bool) (delimiters : List Char) :
    runsFrom atStart [] delimiters = [] := rfl

theorem runsFrom_cons (atStart : Bool) (c : Char) (cs delimiters : List Char) :
    runsFrom atStart (c :: cs) delimiters
      = (if (!delimiters.contains c && atStart) = true then
          [(c :: cs).takeWhile fun x => !delimiters.contains x] else [])
        ++ runsFrom (delimiters.contains c) cs delimiters := by
  unfold runsFrom
  rw [List.length_cons, List.range_succ_eq_map, List.filterMap_cons, List.filterMap_map]
  have h0 : runStartsAt atStart (c :: cs) delimiters 0 = (!delimiters.contains c && atStart) := by
    simp [runStartsAt]
  have hfun : ((fun i => if runStartsAt atStart (c :: cs) delimiters i = true then
        some (List.takeWhile (fun x => !delimiters.contains x) (List.drop i (c :: cs)))
        else none) ∘ Nat.succ)
      = fun i => if runStartsAt (delimiters.contains c) cs delimiters i = true then
        some (List.takeWhile (fun x => !delimiters.contains x) (List.drop i cs)) else none := by
    funext i
    simp only [Function.comp, Nat.succ_eq_add_one, runStartsAt_succ, List.drop_succ_cons]
  rw [hfun, h0, List.drop_zero]
  by_cases h : (!delimiters.contains c && atStart) = true
  · simp only [h, if_true]
    rfl
  · simp only [h, if_false]
    rfl

theorem takeWhile_append_of_all {α : Type} (p : α → Bool) (l r : List α) (x : α)
    (hl : ∀ y ∈ l, p y = true) (hx : p x = false) :
    (l ++ x :: r).takeWhile p = l := by
  induction l with
  | nil => simp [List.takeWhile_cons, hx]
  | cons a l ih =>
    have ha : p a = true := hl a (List.mem_cons_self a l)
    rw [List.cons_append, List.takeWhile_cons, ha]
    simp only [if_true]
    rw [ih fun y hy => hl y (List.mem_cons_of_mem a hy)]

theorem takeWhile_append_stop {α : Type} (p : α → Bool) (l r : List α)
    (hr : ∀ y ∈ r, p y = false) :
    (l ++ r).takeWhile p = l.takeWhile p := by
  induction l with
  | nil =>
    cases r with
    | nil => rfl
    | cons x r => simp [List.takeWhile_cons, hr x (List.mem_cons_self x r)]
  | cons a l ih =>
    rw [List.cons_append, List.takeWhile_cons, List.takeWhile_cons, ih]

/-- A list of delimiters holds no run. -/
theorem runsFrom_delimiters (delimiters ds : List Char)
    (hds : ∀ x ∈ ds, delimiters.contains x = true) :
    ∀ atStart, runsFrom atStart ds delimiters = [] := by
  induction ds with
  | nil => intro _; rfl
  | cons a ds ih =>
    intro atStart
    have ha := hds a (List.mem_cons_self a ds)
    rw [runsFrom_cons, ih fun x hx => hds x (List.mem_cons_of_mem a hx), ha]
    simp

/-- A block of non-delimiters followed by a delimiter is one run, when a run may start. -/
theorem runsFrom_block (delimiters pre rest : List Char) (dl : Char)
    (hpre : ∀ x ∈ pre, delimiters.contains x = false) (hdl : delimiters.contains dl = true) :
    ∀ atStart, runsFrom atStart (pre ++ dl :: rest) delimiters
      = (if atStart = true ∧ pre ≠ [] then [pre] else []) ++ runsFrom true rest delimiters := by
  induction pre with
  | nil =>
    intro atStart
    rw [List.nil_append, runsFrom_cons, hdl]
    simp
  | cons a pre ih =>
    intro atStart
    have ha := hpre a (List.mem_cons_self a pre)
    have hpre' : ∀ x ∈ pre, delimiters.contains x = false :=
      fun x hx => hpre x (List.mem_cons_of_mem a hx)
    rw [List.cons_append, runsFrom_cons, ih hpre' (delimiters.contains a), ha]
    have htw : List.takeWhile (fun x => !delimiters.contains x) (a :: (pre ++ dl :: rest))
        = a :: pre := by
      rw [← List.cons_append]
      apply takeWhile_append_of_all
      · intro y hy
        simp only [hpre y hy, Bool.not_false]
      · simp only [hdl, Bool.not_true]
    rw [htw]
    cases atStart <;> simp

/-- A non-empty list without delimiters is one run, when a run may start. -/
theorem runsFrom_no_delimiter (delimiters t : List Char)
    (ht : ∀ x ∈ t, delimiters.contains x = false) :
    ∀ atStart, runsFrom atStart t delimiters
      = if atStart = true ∧ t ≠ [] then [t] else [] := by
  induction t with
  | nil => intro _; simp [runsFrom_nil]
  | cons a t ih =>
    intro atStart
    have ha := ht a (List.mem_cons_self a t)
    have ht' : ∀ x ∈ t, delimiters.contains x = false :=
      fun x hx => ht x (List.mem_cons_of_mem a hx)
    rw [runsFrom_cons, ih ht' (delimiters.contains a), ha]
    have htw : List.takeWhile (fun x => !delimiters.contains x) (a :: t) = a :: t := by
      rw [List.takeWhile_eq_self_iff]
      intro y hy
      simp only [ht y hy, Bool.not_false]
    rw [htw]
    cases atStart <;> simp

/-- Delimiters in front of a list do not change its runs. -/
theorem runsFrom_strip_front (delimiters ds l : List Char)
    (hds : ∀ x ∈ ds, delimiters.contains x = true) :
    runsFrom true (ds ++ l) delimiters = runsFrom true l delimiters := by
  induction ds with
  | nil => rfl
  | cons a ds ih =>
    have ha := hds a (List.mem_cons_self a ds)
    rw [List.cons_append, runsFrom_cons, ha, ih fun x hx => hds x (List.mem_cons_of_mem a hx)]
    simp

/-- Delimiters behind a list do not change its runs. -/
theorem runsFrom_strip_back (delimiters ds l : List Char)
    (hds : ∀ x ∈ ds, delimiters.contains x = true) :
    ∀ atStart, runsFrom atStart (l ++ ds) delimiters = runsFrom atStart l delimiters := by
  induction l with
  | nil =>
    intro atStart
    rw [List.nil_append, runsFrom_delimiters delimiters ds hds, runsFrom_nil]
  | cons a l ih =>
    intro atStart
    rw [List.cons_append, runsFrom_cons, runsFrom_cons, ih, ← List.cons_append,
      takeWhile_append_stop]
    intro y hy
    simp only [hds y hy, Bool.not_true]

theorem find_first_of_append (front t chars : List Char) :
    find_first_of (front ++ t) chars front.length
      = if (t.takeWhile fun c => !chars.contains c).length < t.length then
          front.length + (t.takeWhile fun c => !chars.contains c).length
        else npos := by
  unfold find_first_of
  rw [List.drop_left, findIdx_eq_length_takeWhile, List.length_append]
  simp only [Nat.add_lt_add_iff_left]

theorem sizeSub_add (f k : Nat) (h : f + k < npos) : sizeSub (f + k) f = k := by
  unfold sizeSub
  unfold npos at h
  omega

theorem sizeSub_npos (f : Nat) (h : f < npos) : sizeSub npos f = npos - f := by
  unfold sizeSub
  unfold npos at h ⊢
  omega

theorem substr_append (front t : List Char) (n : Nat) :
    substr (front ++ t) front.length n = some (t.take n) := by
  unfold substr
  have : ¬ front.length > (front ++ t).length := by
    rw [List.length_append]
    omega
  simp only [this, if_false, List.drop_left]

theorem getLast?_after_delimiter (pre rest : List Char) (dl z : Char) (p : Char → Bool)
    (h : (pre ++ dl :: rest).getLast? = some z) (hdl : p dl = true) (hz : p z = false) :
    rest.getLast? = some z := by
  cases rest with
  | nil =>
    simp at h
    rw [h, hz] at hdl
    exact absurd hdl (by decide)
  | cons b rest =>
    simpa using h

/-- The token loop stops with `r = npos` at the start of the last run, having pushed the runs
before it, when the part of the string not yet read ends in a non-delimiter. -/
theorem tokenLoop_runs (delimiters : List Char) :
    ∀ (n : Nat) (front t : List Char) (z : Char) (retVec : List (List Char)),
      t.length = n → t.getLast? = some z → delimiters.contains z = false →
      (front ++ t).length < npos →
      ∃ (front' last : List Char) (retVec' : List (List Char)),
        front ++ t = front' ++ last ∧
        tokenLoop (front ++ t) delimiters front.length retVec
          = some (npos, front'.length, retVec') ∧
        retVec' ++ [last] = retVec ++ runsFrom true t delimiters := by
  intro n
  induction n using Nat.strong_induction_on with
  | _ n ih =>
    intro front t z retVec hn hlast hz hlen
    have hlen' : front.length + t.length < npos := by
      rw [List.length_append] at hlen
      exact hlen
    rw [tokenLoop]
    rw [find_first_of_append]
    by_cases hk : (t.takeWhile fun c => !delimiters.contains c).length < t.length
    · simp only [hk, if_true]
      have hne : front.length + (t.takeWhile fun c => !delimiters.contains c).length ≠ npos := by
        omega
      simp only [hne, ne_eq, not_false_eq_true, dite_true]
      -- split the unread part at its first delimiter
      have hsplit := List.takeWhile_append_dropWhile (fun c => !delimiters.contains c) t
      have hdrop : t.dropWhile (fun c => !delimiters.contains c) ≠ [] := by
        intro h0
        rw [h0, List.append_nil] at hsplit
        rw [hsplit] at hk
        omega
      obtain ⟨dl, rest, hdr⟩ := List.exists_cons_of_ne_nil hdrop
      have hdl : delimiters.contains dl = true := by
        have := List.head_dropWhile_not (fun c => !delimiters.contains c) t hdrop
        simp only [hdr, List.head_cons] at this
        simpa using this
      have hpre : ∀ x ∈ t.takeWhile (fun c => !delimiters.contains c),
          delimiters.contains x = false := by
        intro x hx
        have := List.mem_takeWhile_imp hx
        simpa using this
      rw [hdr] at hsplit
      generalize hp : t.takeWhile (fun c => !delimiters.contains c) = pre at *
      have hrest : rest.getLast? = some z := by
        rw [← hsplit] at hlast
        exact getLast?_after_delimiter pre rest dl z (fun c => delimiters.contains c) hlast hdl hz
      have hrlen : rest.length < n := by
        rw [← hn, ← hsplit]
        simp only [List.length_append, List.length_cons]
        omega
      have hs : (front ++ pre ++ [dl]) ++ rest = front ++ t := by
        rw [← hsplit]
        simp only [List.append_assoc, List.singleton_append]
      have hf : (front ++ pre ++ [dl]).length = front.length + pre.length + 1 := by
        simp only [List.length_append, List.length_singleton]
      have hruns := runsFrom_block delimiters pre rest dl hpre hdl true
      rw [hsplit] at hruns
      have hsub : substr (front ++ t) front.length (sizeSub (front.length + pre.length) front.length)
          = some pre := by
        rw [substr_append, sizeSub_add _ _ (by omega), ← hp, take_length_takeWhile]
      by_cases h0 : front.length = front.length + pre.length
      · have hnil : pre = [] := List.eq_nil_of_length_eq_zero (by omega)
        rw [if_neg (not_not_intro h0)]
        obtain ⟨front', last, retVec', e1, e2, e3⟩ :=
          ih rest.length hrlen (front ++ pre ++ [dl]) rest z retVec rfl hrest hz
            (by rw [hs]; exact hlen)
        rw [hs, hf] at e2
        rw [hs] at e1
        refine ⟨front', last, retVec', e1, e2, ?_⟩
        rw [e3, hruns, hnil]
        simp
      · have hnn : pre ≠ [] := by
          intro h
          rw [h] at h0
          simp at h0
        rw [if_pos h0, hsub]
        obtain ⟨front', last, retVec', e1, e2, e3⟩ :=
          ih rest.length hrlen (front ++ pre ++ [dl]) rest z (retVec ++ [pre]) rfl hrest hz
            (by rw [hs]; exact hlen)
        rw [hs, hf] at e2
        rw [hs] at e1
        refine ⟨front', last, retVec', e1, e2, ?_⟩
        rw [e3, hruns]
        simp [hnn]
    · simp only [hk, if_false, ne_eq, not_true_eq_false, dite_false]
      have hall : ∀ x ∈ t, delimiters.contains x = false := by
        intro x hx
        by_contra hx'
        apply hk
        rw [length_takeWhile_lt_iff]
        refine ⟨x, hx, ?_⟩
        simpa using hx'
      have htne : t ≠ [] := by
        intro h
        rw [h] at hlast
        simp at hlast
      refine ⟨front, t, retVec, rfl, rfl, ?_⟩
      rw [runsFrom_no_delimiter delimiters t hall true]
      simp [htne]

theorem takeWhile_append_of_exists {α : Type} (p : α → Bool) (l r : List α)
    (h : ∃ x ∈ l, p x = false) : (l ++ r).takeWhile p = l.takeWhile p := by
  induction l with
  | nil =>
    obtain ⟨x, hx, _⟩ := h
    simp at hx
  | cons a l ih =>
    rw [List.cons_append, List.takeWhile_cons, List.takeWhile_cons]
    cases ha : p a with
    | false => rfl
    | true =>
      simp only [if_true]
      congr 1
      apply ih
      obtain ⟨x, hx, hpx⟩ := h
      rcases List.mem_cons.1 hx with rfl | hx'
      · rw [ha] at hpx
        exact absurd hpx (by decide)
      · exact ⟨x, hx', hpx⟩

/-- A list with an element outside `p` is a block of `p`, a middle part that ends outside `p`,
and the block of `p` that its reverse starts with. -/
theorem strip_decomposition {α : Type} (p : α → Bool) (input : List α)
    (h : ∃ x ∈ input, p x = false) :
    ∃ (mid : List α) (z : α),
      input = input.takeWhile p ++ (mid ++ (input.reverse.takeWhile p).reverse) ∧
      mid.getLast? = some z ∧ p z = false := by
  have hsplit := List.takeWhile_append_dropWhile p input
  have hrest : ∃ x ∈ input.dropWhile p, p x = false := by
    obtain ⟨x, hx, hpx⟩ := h
    rw [← hsplit] at hx
    rcases List.mem_append.1 hx with h1 | h2
    · have := List.mem_takeWhile_imp h1
      rw [hpx] at this
      exact absurd this (by decide)
    · exact ⟨x, h2, hpx⟩
  generalize input.dropWhile p = rest at hsplit hrest
  have hrev : input.reverse.takeWhile p = rest.reverse.takeWhile p := by
    rw [← hsplit, List.reverse_append]
    apply takeWhile_append_of_exists
    obtain ⟨x, hx, hpx⟩ := hrest
    exact ⟨x, List.mem_reverse.2 hx, hpx⟩
  have hsplit2 := List.takeWhile_append_dropWhile p rest.reverse
  have hne : rest.reverse.dropWhile p ≠ [] := by
    intro h0
    rw [List.dropWhile_eq_nil_iff] at h0
    obtain ⟨x, hx, hpx⟩ := hrest
    have := h0 x (List.mem_reverse.2 hx)
    rw [hpx] at this
    exact absurd this (by decide)
  have hhead := List.head_dropWhile_not p rest.reverse hne
  refine ⟨(rest.reverse.dropWhile p).reverse, (rest.reverse.dropWhile p).head hne, ?_, ?_, hhead⟩
  · rw [hrev, ← List.reverse_append, hsplit2, List.reverse_reverse, hsplit]
  · rw [List.getLast?_reverse, List.head?_eq_head hne]

/-- Every run is non-empty and free of delimiters. -/
theorem runsFrom_tokens (delimiters : List Char) (input : List Char) :
    ∀ atStart, ∀ token ∈ runsFrom atStart input delimiters,
      token ≠ [] ∧ ∀ c ∈ token, c ∉ delimiters := by
  induction input with
  | nil =>
    intro atStart token h
    rw [runsFrom_nil] at h
    simp at h
  | cons a l ih =>
    intro atStart token h
    rw [runsFrom_cons, List.mem_append] at h
    rcases h with h | h
    · split_ifs at h with hc
      · rw [List.mem_singleton] at h
        have ha : delimiters.contains a = false := by
          cases hca : delimiters.contains a
          · rfl
          · rw [hca] at hc
            simp at hc
        constructor
        · rw [h, List.takeWhile_cons, ha]
          simp
        · intro c hcm
          rw [h] at hcm
          have := List.mem_takeWhile_imp hcm
          simpa using this
      · simp at h
    · exact ih _ token h

/-- The runs, put together, are the non-delimiter characters of the input in order. -/
theorem runsFrom_flatten (delimiters : List Char) (input : List Char) :
    ∀ atStart, (runsFrom atStart input delimiters).flatten
      = if atStart = true then input.filter fun c => !delimiters.contains c
        else (input.dropWhile fun c => !delimiters.contains c).filter
          fun c => !delimiters.contains c := by
  induction input with
  | nil =>
    intro atStart
    rw [runsFrom_nil]
    simp
  | cons a l ih =>
    intro atStart
    rw [runsFrom_cons, List.flatten_append, ih]
    have hfil : l.filter (fun c => !delimiters.contains c)
        = l.takeWhile (fun c => !delimiters.contains c)
          ++ (l.dropWhile fun c => !delimiters.contains c).filter
            fun c => !delimiters.contains c := by
      conv_lhs => rw [← List.takeWhile_append_dropWhile (fun c => !delimiters.contains c) l]
      rw [List.filter_append]
      congr 1
      rw [List.filter_eq_self]
      intro x hx
      exact @List.mem_takeWhile_imp _ (fun c => !delimiters.contains c) l x hx
    cases ha : delimiters.contains a <;> cases atStart <;>
      simp only [List.takeWhile_cons, List.dropWhile_cons, List.filter_cons, ha, hfil,
        Bool.not_false, Bool.not_true, Bool.and_true, Bool.and_false, Bool.false_eq_true,
        if_true, if_false, List.flatten_cons, List.flatten_nil, List.nil_append,
        List.append_nil, List.cons_append]

theorem tokenizeString_eq (input delimiters : List Char)
    (hi : input.length < npos) (hd : delimiters.length ≤ npos) :
    tokenizeString input delimiters = some (maximalRuns input delimiters) := by
  unfold tokenizeString maximalRuns
  by_cases h0 : input.length = 0
  · have : input = [] := List.eq_nil_of_length_eq_zero h0
    subst this
    rfl
  · rw [if_neg h0, lowerScan_eq input delimiters hd input.length 0 rfl]
    have hup := upperScan_eq input delimiters hd input.length le_rfl
    rw [List.take_length] at hup
    rw [hup]
    simp only [Option.some_bind, List.drop_zero, Nat.zero_add]
    by_cases hall : ∀ x ∈ input, delimiters.contains x = true
    · have htw : input.takeWhile (fun x => delimiters.contains x) = input :=
        List.takeWhile_eq_self_iff.2 hall
      rw [htw, if_pos (Or.inl (le_refl _)), runsFrom_delimiters delimiters input hall]
    · have hex : ∃ x ∈ input, (fun x => delimiters.contains x) x = false := by
        push_neg at hall
        obtain ⟨x, hx, hxd⟩ := hall
        refine ⟨x, hx, ?_⟩
        simpa using hxd
      obtain ⟨mid, z, hdec, hlast, hz⟩ :=
        strip_decomposition (fun x => delimiters.contains x) input hex
      have hpre : ∀ x ∈ input.takeWhile (fun x => delimiters.contains x),
          delimiters.contains x = true := fun x hx => List.mem_takeWhile_imp hx
      have hsuf : ∀ x ∈ (input.reverse.takeWhile fun x => delimiters.contains x).reverse,
          delimiters.contains x = true :=
        fun x hx => List.mem_takeWhile_imp (List.mem_reverse.1 hx)
      generalize input.takeWhile (fun x => delimiters.contains x) = pre at hdec hpre ⊢
      have hb : (input.reverse.takeWhile fun x => delimiters.contains x).length
          = ((input.reverse.takeWhile fun x => delimiters.contains x).reverse).length :=
        (List.length_reverse _).symm
      rw [hb]
      generalize (input.reverse.takeWhile fun x => delimiters.contains x).reverse = suf
        at hdec hsuf ⊢
      have hmid : 1 ≤ mid.length := by
        cases mid with
        | nil => simp at hlast
        | cons a l => simp
      have hlen : input.length = pre.length + (mid.length + suf.length) := by
        rw [hdec]
        simp only [List.length_append]
      have hcond : ¬ (pre.length ≥ input.length
          ∨ ((input.length - suf.length : Nat) : Int) - 1 < 0
          ∨ (pre.length : Int) > ((input.length - suf.length : Nat) : Int) - 1) := by
        omega
      rw [if_neg hcond]
      have hcount : (((input.length - suf.length : Nat) : Int) - 1 - (pre.length : Int) + 1).toNat
          = mid.length := by
        omega
      rw [hcount]
      have hruns : runsFrom true input delimiters = runsFrom true mid delimiters := by
        rw [hdec, runsFrom_strip_front delimiters pre _ hpre,
          runsFrom_strip_back delimiters suf mid hsuf]
      rw [hruns]
      have hsub : substr input pre.length mid.length = some mid := by
        rw [hdec, substr_append, List.take_left' rfl]
      rw [hsub]
      simp only [Option.some_bind]
      obtain ⟨front', last, retVec', e1, e2, e3⟩ :=
        tokenLoop_runs delimiters mid.length [] mid z [] rfl hlast hz
          (by simp only [List.nil_append]; omega)
      simp only [List.nil_append, List.length_nil] at e1 e2 e3
      rw [e2]
      simp only [Option.some_bind]
      have hnp : npos ≠ 0 := by
        unfold npos
        norm_num
      rw [if_pos hnp]
      have hfl : front'.length + last.length = mid.length := by
        rw [e1, List.length_append]
      rw [e1, substr_append, sizeSub_npos _ (by omega), List.take_of_length_le (by omega), ← e1]
      simp only [Option.some_bind, e3]

/-- C23: for an input shorter than `2 ^ 31` characters, the range of the `int` indices, and a
delimiter string of such a length, `_tokenizeString` returns, without an exception, exactly the
maximal runs of non-delimiter characters of the input in order: no token is empty, no token
holds a delimiter, an empty or all-delimiter input gives no token, and the tokens put together
are the non-delimiter characters of the input. -/
theorem tokenizeString_maximal_runs (input delimiters : List Char)
    (hi : input.length < 2 ^ 31) (hd : delimiters.length < 2 ^ 31) :
    ∃ tokens, tokenizeString input delimiters = some tokens ∧
      tokens = maximalRuns input delimiters ∧
      (∀ token ∈ tokens, token ≠ [] ∧ ∀ c ∈ token, c ∉ delimiters) ∧
      ((∀ c ∈ input, c ∈ delimiters) → tokens = []) ∧
      tokens.flatten = input.filter (fun c => !delimiters.contains c) := by
  have hi' : input.length < npos := by
    unfold npos
    omega
  have hd' : delimiters.length ≤ npos := by
    unfold npos
    omega
  refine ⟨maximalRuns input delimiters, tokenizeString_eq input delimiters hi' hd', rfl,
    runsFrom_tokens delimiters input true, ?_, ?_⟩
  · intro hall
    apply runsFrom_delimiters
    intro x hx
    simpa using hall x hx
  · unfold maximalRuns
    rw [runsFrom_flatten]
    simp only [if_true]

theorem tokenizeString_maximal_runs_witness :
    sampleLine.length < 2 ^ 31 ∧
    tokenizeString sampleLine [' ', '\t'] = some [['v'], ['1', '.', '5'], ['2']] := by
  refine ⟨by decide, ?_⟩
  obtain ⟨tokens, h1, h2, _⟩ :=
    tokenizeString_maximal_runs sampleLine [' ', '\t'] (by decide) (by decide)
  rw [h1, h2]
  decide

/-! ### Rounding to float -/

theorem roundHalfEven_eq_of_near (x : ℚ) (n : ℤ) (h1 : (n : ℚ) - 1 / 2 < x)
    (h2 : x < (n : ℚ) + 1 / 2) : roundHalfEven x = n := by
  have hfl : (⌊x⌋ : ℚ) ≤ x := Int.floor_le x
  have hfl2 : x < (⌊x⌋ : ℚ) + 1 := Int.lt_floor_add_one x
  have hcases : ⌊x⌋ = n ∨ ⌊x⌋ = n - 1 := by
    have h3 : (⌊x⌋ : ℚ) < (n : ℚ) + 1 := by linarith
    have h4 : (n : ℚ) - 2 < (⌊x⌋ : ℚ) := by linarith
    have h3' : ⌊x⌋ < n + 1 := by exact_mod_cast h3
    have h4' : n - 2 < ⌊x⌋ := by exact_mod_cast h4
    omega
  unfold roundHalfEven
  rcases hcases with h | h
  · rw [h]
    have : x - (n : ℚ) < 1 / 2 := by linarith
    simp only [this, if_true]
  · rw [h]
    have hc : ((n - 1 : ℤ) : ℚ) = (n : ℚ) - 1 := by push_cast; ring
    have hn1 : ¬ (x - ((n - 1 : ℤ) : ℚ) < 1 / 2) := by
      rw [hc]
      intro hh
      linarith
    have hn2 : 1 / 2 < x - ((n - 1 : ℤ) : ℚ) := by
      rw [hc]
      linarith
    simp only [hn1, hn2, if_true, if_false]
    omega

theorem log_eq_of_binade (q : ℚ) (e : ℤ) (h1 : (2 : ℚ) ^ e ≤ |q|) (h2 : |q| < (2 : ℚ) ^ (e + 1)) :
    Int.log 2 |q| = e := by
  have hpos : (0 : ℚ) < |q| := lt_of_lt_of_le (zpow_pos (by norm_num) e) h1
  have hb : 1 < 2 := by norm_num
  apply le_antisymm
  · have : Int.log 2 |q| < e + 1 := by
      rw [← Int.lt_zpow_iff_log_lt hb hpos]
      exact_mod_cast h2
    omega
  · rw [← Int.zpow_le_iff_le_log hb hpos]
    exact_mod_cast h1

/-- Inside the binade `[2 ^ e, 2 ^ (e + 1))` the rounding is to a multiple of
`2 ^ (e - (p - 1))`. -/
theorem roundBinary_of_binade (p : ℕ) (q : ℚ) (e : ℤ) (h1 : (2 : ℚ) ^ e ≤ |q|)
    (h2 : |q| < (2 : ℚ) ^ (e + 1)) :
    roundBinary p q
      = (roundHalfEven (q / 2 ^ (e - ((p : ℤ) - 1))) : ℚ) * 2 ^ (e - ((p : ℤ) - 1)) := by
  have hpos : (0 : ℚ) < |q| := lt_of_lt_of_le (zpow_pos (by norm_num) e) h1
  have hq : q ≠ 0 := abs_pos.1 hpos
  unfold roundBinary
  rw [if_neg hq, log_eq_of_binade q e h1 h2]

theorem roundHalfEven_le_of_lt (x : ℚ) (n : ℤ) (h : x < (n : ℚ) + 1 / 2) :
    roundHalfEven x ≤ n := by
  have hfl : (⌊x⌋ : ℚ) ≤ x := Int.floor_le x
  have hle : ⌊x⌋ ≤ n := by
    have : (⌊x⌋ : ℚ) < (n : ℚ) + 1 := by linarith
    have : ⌊x⌋ < n + 1 := by exact_mod_cast this
    omega
  unfold roundHalfEven
  rcases lt_or_eq_of_le hle with hlt | heq
  · split_ifs <;> omega
  · have : x - (⌊x⌋ : ℚ) < 1 / 2 := by
      rw [heq]
      linarith
    rw [if_pos this]
    exact hle

theorem roundHalfEven_ge_of_le (x : ℚ) (n : ℤ) (h : (n : ℚ) ≤ x) : n ≤ roundHalfEven x := by
  have hle : n ≤ ⌊x⌋ := Int.le_floor.2 h
  unfold roundHalfEven
  split_ifs <;> omega

theorem roundHalfEven_le_of_le (x : ℚ) (n : ℤ) (h : x ≤ (n : ℚ)) : roundHalfEven x ≤ n :=
  roundHalfEven_le_of_lt x n (by linarith)

/-- At or above the middle of an odd and the next even integer the rounding is at least the
even one. -/
theorem roundHalfEven_ge_of_mid (x : ℚ) (n : ℤ) (hn : n % 2 = 0) (h : (n : ℚ) - 1 / 2 ≤ x) :
    n ≤ roundHalfEven x := by
  have hfl2 : x < (⌊x⌋ : ℚ) + 1 := Int.lt_floor_add_one x
  have hge : n - 1 ≤ ⌊x⌋ := by
    have : (n : ℚ) - 2 < (⌊x⌋ : ℚ) := by linarith
    have : n - 2 < ⌊x⌋ := by exact_mod_cast this
    omega
  unfold roundHalfEven
  rcases lt_or_eq_of_le hge with hlt | heq
  · split_ifs <;> omega
  · have hc : (⌊x⌋ : ℚ) = (n : ℚ) - 1 := by
      rw [← heq]
      push_cast
      ring
    have h1 : ¬ (x - (⌊x⌋ : ℚ) < 1 / 2) := by
      rw [hc]
      intro hh
      linarith
    rw [if_neg h1]
    split_ifs <;> omega

theorem roundBinary_nonpos (p : ℕ) (q : ℚ) (h : q ≤ 0) : roundBinary p q ≤ 0 := by
  unfold roundBinary
  split_ifs with h0
  · exact le_refl _
  · have hu : (0 : ℚ) < 2 ^ (Int.log 2 |q| - ((p : ℤ) - 1)) := zpow_pos (by norm_num) _
    have hx : q / 2 ^ (Int.log 2 |q| - ((p : ℤ) - 1)) ≤ ((0 : ℤ) : ℚ) := by
      rw [Int.cast_zero]
      exact div_nonpos_of_nonpos_of_nonneg h hu.le
    have := roundHalfEven_le_of_le _ 0 hx
    have hc : (roundHalfEven (q / 2 ^ (Int.log 2 |q| - ((p : ℤ) - 1))) : ℚ) ≤ 0 := by
      exact_mod_cast this
    exact mul_nonpos_of_nonpos_of_nonneg hc hu.le

/-- A positive value below a power of two rounds to at most that power. -/
theorem roundBinary_le_zpow (p : ℕ) (q : ℚ) (e : ℤ) (h0 : 0 < q) (h : q < (2 : ℚ) ^ e) :
    roundBinary p q ≤ (2 : ℚ) ^ e := by
  have hb : 1 < 2 := by norm_num
  have habs : |q| = q := abs_of_pos h0
  have hlog : Int.log 2 |q| < e := by
    rw [← Int.lt_zpow_iff_log_lt hb (by rw [habs]; exact h0), habs]
    exact_mod_cast h
  have hup : q < (2 : ℚ) ^ (Int.log 2 |q| + 1) := by
    have := Int.lt_zpow_succ_log_self hb |q|
    rw [habs] at this ⊢
    exact_mod_cast this
  unfold roundBinary
  rw [if_neg h0.ne']
  generalize Int.log 2 |q| = l at hlog hup
  have hu : (0 : ℚ) < 2 ^ (l - ((p : ℤ) - 1)) := zpow_pos (by norm_num) _
  have hx : q / 2 ^ (l - ((p : ℤ) - 1)) ≤ (((2 : ℤ) ^ p : ℤ) : ℚ) := by
    rw [div_le_iff₀ hu]
    push_cast
    have : (2 : ℚ) ^ p * 2 ^ (l - ((p : ℤ) - 1)) = 2 ^ (l + 1) := by
      rw [← zpow_natCast, ← zpow_add₀ (by norm_num)]
      congr 1
      ring
    rw [this]
    exact hup.le
  have hr := roundHalfEven_le_of_le _ _ hx
  have hc : (roundHalfEven (q / 2 ^ (l - ((p : ℤ) - 1))) : ℚ) ≤ (2 : ℚ) ^ p := by
    exact_mod_cast hr
  calc (roundHalfEven (q / 2 ^ (l - ((p : ℤ) - 1))) : ℚ) * 2 ^ (l - ((p : ℤ) - 1))
      ≤ (2 : ℚ) ^ p * 2 ^ (l - ((p : ℤ) - 1)) := mul_le_mul_of_nonneg_right hc hu.le
    _ = 2 ^ (l + 1) := by
        rw [← zpow_natCast, ← zpow_add₀ (by norm_num)]
        congr 1
        ring
    _ ≤ 2 ^ e := zpow_le_zpow_right₀ (by norm_num) (by omega)

/-- A value at or above a power of two rounds to at least that power. -/
theorem roundBinary_ge_zpow (p : ℕ) (hp : 1 ≤ p) (q : ℚ) (e : ℤ) (h : (2 : ℚ) ^ e ≤ q) :
    (2 : ℚ) ^ e ≤ roundBinary p q := by
  have hb : 1 < 2 := by norm_num
  have h0 : 0 < q := lt_of_lt_of_le (zpow_pos (by norm_num) e) h
  have habs : |q| = q := abs_of_pos h0
  have hlog : e ≤ Int.log 2 |q| := by
    rw [← Int.zpow_le_iff_le_log hb (by rw [habs]; exact h0), habs]
    exact_mod_cast h
  have hlow : (2 : ℚ) ^ Int.log 2 |q| ≤ q := by
    have := Int.zpow_log_le_self hb (by rw [habs]; exact h0 : (0 : ℚ) < |q|)
    rw [habs] at this ⊢
    exact_mod_cast this
  unfold roundBinary
  rw [if_neg h0.ne']
  generalize Int.log 2 |q| = l at hlog hlow
  have hu : (0 : ℚ) < 2 ^ (l - ((p : ℤ) - 1)) := zpow_pos (by norm_num) _
  obtain ⟨k, hk⟩ : ∃ k : ℕ, p = k + 1 := ⟨p - 1, by omega⟩
  have hsplit : (2 : ℚ) ^ k * 2 ^ (l - ((p : ℤ) - 1)) = 2 ^ l := by
    rw [← zpow_natCast, ← zpow_add₀ (by norm_num)]
    congr 1
    rw [hk]
    push_cast
    ring
  have hx : ((((2 : ℤ) ^ k : ℤ)) : ℚ) ≤ q / 2 ^ (l - ((p : ℤ) - 1)) := by
    rw [le_div_iff₀ hu]
    push_cast
    rw [hsplit]
    exact hlow
  have hr := roundHalfEven_ge_of_le _ _ hx
  have hc : (2 : ℚ) ^ k ≤ (roundHalfEven (q / 2 ^ (l - ((p : ℤ) - 1))) : ℚ) := by
    exact_mod_cast hr
  calc (2 : ℚ) ^ e ≤ 2 ^ l := zpow_le_zpow_right₀ (by norm_num) hlog
    _ = (2 : ℚ) ^ k * 2 ^ (l - ((p : ℤ) - 1)) := hsplit.symm
    _ ≤ (roundHalfEven (q / 2 ^ (l - ((p : ℤ) - 1))) : ℚ) * 2 ^ (l - ((p : ℤ) - 1)) :=
        mul_le_mul_of_nonneg_right hc hu.le

theorem toDouble_maxDelta : toDouble MAX_DELTA_T = 4784624244118415 / 2 ^ 59 := by
  unfold toDouble MAX_DELTA_T
  rw [roundBinary_of_binade 53 _ (-7) (by norm_num [abs_of_pos]) (by norm_num [abs_of_pos]),
    roundHalfEven_eq_of_near _ 4784624244118415 (by norm_num) (by norm_num)]
  norm_num

theorem maxDeltaTFloat_eq : maxDeltaTFloat = 8912057 / 2 ^ 30 := by
  unfold maxDeltaTFloat
  rw [toDouble_maxDelta]
  unfold toFloat
  rw [roundBinary_of_binade 24 _ (-7) (by norm_num [abs_of_pos]) (by norm_num [abs_of_pos]),
    roundHalfEven_eq_of_near _ 8912057 (by norm_num) (by norm_num)]
  norm_num

/-- A measured delta is narrowed to a float above the stored `MAX_DELTA_T` exactly when it is
at least half a float step above it. -/
theorem toFloat_gt_maxDelta_iff (d : ℚ) :
    maxDeltaTFloat < toFloat d ↔ 8912057 / 2 ^ 30 + 1 / 2 ^ 31 ≤ d := by
  rw [maxDeltaTFloat_eq]
  have e7 : (2 : ℚ) ^ (-7 : ℤ) = 1 / 128 := by norm_num
  have e6 : (2 : ℚ) ^ ((-7 : ℤ) + 1) = 1 / 64 := by norm_num
  have e6' : (2 : ℚ) ^ (-6 : ℤ) = 1 / 64 := by norm_num
  have he : (2 : ℚ) ^ ((-7 : ℤ) - (((24 : ℕ) : ℤ) - 1)) = 1 / 2 ^ 30 := by norm_num
  constructor
  · intro h
    by_contra hlt
    push_neg at hlt
    have hle : toFloat d ≤ 8912057 / 2 ^ 30 := by
      unfold toFloat
      rcases le_or_lt d 0 with h0 | h0
      · have := roundBinary_nonpos 24 d h0
        have hpos : (0 : ℚ) ≤ 8912057 / 2 ^ 30 := by norm_num
        exact le_trans this hpos
      · rcases lt_or_le d (1 / 128) with h7 | h7
        · have := roundBinary_le_zpow 24 d (-7) h0 (by rw [e7]; exact h7)
          rw [e7] at this
          have hnum : (1 / 128 : ℚ) ≤ 8912057 / 2 ^ 30 := by norm_num
          exact le_trans this hnum
        · have habs : |d| = d := abs_of_pos h0
          have h6 : |d| < (2 : ℚ) ^ ((-7 : ℤ) + 1) := by
            rw [habs, e6]
            have : (8912057 / 2 ^ 30 + 1 / 2 ^ 31 : ℚ) < 1 / 64 := by norm_num
            exact lt_trans hlt this
          rw [roundBinary_of_binade 24 d (-7) (by rw [habs, e7]; exact h7) h6, he]
          have hx : d / (1 / 2 ^ 30) < ((8912057 : ℤ) : ℚ) + 1 / 2 := by
            rw [div_lt_iff₀ (by norm_num)]
            have : (((8912057 : ℤ) : ℚ) + 1 / 2) * (1 / 2 ^ 30)
                = 8912057 / 2 ^ 30 + 1 / 2 ^ 31 := by norm_num
            rw [this]
            exact hlt
          have hr := roundHalfEven_le_of_lt _ _ hx
          have hc : (roundHalfEven (d / (1 / 2 ^ 30)) : ℚ) ≤ 8912057 := by exact_mod_cast hr
          have := mul_le_mul_of_nonneg_right hc (by norm_num : (0 : ℚ) ≤ 1 / 2 ^ 30)
          have e : (8912057 : ℚ) * (1 / 2 ^ 30) = 8912057 / 2 ^ 30 := by norm_num
          rw [e] at this
          exact this
    exact absurd h (not_lt.2 hle)
  · intro h
    have h0 : 0 < d := lt_of_lt_of_le (by norm_num) h
    have habs : |d| = d := abs_of_pos h0
    unfold toFloat
    rcases lt_or_le d (1 / 64) with h6 | h6
    · have h7 : (2 : ℚ) ^ (-7 : ℤ) ≤ |d| := by
        rw [habs, e7]
        have : (1 / 128 : ℚ) ≤ 8912057 / 2 ^ 30 + 1 / 2 ^ 31 := by norm_num
        exact le_trans this h
      have h6' : |d| < (2 : ℚ) ^ ((-7 : ℤ) + 1) := by
        rw [habs, e6]
        exact h6
      rw [roundBinary_of_binade 24 d (-7) h7 h6', he]
      have hx : ((8912058 : ℤ) : ℚ) - 1 / 2 ≤ d / (1 / 2 ^ 30) := by
        rw [le_div_iff₀ (by norm_num)]
        have : (((8912058 : ℤ) : ℚ) - 1 / 2) * (1 / 2 ^ 30)
            = 8912057 / 2 ^ 30 + 1 / 2 ^ 31 := by norm_num
        rw [this]
        exact h
      have hr := roundHalfEven_ge_of_mid _ 8912058 (by decide) hx
      have hc : (8912058 : ℚ) ≤ (roundHalfEven (d / (1 / 2 ^ 30)) : ℚ) := by
        exact_mod_cast hr
      have := mul_le_mul_of_nonneg_right hc (by norm_num : (0 : ℚ) ≤ 1 / 2 ^ 30)
      have hnum : (8912057 / 2 ^ 30 : ℚ) < 8912058 * (1 / 2 ^ 30) := by norm_num
      exact lt_of_lt_of_le hnum this
    · have := roundBinary_ge_zpow 24 (by norm_num) d (-6) (by rw [e6']; exact h6)
      rw [e6'] at this
      have hnum : (8912057 / 2 ^ 30 : ℚ) < 1 / 64 := by norm_num
      exact lt_of_lt_of_le hnum this

/-- With the stored `MAX_DELTA_T`, the block clamps exactly the measured deltas that are at
least half a float step above the stored maximum; below that the timestep is the narrowed
delta and the accumulator stays. -/
theorem timeAndTimestampFloat_threshold (time lastTime simTime : ℚ) :
    (8912057 / 2 ^ 30 + 1 / 2 ^ 31 ≤ toDouble (time - lastTime) →
      timeAndTimestampFloat maxDeltaTFloat time lastTime simTime
        = (maxDeltaTFloat, time, toFloat (simTime + maxDeltaTFloat))) ∧
    (toDouble (time - lastTime) < 8912057 / 2 ^ 30 + 1 / 2 ^ 31 →
      timeAndTimestampFloat maxDeltaTFloat time lastTime simTime
        = (toFloat (toDouble (time - lastTime)), time, simTime)) := by
  constructor
  · intro h
    have hgt : toFloat (toDouble (time - lastTime)) > maxDeltaTFloat :=
      (toFloat_gt_maxDelta_iff _).2 h
    unfold timeAndTimestampFloat
    simp only [hgt, if_true]
  · intro h
    have hgt : ¬ (toFloat (toDouble (time - lastTime)) > maxDeltaTFloat) := by
      intro hh
      have := (toFloat_gt_maxDelta_iff _).1 hh
      linarith
    unfold timeAndTimestampFloat
    simp only [hgt, if_false]

theorem M_PI_pos : 0 < M_PI := by
  unfold M_PI
  norm_num

theorem floatOverflow_large : (10 : ℚ) ^ 38 ≤ floatOverflow := by
  unfold floatOverflow FLT_MAX
  norm_num

theorem FLT_TRUE_MIN_small : FLT_TRUE_MIN / 2 < 1 / 10 ^ 44 := by
  unfold FLT_TRUE_MIN
  norm_num

theorem poly6At_pos (r : ℚ) (hr : 0 < r) : 0 < poly6At r := by
  unfold poly6At
  have := M_PI_pos
  positivity

/-- A finite result of the narrowing lies within the float range. -/
theorem narrow_fin_bound (x : FloatVal) (r : ℚ) (h : x.narrow = .fin r) :
    -floatOverflow < r ∧ r < floatOverflow := by
  have hF : (0 : ℚ) < floatOverflow := lt_of_lt_of_le (by norm_num) floatOverflow_large
  cases x with
  | fin q =>
    simp only [FloatVal.narrow] at h
    split_ifs at h with h1 h2 h3
    · have hq : (0 : ℚ) = r := FloatVal.fin.inj h
      rw [← hq]
      constructor <;> linarith
    · have hq : q = r := FloatVal.fin.inj h
      rw [← hq]
      push_neg at h1 h2
      exact ⟨h2, h1⟩
  | posInf => simp [FloatVal.narrow] at h
  | negInf => simp [FloatVal.narrow] at h
  | nan => simp [FloatVal.narrow] at h

theorem narrow_fin_of_bound (q : ℚ) (h1 : -floatOverflow < q) (h2 : q < floatOverflow)
    (h3 : FLT_TRUE_MIN / 2 < |q|) : (FloatVal.fin q).narrow = .fin q := by
  simp only [FloatVal.narrow, if_neg (not_le.2 h2), if_neg (not_le.2 h1), if_neg (not_le.2 h3)]

theorem narrow_posInf_of_ge (q : ℚ) (h : floatOverflow ≤ q) :
    (FloatVal.fin q).narrow = .posInf := by
  simp only [FloatVal.narrow, if_pos h]

/-- A positive value below the overflow threshold is stored as itself or as zero. -/
theorem narrow_of_pos (q : ℚ) (h0 : 0 < q) (h2 : q < floatOverflow) :
    (FloatVal.fin q).narrow = .fin q ∨ (FloatVal.fin q).narrow = .fin 0 := by
  have hF : (0 : ℚ) < floatOverflow := lt_of_lt_of_le (by norm_num) floatOverflow_large
  have h1 : ¬ q ≤ -floatOverflow := by
    intro h
    linarith
  simp only [FloatVal.narrow, if_neg (not_le.2 h2), if_neg h1]
  by_cases h3 : |q| ≤ FLT_TRUE_MIN / 2
  · right
    rw [if_pos h3]
  · left
    rw [if_neg h3]

/-- A radius whose poly6 value is below the overflow threshold is above `10 ^ (-5)`. -/
theorem radius_of_poly6_in_range (r : ℚ) (hr : 0 < r) (hp : poly6At r < floatOverflow) :
    1 / 100000 ≤ r := by
  by_contra hlt
  push_neg at hlt
  have hpi := M_PI_pos
  have h9 : r ^ 9 < (1 / 100000 : ℚ) ^ 9 := pow_lt_pow_left₀ hlt hr.le (by norm_num)
  have hden : 0 < 64.0 * M_PI * r ^ 9 := by positivity
  have hbig : floatOverflow ≤ poly6At r := by
    unfold poly6At
    rw [le_div_iff₀ hden]
    have hden2 : 64.0 * M_PI * r ^ 9 ≤ 64.0 * M_PI * (1 / 100000 : ℚ) ^ 9 := by
      apply mul_le_mul_of_nonneg_left h9.le
      positivity
    have hnum : floatOverflow * (64.0 * M_PI * (1 / 100000 : ℚ) ^ 9) ≤ 315.0 := by
      unfold floatOverflow FLT_MAX M_PI
      norm_num
    have hF : (0 : ℚ) ≤ floatOverflow := le_trans (by norm_num) floatOverflow_large
    calc floatOverflow * (64.0 * M_PI * r ^ 9)
        ≤ floatOverflow * (64.0 * M_PI * (1 / 100000 : ℚ) ^ 9) :=
          mul_le_mul_of_nonneg_left hden2 hF
      _ ≤ 315.0 := hnum
  linarith

/-- For a radius up to `10 ^ 4` the poly6 value is a normal float or beyond the range. -/
theorem poly6At_lower (r : ℚ) (hr : 0 < r) (hr2 : r ≤ 10000) : 1 / 10 ^ 37 ≤ poly6At r := by
  have hpi := M_PI_pos
  have h9 : r ^ 9 ≤ (10000 : ℚ) ^ 9 := pow_le_pow_left₀ hr.le hr2 9
  have hden : 0 < 64.0 * M_PI * r ^ 9 := by positivity
  unfold poly6At
  rw [le_div_iff₀ hden]
  have hden2 : 64.0 * M_PI * r ^ 9 ≤ 64.0 * M_PI * (10000 : ℚ) ^ 9 := by
    apply mul_le_mul_of_nonneg_left h9
    positivity
  have hnum : (1 / 10 ^ 37 : ℚ) * (64.0 * M_PI * (10000 : ℚ) ^ 9) ≤ 315.0 := by
    unfold M_PI
    norm_num
  calc (1 / 10 ^ 37 : ℚ) * (64.0 * M_PI * r ^ 9)
      ≤ (1 / 10 ^ 37 : ℚ) * (64.0 * M_PI * (10000 : ℚ) ^ 9) :=
        mul_le_mul_of_nonneg_left hden2 (by norm_num)
    _ ≤ 315.0 := hnum

/-- Within the float range of poly6 the spiky closed form is a float of ordinary size. -/
theorem spikyAt_in_range (r : ℚ) (hr : 0 < r) (hr2 : r ≤ 10000)
    (hp : poly6At r < floatOverflow) :
    -floatOverflow < spikyAt r ∧ spikyAt r < floatOverflow ∧ FLT_TRUE_MIN / 2 < |spikyAt r| := by
  have hpi := M_PI_pos
  have hF : (0 : ℚ) < floatOverflow := lt_of_lt_of_le (by norm_num) floatOverflow_large
  have hden : 0 < M_PI * r ^ 6 := by positivity
  have hneg : spikyAt r < 0 := by
    unfold spikyAt
    apply div_neg_of_neg_of_pos
    · norm_num
    · exact hden
  have hlow : 1 / 10 ^ 25 ≤ -spikyAt r := by
    have h6 : r ^ 6 ≤ (10000 : ℚ) ^ 6 := pow_le_pow_left₀ hr.le hr2 6
    unfold spikyAt
    rw [neg_div', neg_neg, le_div_iff₀ hden]
    have hden2 : M_PI * r ^ 6 ≤ M_PI * (10000 : ℚ) ^ 6 :=
      mul_le_mul_of_nonneg_left h6 hpi.le
    have hnum : (1 / 10 ^ 25 : ℚ) * (M_PI * (10000 : ℚ) ^ 6) ≤ 45.0 := by
      unfold M_PI
      norm_num
    calc (1 / 10 ^ 25 : ℚ) * (M_PI * r ^ 6)
        ≤ (1 / 10 ^ 25 : ℚ) * (M_PI * (10000 : ℚ) ^ 6) :=
          mul_le_mul_of_nonneg_left hden2 (by norm_num)
      _ ≤ 45.0 := hnum
  have hupper : -spikyAt r < floatOverflow := by
    by_cases hq : r < 1 / 4
    · have hr3 : r ^ 3 ≤ 1 / 64 := by
        have : r ^ 3 ≤ (1 / 4 : ℚ) ^ 3 := pow_le_pow_left₀ hr.le hq.le 3
        norm_num at this
        exact this
      have hrel : -spikyAt r = (2880 * r ^ 3 / 315) * poly6At r := by
        unfold spikyAt poly6At
        field_simp
        ring
      have hle : (2880 * r ^ 3 / 315) * poly6At r ≤ 1 * poly6At r := by
        apply mul_le_mul_of_nonneg_right _ (poly6At_pos r hr).le
        linarith
      linarith
    · push_neg at hq
      have hr6 : (1 / 4 : ℚ) ^ 6 ≤ r ^ 6 := pow_le_pow_left₀ (by norm_num) hq 6
      have hbound : -spikyAt r ≤ 45 * 4096 / M_PI := by
        unfold spikyAt
        rw [neg_div', neg_neg, div_le_div_iff₀ hden hpi]
        have h6 : (1 : ℚ) ≤ 4096 * r ^ 6 := by
          norm_num at hr6
          linarith
        have := mul_le_mul_of_nonneg_left h6 (by positivity : (0 : ℚ) ≤ 45 * M_PI)
        linarith
      have hnum : 45 * 4096 / M_PI < (10 : ℚ) ^ 38 := by
        unfold M_PI
        norm_num
      linarith [floatOverflow_large]
  refine ⟨by linarith, by linarith, ?_⟩
  rw [abs_of_neg hneg]
  have := FLT_TRUE_MIN_small
  have h44 : (1 / 10 ^ 44 : ℚ) ≤ 1 / 10 ^ 25 := by norm_num
  linarith

/-- Within the float range of poly6 the tensile-correction closed form is a float of
ordinary size. -/
theorem tensileCorrAt_in_range (r : ℚ) (hr : 0 < r) (hr2 : r ≤ 10000)
    (hp : poly6At r < floatOverflow) :
    -floatOverflow < tensileCorrAt r ∧ tensileCorrAt r < floatOverflow ∧
      FLT_TRUE_MIN / 2 < |tensileCorrAt r| := by
  have hpi := M_PI_pos
  have hF : (0 : ℚ) < floatOverflow := lt_of_lt_of_le (by norm_num) floatOverflow_large
  have hpoly := poly6At_pos r hr
  have hform : tensileCorrAt r = poly6At r * ((99 / 100) ^ 3 * r ^ 6) := by
    unfold tensileCorrAt pressureRadiusAt
    ring
  have hform2 : tensileCorrAt r = 315 * (99 / 100) ^ 3 / (64 * M_PI) / r ^ 3 := by
    rw [hform]
    unfold poly6At
    field_simp
    ring
  have hc : 0 < 315 * (99 / 100 : ℚ) ^ 3 / (64 * M_PI) := by positivity
  have hr3pos : 0 < r ^ 3 := by positivity
  have hlow : 1 / 10 ^ 13 ≤ tensileCorrAt r := by
    have h3 : r ^ 3 ≤ (10000 : ℚ) ^ 3 := pow_le_pow_left₀ hr.le hr2 3
    rw [hform2, le_div_iff₀ hr3pos]
    have hnum : (1 / 10 ^ 13 : ℚ) * (10000 : ℚ) ^ 3 ≤ 315 * (99 / 100 : ℚ) ^ 3 / (64 * M_PI) := by
      unfold M_PI
      norm_num
    calc (1 / 10 ^ 13 : ℚ) * r ^ 3 ≤ (1 / 10 ^ 13 : ℚ) * (10000 : ℚ) ^ 3 :=
          mul_le_mul_of_nonneg_left h3 (by norm_num)
      _ ≤ _ := hnum
  have hpos : 0 < tensileCorrAt r := lt_of_lt_of_le (by norm_num) hlow
  have hupper : tensileCorrAt r < floatOverflow := by
    by_cases hq : r ≤ 1
    · have hr6 : r ^ 6 ≤ 1 := pow_le_one₀ hr.le hq
      have : (99 / 100 : ℚ) ^ 3 * r ^ 6 ≤ 1 := by
        have h99 : (99 / 100 : ℚ) ^ 3 ≤ 1 := by norm_num
        calc (99 / 100 : ℚ) ^ 3 * r ^ 6 ≤ 1 * 1 :=
              mul_le_mul h99 hr6 (by positivity) (by norm_num)
          _ = 1 := by norm_num
      rw [hform]
      calc poly6At r * ((99 / 100) ^ 3 * r ^ 6) ≤ poly6At r * 1 :=
            mul_le_mul_of_nonneg_left this hpoly.le
        _ = poly6At r := mul_one _
        _ < floatOverflow := hp
    · push_neg at hq
      have hr3 : (1 : ℚ) ≤ r ^ 3 := one_le_pow₀ hq.le
      have hle : tensileCorrAt r ≤ 315 * (99 / 100) ^ 3 / (64 * M_PI) := by
        rw [hform2]
        exact div_le_self hc.le hr3
      have hnum : 315 * (99 / 100 : ℚ) ^ 3 / (64 * M_PI) < (10 : ℚ) ^ 38 := by
        unfold M_PI
        norm_num
      linarith [floatOverflow_large]
  refine ⟨by linarith, hupper, ?_⟩
  rw [abs_of_pos hpos]
  have := FLT_TRUE_MIN_small
  have h44 : (1 / 10 ^ 44 : ℚ) ≤ 1 / 10 ^ 13 := by norm_num
  linarith

theorem poly6_expression (r : ℚ) (hr : 0 < r) :
    (FloatVal.fin 315.0).div (((FloatVal.fin 64.0).mul (.fin M_PI)).mul ((FloatVal.fin r).pow 9))
      = .fin (poly6At r) := by
  have hpi := M_PI_pos
  have hne : (64.0 : ℚ) * M_PI * r ^ 9 ≠ 0 := by positivity
  have h9 : (9 : ℕ) ≠ 0 := by decide
  simp only [FloatVal.pow, FloatVal.mul, FloatVal.div, if_neg h9, if_neg hne, poly6At]

theorem spiky_expression (r : ℚ) (hr : 0 < r) :
    (FloatVal.fin (-45.0)).div ((FloatVal.fin M_PI).mul ((FloatVal.fin r).pow 6))
      = .fin (spikyAt r) := by
  have hpi := M_PI_pos
  have hne : M_PI * r ^ 6 ≠ 0 := by positivity
  have h6 : (6 : ℕ) ≠ 0 := by decide
  simp only [FloatVal.pow, FloatVal.mul, FloatVal.div, if_neg h6, if_neg hne, spikyAt]

theorem pressure_expression (r : ℚ) :
    (FloatVal.fin 0.1).mul (.fin r) = .fin (pressureRadiusAt r) := by
  simp only [FloatVal.mul, pressureRadiusAt]

theorem tensile_factor_expression (r p : ℚ) :
    (((FloatVal.fin r).pow 2).sub ((FloatVal.fin p).pow 2)).pow 3
      = .fin ((r ^ 2 - p ^ 2) ^ 3) := by
  simp only [FloatVal.pow, FloatVal.sub, FloatVal.neg, FloatVal.add]
  norm_num
  ring

/-- The four assignments at a radius up to `10 ^ 4` whose poly6 value is within the float
range. -/
theorem recomputeDerivedFloat_in_range (s : FloatParamState) (r : ℚ)
    (hs : s.params.supportRad = .fin r) (hr : 0 < r) (hr2 : r ≤ 10000)
    (hp : poly6At r < floatOverflow) :
    radiusGroupFloat (recomputeDerivedFloat s).params
      = (.fin r, .fin (poly6At r), .fin (spikyAt r), .fin (pressureRadiusAt r),
          .fin (tensileCorrAt r)) := by
  have hF := floatOverflow_large
  have hT := FLT_TRUE_MIN_small
  have hpoly := poly6At_pos r hr
  have hrlow := radius_of_poly6_in_range r hr hp
  have hk : FloatVal.narrow ((FloatVal.fin 315.0).div
      (((FloatVal.fin 64.0).mul (.fin M_PI)).mul ((FloatVal.fin r).pow 9))) = .fin (poly6At r) := by
    rw [poly6_expression r hr]
    apply narrow_fin_of_bound _ (by linarith) hp
    rw [abs_of_pos hpoly]
    have := poly6At_lower r hr hr2
    have h44 : (1 / 10 ^ 44 : ℚ) ≤ 1 / 10 ^ 37 := by norm_num
    linarith
  have hsp : FloatVal.narrow ((FloatVal.fin (-45.0)).div
      ((FloatVal.fin M_PI).mul ((FloatVal.fin r).pow 6))) = .fin (spikyAt r) := by
    rw [spiky_expression r hr]
    obtain ⟨h1, h2, h3⟩ := spikyAt_in_range r hr hr2 hp
    exact narrow_fin_of_bound _ h1 h2 h3
  have hpr : FloatVal.narrow ((FloatVal.fin 0.1).mul (.fin r)) = .fin (pressureRadiusAt r) := by
    rw [pressure_expression]
    have hval : pressureRadiusAt r = r / 10 := by
      unfold pressureRadiusAt
      ring
    have hpos : 0 < pressureRadiusAt r := by
      rw [hval]
      positivity
    apply narrow_fin_of_bound
    · linarith
    · rw [hval]
      linarith
    · rw [abs_of_pos hpos, hval]
      have h44 : (1 / 10 ^ 44 : ℚ) ≤ 1 / 100000 / 10 := by norm_num
      linarith
  have hd : FloatVal.narrow ((FloatVal.fin (poly6At r)).mul
      ((((FloatVal.fin r).pow 2).sub ((FloatVal.fin (pressureRadiusAt r)).pow 2)).pow 3))
      = .fin (tensileCorrAt r) := by
    rw [tensile_factor_expression]
    have : (FloatVal.fin (poly6At r)).mul (.fin ((r ^ 2 - pressureRadiusAt r ^ 2) ^ 3))
        = .fin (tensileCorrAt r) := by
      simp only [FloatVal.mul, tensileCorrAt]
    rw [this]
    obtain ⟨h1, h2, h3⟩ := tensileCorrAt_in_range r hr hr2 hp
    exact narrow_fin_of_bound _ h1 h2 h3
  unfold recomputeDerivedFloat radiusGroupFloat
  simp only [hs, hk, hsp, hpr, hd]

/-- The four assignments at a positive radius whose poly6 value rounds beyond the float
range. -/
theorem recomputeDerivedFloat_overflow (s : FloatParamState) (r : ℚ)
    (hs : s.params.supportRad = .fin r) (hr : 0 < r) (hr2 : r < floatOverflow)
    (hp : floatOverflow ≤ poly6At r) :
    radiusGroupFloat (recomputeDerivedFloat s).params
      = (.fin r, .posInf, (FloatVal.fin (spikyAt r)).narrow,
          (FloatVal.fin (pressureRadiusAt r)).narrow, .posInf) := by
  have hk : FloatVal.narrow ((FloatVal.fin 315.0).div
      (((FloatVal.fin 64.0).mul (.fin M_PI)).mul ((FloatVal.fin r).pow 9))) = .posInf := by
    rw [poly6_expression r hr]
    exact narrow_posInf_of_ge _ hp
  have hsp : FloatVal.narrow ((FloatVal.fin (-45.0)).div
      ((FloatVal.fin M_PI).mul ((FloatVal.fin r).pow 6))) = (FloatVal.fin (spikyAt r)).narrow := by
    rw [spiky_expression r hr]
  have hpr : FloatVal.narrow ((FloatVal.fin 0.1).mul (.fin r))
      = (FloatVal.fin (pressureRadiusAt r)).narrow := by
    rw [pressure_expression]
  have hval : pressureRadiusAt r = r / 10 := by
    unfold pressureRadiusAt
    ring
  have hd : FloatVal.narrow (FloatVal.posInf.mul
      ((((FloatVal.fin r).pow 2).sub (((FloatVal.fin (pressureRadiusAt r)).narrow).pow 2)).pow 3))
      = .posInf := by
    have hinf : ∀ p : ℚ, 0 ≤ p → p < r →
        FloatVal.narrow (FloatVal.posInf.mul
          ((((FloatVal.fin r).pow 2).sub ((FloatVal.fin p).pow 2)).pow 3)) = .posInf := by
      intro p hp0 hpr'
      rw [tensile_factor_expression]
      have hfac : 0 < (r ^ 2 - p ^ 2) ^ 3 := by
        have : 0 < r ^ 2 - p ^ 2 := by nlinarith
        positivity
      simp only [FloatVal.mul, FloatVal.infTimes, hfac.ne', if_false, hfac, if_true,
        FloatVal.narrow, eq_self_iff_true, decide_True]
    rcases narrow_of_pos (pressureRadiusAt r) (by rw [hval]; positivity)
      (by rw [hval]; linarith) with h | h
    · rw [h]
      exact hinf _ (by rw [hval]; positivity) (by rw [hval]; linarith)
    · rw [h]
      exact hinf 0 le_rfl hr
  unfold recomputeDerivedFloat radiusGroupFloat
  simp only [hs, hk, hsp, hpr, hd]

theorem radiusGroupFloat_onKeyV (dt : ℚ) (s : FloatParamState) :
    radiusGroupFloat (onKeyVFloat dt s).params = radiusGroupFloat s.params := rfl

theorem radiusGroupFloat_onKeyC (dt : ℚ) (s : FloatParamState) :
    radiusGroupFloat (onKeyCFloat dt s).params = radiusGroupFloat s.params := by
  unfold onKeyCFloat; split <;> rfl

theorem radiusGroupFloat_onKey8 (dt : ℚ) (s : FloatParamState) :
    radiusGroupFloat (onKey8Float dt s).params = radiusGroupFloat s.params := rfl

theorem radiusGroupFloat_onKey7 (dt : ℚ) (s : FloatParamState) :
    radiusGroupFloat (onKey7Float dt s).params = radiusGroupFloat s.params := by
  unfold onKey7Float; split <;> rfl

theorem radiusGroupFloat_onKey5 (dt : ℚ) (s : FloatParamState) :
    radiusGroupFloat (onKey5Float dt s).params = radiusGroupFloat s.params := rfl

theorem radiusGroupFloat_onKey4 (dt : ℚ) (s : FloatParamState) :
    radiusGroupFloat (onKey4Float dt s).params = radiusGroupFloat s.params := by
  unfold onKey4Float; split <;> rfl

theorem radiusGroupFloat_whenKey (down : Bool) (f : FloatParamState → FloatParamState)
    (hf : ∀ s, radiusGroupFloat (f s).params = radiusGroupFloat s.params) (s : FloatParamState) :
    radiusGroupFloat (whenKeyFloat down f s).params = radiusGroupFloat s.params := by
  unfold whenKeyFloat; split
  · exact hf s
  · rfl

/-- The keys polled after key T leave the stored radius group as key T left it. -/
theorem updateParamsFloat_radiusGroup (keys : Keys) (dt : ℚ) (simTime : FloatVal)
    (s : FloatParamState) :
    radiusGroupFloat (updateParamsFloat keys dt simTime s).params
      = radiusGroupFloat
          (whenKeyFloat keys.keyT (onKeyTFloat dt) (beforeKeyTFloat keys dt simTime s)).params := by
  unfold updateParamsFloat beforeKeyTFloat
  simp only []
  rw [radiusGroupFloat_whenKey _ _ (radiusGroupFloat_onKey4 dt),
    radiusGroupFloat_whenKey _ _ (radiusGroupFloat_onKey5 dt),
    radiusGroupFloat_whenKey _ _ (radiusGroupFloat_onKey7 dt),
    radiusGroupFloat_whenKey _ _ (radiusGroupFloat_onKey8 dt),
    radiusGroupFloat_whenKey _ _ (radiusGroupFloat_onKeyC dt),
    radiusGroupFloat_whenKey _ _ (radiusGroupFloat_onKeyV dt)]

/-- When the radius is changed, the stored radius group at the end of the call is the one
the four assignments leave, at a radius that comes out of a narrowing. -/
theorem updateParamsFloat_recomputed (keys : Keys) (dt : ℚ) (simTime : FloatVal)
    (s : FloatParamState)
    (h : keys.keyY = true ∨ (keys.keyT = true ∧
      (beforeKeyTFloat keys dt simTime s).params.supportRad.gt (.fin (fineStep dt)) = true)) :
    ∃ (q : FloatParamState) (x : FloatVal), q.params.supportRad = x.narrow ∧
      radiusGroupFloat (updateParamsFloat keys dt simTime s).params
        = radiusGroupFloat (recomputeDerivedFloat q).params := by
  rw [updateParamsFloat_radiusGroup]
  by_cases hT : keys.keyT = true ∧
      (beforeKeyTFloat keys dt simTime s).params.supportRad.gt (.fin (fineStep dt)) = true
  · obtain ⟨hT1, hT2⟩ := hT
    simp only [whenKeyFloat, hT1, if_true, onKeyTFloat, hT2]
    exact ⟨_, _, rfl, rfl⟩
  · have hY : keys.keyY = true := by
      rcases h with h | h
      · exact h
      · exact absurd h hT
    have hsame : whenKeyFloat keys.keyT (onKeyTFloat dt) (beforeKeyTFloat keys dt simTime s)
        = beforeKeyTFloat keys dt simTime s := by
      unfold whenKeyFloat onKeyTFloat
      by_cases hT1 : keys.keyT = true
      · have hg : ¬ ((beforeKeyTFloat keys dt simTime s).params.supportRad.gt
            (.fin (fineStep dt)) = true) := fun hg => hT ⟨hT1, hg⟩
        simp [hT1, hg]
      · simp [hT1]
    rw [hsame]
    unfold beforeKeyTFloat
    simp only [whenKeyFloat, hY, if_true, onKeyYFloat]
    exact ⟨_, _, rfl, rfl⟩

/-- C7 (as amended): whenever `updateParams` changes the support radius (key Y is down, or
key T is down and its guard passes when it is polled), the four derived globals it ends with
are reassigned from the radius `r` it ends with.  For a positive `r` up to `10 ^ 4` whose
poly6 value `315 / (64 π r ^ 9)` is within the float range they are the four closed forms at
`r`; for a positive `r` whose poly6 value rounds beyond `FLT_MAX`, `kPoly` is stored as `+∞`
and `dCorr`, computed from the stored `kPoly`, is `+∞` as well, while `kSpiky` and
`pressureRad` are their closed forms narrowed to float. -/
theorem updateParamsFloat_recomputes_derived (keys : Keys) (dt : ℚ) (simTime : FloatVal)
    (s : FloatParamState)
    (h : keys.keyY = true ∨ (keys.keyT = true ∧
      (beforeKeyTFloat keys dt simTime s).params.supportRad.gt (.fin (fineStep dt)) = true)) :
    (∀ r, (updateParamsFloat keys dt simTime s).params.supportRad = .fin r → 0 < r →
      r ≤ 10000 → poly6At r < floatOverflow →
        (updateParamsFloat keys dt simTime s).params.kPoly = .fin (poly6At r) ∧
        (updateParamsFloat keys dt simTime s).params.kSpiky = .fin (spikyAt r) ∧
        (updateParamsFloat keys dt simTime s).params.pressureRad = .fin (pressureRadiusAt r) ∧
        (updateParamsFloat keys dt simTime s).params.dCorr = .fin (tensileCorrAt r)) ∧
    (∀ r, (updateParamsFloat keys dt simTime s).params.supportRad = .fin r → 0 < r →
      floatOverflow ≤ poly6At r →
        (updateParamsFloat keys dt simTime s).params.kPoly = .posInf ∧
        (updateParamsFloat keys dt simTime s).params.kSpiky = (FloatVal.fin (spikyAt r)).narrow ∧
        (updateParamsFloat keys dt simTime s).params.pressureRad
          = (FloatVal.fin (pressureRadiusAt r)).narrow ∧
        (updateParamsFloat keys dt simTime s).params.dCorr = .posInf) := by
  obtain ⟨q, x, hq, hgroup⟩ := updateParamsFloat_recomputed keys dt simTime s h
  have hrad : (updateParamsFloat keys dt simTime s).params.supportRad = q.params.supportRad := by
    have := congrArg (fun g => g.1) hgroup
    exact this
  constructor
  · intro r hr hpos hr2 hp
    have hqr : q.params.supportRad = .fin r := by rw [← hrad, hr]
    have hg := recomputeDerivedFloat_in_range q r hqr hpos hr2 hp
    rw [← hgroup] at hg
    simp only [radiusGroupFloat, Prod.mk.injEq] at hg
    exact ⟨hg.2.1, hg.2.2.1, hg.2.2.2.1, hg.2.2.2.2⟩
  · intro r hr hpos hp
    have hqr : q.params.supportRad = .fin r := by rw [← hrad, hr]
    have hb := narrow_fin_bound x r (by rw [← hq, hqr])
    have hg := recomputeDerivedFloat_overflow q r hqr hpos hb.2 hp
    rw [← hgroup] at hg
    simp only [radiusGroupFloat, Prod.mk.injEq] at hg
    exact ⟨hg.2.1, hg.2.2.1, hg.2.2.2.1, hg.2.2.2.2⟩

/-- With only key T down and its guard passing, the call ends with the four assignments at
the radius less the step. -/
theorem updateParamsFloat_onlyKeyT (dt : ℚ) (simTime : FloatVal) (s : FloatParamState) (r : ℚ)
    (hs : s.params.supportRad = .fin r) (hg : fineStep dt < r)
    (h1 : 1 / 10 ^ 44 ≤ r - fineStep dt) (h2 : r - fineStep dt ≤ 1) :
    ∃ q : FloatParamState, q.params.supportRad = .fin (r - fineStep dt) ∧
      radiusGroupFloat (updateParamsFloat onlyKeyT dt simTime s).params
        = radiusGroupFloat (recomputeDerivedFloat q).params := by
  rw [updateParamsFloat_radiusGroup]
  have hbefore : beforeKeyTFloat onlyKeyT dt simTime s
      = { s with ubo := { s.ubo with time := simTime } } := rfl
  have hgt : (FloatVal.fin r).gt (.fin (fineStep dt)) = true := by
    simp only [FloatVal.gt, gt_iff_lt, hg, decide_True]
  have hsub : ((FloatVal.fin r).sub (.fin (fineStep dt))).narrow = .fin (r - fineStep dt) := by
    have : (FloatVal.fin r).sub (.fin (fineStep dt)) = .fin (r - fineStep dt) := by
      simp only [FloatVal.sub, FloatVal.neg, FloatVal.add]
      rw [sub_eq_add_neg]
    rw [this]
    have hF := floatOverflow_large
    have hT := FLT_TRUE_MIN_small
    have hpos : (0 : ℚ) < r - fineStep dt := lt_of_lt_of_le (by norm_num) h1
    apply narrow_fin_of_bound
    · linarith
    · have : (1 : ℚ) < 10 ^ 38 := by norm_num
      linarith
    · rw [abs_of_pos hpos]
      linarith
  rw [hbefore]
  have hT : onlyKeyT.keyT = true := rfl
  simp only [whenKeyFloat, hT, if_true, onKeyTFloat, hs, hgt, hsub]
  exact ⟨_, rfl, rfl⟩

theorem supportRad_of_radiusGroupFloat {p q : FloatParams}
    (h : radiusGroupFloat p = radiusGroupFloat q) : p.supportRad = q.supportRad :=
  congrArg (fun g => g.1) h

/-- Key T held at 60 frames a second takes the boot radius down by 1/6000 a frame. -/
theorem holdKeyT_supportRad :
    ∀ n : ℕ, n ≤ 2999 →
      (holdKeyT n (1 / 60) bootFloatParamState).params.supportRad
        = .fin (1 / 2 - (n : ℚ) / 6000) := by
  intro n
  induction n with
  | zero =>
    intro _
    show FloatVal.fin bootParams.supportRad = _
    have : bootParams.supportRad = 1 / 2 := by
      show SUPPORT_RADIUS = 1 / 2
      unfold SUPPORT_RADIUS
      norm_num
    rw [this]
    norm_num
  | succ n ih =>
    intro hn
    have ihn := ih (by omega)
    have hstep : fineStep (1 / 60) = 1 / 6000 := by
      unfold fineStep
      norm_num
    have hn' : (n : ℚ) ≤ 2998 := by
      have : n ≤ 2998 := by omega
      exact_mod_cast this
    have hn0 : (0 : ℚ) ≤ (n : ℚ) := Nat.cast_nonneg n
    have h44 : (1 / 10 ^ 44 : ℚ) ≤ 1 / 6000 := by norm_num
    obtain ⟨q, hq, hgroup⟩ := updateParamsFloat_onlyKeyT (1 / 60) (.fin 0)
      (holdKeyT n (1 / 60) bootFloatParamState) (1 / 2 - (n : ℚ) / 6000) ihn
      (by rw [hstep]; linarith) (by rw [hstep]; linarith) (by rw [hstep]; linarith)
    have hiter : holdKeyT (n + 1) (1 / 60) bootFloatParamState
        = updateParamsFloat onlyKeyT (1 / 60) (.fin 0)
            (holdKeyT n (1 / 60) bootFloatParamState) := by
      unfold holdKeyT
      rw [Function.iterate_succ_apply']
    rw [hiter, supportRad_of_radiusGroupFloat hgroup]
    show q.params.supportRad = _
    rw [hq, hstep]
    congr 1
    push_cast
    ring

/-- C7 (as stated) fails: with key T down at the boot radius 0.5 and `dt / 100` just below
it, the call ends at the radius `2 ^ (-16)`; there `315 / (64 π r ^ 9)` is beyond the float
range, so `kPoly` is stored as `+∞` and `dCorr`, the product of the stored `kPoly` and a
positive factor, is `+∞`, although its closed form lies within the float range.  Neither is
its closed form. -/
theorem updateParamsFloat_overflow :
    (updateParamsFloat onlyKeyT longFrame (.fin 0) bootFloatParamState).params.supportRad
      = .fin (1 / 65536) ∧
    (updateParamsFloat onlyKeyT longFrame (.fin 0) bootFloatParamState).params.kPoly = .posInf ∧
    (updateParamsFloat onlyKeyT longFrame (.fin 0) bootFloatParamState).params.dCorr = .posInf ∧
    (0 < tensileCorrAt (1 / 65536) ∧ tensileCorrAt (1 / 65536) ≤ FLT_MAX) ∧
    (updateParamsFloat onlyKeyT longFrame (.fin 0) bootFloatParamState).params.kPoly
      ≠ .fin (poly6At (1 / 65536)) ∧
    (updateParamsFloat onlyKeyT longFrame (.fin 0) bootFloatParamState).params.dCorr
      ≠ .fin (tensileCorrAt (1 / 65536)) := by
  have hstep : fineStep longFrame = 1 / 2 - 1 / 65536 := by
    unfold fineStep longFrame
    norm_num
  have hboot : bootFloatParamState.params.supportRad = .fin (1 / 2) := by
    show FloatVal.fin SUPPORT_RADIUS = _
    unfold SUPPORT_RADIUS
    norm_num
  obtain ⟨q, hq, hgroup⟩ := updateParamsFloat_onlyKeyT longFrame (.fin 0) bootFloatParamState
    (1 / 2) hboot (by rw [hstep]; norm_num) (by rw [hstep]; norm_num) (by rw [hstep]; norm_num)
  have hr : (1 : ℚ) / 2 - fineStep longFrame = 1 / 65536 := by
    rw [hstep]
    norm_num
  rw [hr] at hq
  have hp : floatOverflow ≤ poly6At (1 / 65536) := by
    unfold poly6At M_PI floatOverflow FLT_MAX
    norm_num
  have hF := floatOverflow_large
  have hover := recomputeDerivedFloat_overflow q (1 / 65536) hq (by norm_num)
    (lt_of_lt_of_le (by norm_num) hF) hp
  rw [← hgroup] at hover
  simp only [radiusGroupFloat, Prod.mk.injEq] at hover
  obtain ⟨h1, h2, _, _, h5⟩ := hover
  have ht : 0 < tensileCorrAt (1 / 65536) ∧ tensileCorrAt (1 / 65536) ≤ FLT_MAX := by
    unfold tensileCorrAt poly6At pressureRadiusAt M_PI FLT_MAX
    constructor <;> norm_num
  refine ⟨h1, h2, h5, ht, ?_, ?_⟩
  · rw [h2]
    exact fun h => FloatVal.noConfusion h
  · rw [h5]
    exact fun h => FloatVal.noConfusion h

/-- The same overflow with ordinary frames: key T held for 2999 frames of 1/60 s and one
frame of 0.015 s takes the radius from 0.5 to 1/60000, where `kPoly` and `dCorr` are stored
as `+∞`. -/
theorem holdKeyT_overflow :
    (updateParamsFloat onlyKeyT (3 / 200) (.fin 0)
      (holdKeyT 2999 (1 / 60) bootFloatParamState)).params.supportRad = .fin (1 / 60000) ∧
    (updateParamsFloat onlyKeyT (3 / 200) (.fin 0)
      (holdKeyT 2999 (1 / 60) bootFloatParamState)).params.kPoly = .posInf ∧
    (updateParamsFloat onlyKeyT (3 / 200) (.fin 0)
      (holdKeyT 2999 (1 / 60) bootFloatParamState)).params.dCorr = .posInf := by
  have hstep : fineStep (3 / 200) = 3 / 20000 := by
    unfold fineStep
    norm_num
  have hrad := holdKeyT_supportRad 2999 le_rfl
  have hval : (1 : ℚ) / 2 - ((2999 : ℕ) : ℚ) / 6000 = 1 / 6000 := by norm_num
  rw [hval] at hrad
  obtain ⟨q, hq, hgroup⟩ := updateParamsFloat_onlyKeyT (3 / 200) (.fin 0)
    (holdKeyT 2999 (1 / 60) bootFloatParamState) (1 / 6000) hrad
    (by rw [hstep]; norm_num) (by rw [hstep]; norm_num) (by rw [hstep]; norm_num)
  have hr : (1 : ℚ) / 6000 - fineStep (3 / 200) = 1 / 60000 := by
    rw [hstep]
    norm_num
  rw [hr] at hq
  have hp : floatOverflow ≤ poly6At (1 / 60000) := by
    unfold poly6At M_PI floatOverflow FLT_MAX
    norm_num
  have hF := floatOverflow_large
  have hover := recomputeDerivedFloat_overflow q (1 / 60000) hq (by norm_num)
    (lt_of_lt_of_le (by norm_num) hF) hp
  rw [← hgroup] at hover
  simp only [radiusGroupFloat, Prod.mk.injEq] at hover
  exact ⟨hover.1, hover.2.1, hover.2.2.2.2⟩

theorem updateParamsFloat_recomputes_derived_witness :
    (updateParamsFloat onlyKeyY 1 (.fin 0) bootFloatParamState).params.kPoly
      = .fin (poly6At (51 / 100)) ∧
    (updateParamsFloat onlyKeyY 1 (.fin 0) bootFloatParamState).params.kSpiky
      = .fin (spikyAt (51 / 100)) ∧
    (updateParamsFloat onlyKeyY 1 (.fin 0) bootFloatParamState).params.pressureRad
      = .fin (pressureRadiusAt (51 / 100)) ∧
    (updateParamsFloat onlyKeyY 1 (.fin 0) bootFloatParamState).params.dCorr
      = .fin (tensileCorrAt (51 / 100)) :=
  (updateParamsFloat_recomputes_derived onlyKeyY 1 (.fin 0) bootFloatParamState (Or.inl rfl)).1
    (51 / 100)
    (by
      have h : (updateParamsFloat onlyKeyY 1 (.fin 0) bootFloatParamState).params.supportRad
          = ((FloatVal.fin SUPPORT_RADIUS).add (.fin (fineStep 1))).narrow := rfl
      rw [h]
      have e : (FloatVal.fin SUPPORT_RADIUS).add (.fin (fineStep 1)) = .fin (51 / 100) := by
        simp only [FloatVal.add, SUPPORT_RADIUS, fineStep]
        norm_num
      rw [e]
      apply narrow_fin_of_bound
      · unfold floatOverflow FLT_MAX; norm_num
      · unfold floatOverflow FLT_MAX; norm_num
      · unfold FLT_TRUE_MIN; norm_num [abs_of_pos])
    (by norm_num)
    (by norm_num)
    (by unfold poly6At M_PI floatOverflow FLT_MAX; norm_num)

end PBF
